import Mathlib

/-!
# numgo `random`: sampling from the uniform, exponential and Poisson distributions

A shallow embedding of `src/random/random.go`.

* The `float64` arithmetic of the source is taken through an interface,
  `Arith F`: every operator and every `math` call of the source is one field
  of it, so that each definition below follows its source function operator
  by operator.  Two readings of the interface are given: `binary64`, IEEE-754
  double precision with round-to-nearest-even on rationals, and `exactArith`,
  the exact arithmetic of an ordered field such as the real numbers.
* The embedded `*rand.Rand` is a state `σ` with a step function
  `Source.float64 : σ → F × σ` (the draw and the advanced state).
* The two unbounded `for` loops take a fuel argument: `none` means that the
  fuel ran out before the loop returned.
-/

set_option autoImplicit false

namespace Numgo

/-! ## The arithmetic interface -/

/-- The `float64` operations that `random.go` uses.  `lit q` is the constant
written `q` in the source text, `le`, `lt`, `eq` are `<=`, `<`, `==`
(`x >= y` is `le y x` and `x > y` is `lt y x`), `toInt64` is the conversion
`int64(x)` and `ofInt64` the conversion `float64(k)`. -/
structure Arith (F : Type) where
  lit : ℚ → F
  add : F → F → F
  sub : F → F → F
  mul : F → F → F
  div : F → F → F
  neg : F → F
  abs : F → F
  sqrt : F → F
  log : F → F
  exp : F → F
  le : F → F → Bool
  lt : F → F → Bool
  eq : F → F → Bool
  toInt64 : F → Int
  ofInt64 : Int → F

/-- The random source behind `Rand`: `float64 r` is the value returned by
`r.Float64()` together with the state of the source after the call. -/
structure Source (F σ : Type) where
  float64 : σ → F × σ

/-- Two's-complement wrap-around of `int64` arithmetic. -/
def wrapInt64 (z : Int) : Int := (z + 2 ^ 63) % 2 ^ 64 - 2 ^ 63

variable {F σ : Type}

/-! ## The samplers -/

/-- `standardExpFloat64`: `-math.Log(1.0 - r.Float64())`. -/
def standardExpFloat64 (A : Arith F) (R : Source F σ) (r : σ) : F × σ :=
  let d := R.float64 r
  (A.neg (A.log (A.sub (A.lit 1) d.1)), d.2)

/-- `ExpFloat64`: `scale * r.standardExpFloat64()`. -/
def ExpFloat64 (A : Arith F) (R : Source F σ) (scale : F) (r : σ) : F × σ :=
  let d := standardExpFloat64 A R r
  (A.mul scale d.1, d.2)

/-- `UniformFloat64`: `loc + scale*r.Float64()`. -/
def UniformFloat64 (A : Arith F) (R : Source F σ) (loc scale : F) (r : σ) : F × σ :=
  let d := R.float64 r
  (A.add loc (A.mul scale d.1), d.2)

/-- The `for` loop of `poissonMult`, entered with the running product `prod`
and the count `X`. -/
def poissonMultLoop (A : Arith F) (R : Source F σ) (enlam : F) :
    Nat → F → Int → σ → Option (Int × σ)
  | 0, _, _, _ => none
  | fuel + 1, prod, X, r =>
    let d := R.float64 r
    let prod := A.mul prod d.1
    if A.lt enlam prod then
      poissonMultLoop A R enlam fuel prod (wrapInt64 (X + 1)) d.2
    else
      some (X, d.2)

/-- `poissonMult`: `enlam := math.Exp(-lam)`, `prod := 1.0`, `X = 0`, then the
loop. -/
def poissonMult (A : Arith F) (R : Source F σ) (fuel : Nat) (lam : F) (r : σ) :
    Option (Int × σ) :=
  poissonMultLoop A R (A.exp (A.neg lam)) fuel (A.lit 1) 0 r

/-- The coefficients `a[0]`, ..., `a[9]` of `loggam`, as written in the
source. -/
def loggamCoeffs : List ℚ :=
  [8.333333333333333e-02, -2.777777777777778e-03,
   7.936507936507937e-04, -5.952380952380952e-04,
   8.417508417508418e-04, -1.917526917526918e-03,
   6.410256410256410e-03, -2.955065359477124e-02,
   1.796443723688307e-01, -1.39243221690590e+00]

/-- The constant `math.Pi` of the Go library, with the digits of its
declaration. -/
def goPi : ℚ := 3.14159265358979323846264338327950288419716939937510582097494459

/-- The first loop of `loggam`: `gl0 = a[9]`, then for `k = 8` down to `0`,
`gl0 *= x2; gl0 += a[k]`. -/
def loggamSeries (A : Arith F) (x2 : F) : F :=
  (loggamCoeffs.reverse.drop 1).foldl (fun gl0 c => A.add (A.mul gl0 x2) (A.lit c))
    (A.lit (loggamCoeffs.getD 9 0))

/-- The second loop of `loggam`, with `m` iterations left:
`gl -= math.Log(x0 - 1.0); x0 -= 1.0`. -/
def loggamShift (A : Arith F) : Nat → F → F → F
  | 0, gl, _ => gl
  | m + 1, gl, x0 =>
    loggamShift A m (A.sub gl (A.log (A.sub x0 (A.lit 1)))) (A.sub x0 (A.lit 1))

/-- `loggam`. -/
def loggam (A : Arith F) (x : F) : F :=
  if A.eq x (A.lit 1) || A.eq x (A.lit 2) then
    A.lit 0
  else
    let n : Int := if A.le x (A.lit 7) then A.toInt64 (A.sub (A.lit 7) x) else 0
    let x0 : F := if A.le x (A.lit 7) then A.add x (A.ofInt64 n) else x
    let x2 := A.div (A.lit 1) (A.mul x0 x0)
    let xp := A.lit (2 * goPi)
    let gl0 := loggamSeries A x2
    let gl := A.sub (A.add (A.add (A.div gl0 x0) (A.mul (A.lit 0.5) (A.log xp)))
      (A.mul (A.sub x0 (A.lit 0.5)) (A.log x0))) x0
    if A.le x (A.lit 7) then loggamShift A n.toNat gl x0 else gl

/-- The value `gl` of `loggam` after the series, as a function of the point
`x0` at which the series is evaluated (lines 112 to 119 of the source). -/
def loggamStirling (A : Arith F) (x0 : F) : F :=
  A.sub (A.add (A.add (A.div (loggamSeries A (A.div (A.lit 1) (A.mul x0 x0))) x0)
    (A.mul (A.lit 0.5) (A.log (A.lit (2 * goPi)))))
    (A.mul (A.sub x0 (A.lit 0.5)) (A.log x0))) x0

/-- The candidate `k` of one iteration of `poissonPtrs`:
`int64((2*a/us+b)*U + lam + 0.43)`. -/
def ptrsCandidate (A : Arith F) (lam a b us U : F) : Int :=
  A.toInt64 (A.add (A.add (A.mul (A.add (A.div (A.mul (A.lit 2) a) us) b) U) lam)
    (A.lit 0.43))

/-- The `for` loop of `poissonPtrs`. -/
def poissonPtrsLoop (A : Arith F) (R : Source F σ) (lam loglam a b invalpha vr : F) :
    Nat → σ → Option (Int × σ)
  | 0, _ => none
  | fuel + 1, r =>
    let d1 := R.float64 r
    let U := A.sub d1.1 (A.lit 0.5)
    let d2 := R.float64 d1.2
    let V := d2.1
    let us := A.sub (A.lit 0.5) (A.abs U)
    let k := ptrsCandidate A lam a b us U
    if A.le (A.lit 0.07) us && A.le V vr then
      some (k, d2.2)
    else if decide (k < 0) || (A.lt us (A.lit 0.013) && A.lt us V) then
      poissonPtrsLoop A R lam loglam a b invalpha vr fuel d2.2
    else if A.le
        (A.sub (A.add (A.log V) (A.log invalpha)) (A.log (A.add (A.div a (A.mul us us)) b)))
        (A.sub (A.add (A.neg lam) (A.mul (A.ofInt64 k) loglam))
          (loggam A (A.ofInt64 (wrapInt64 (k + 1))))) then
      some (k, d2.2)
    else
      poissonPtrsLoop A R lam loglam a b invalpha vr fuel d2.2

/-- `poissonPtrs`: the constants `slam`, `loglam`, `b`, `a`, `invalpha`, `vr`,
then the loop. -/
def poissonPtrs (A : Arith F) (R : Source F σ) (fuel : Nat) (lam : F) (r : σ) :
    Option (Int × σ) :=
  let slam := A.sqrt lam
  let loglam := A.log lam
  let b := A.add (A.lit 0.931) (A.mul (A.lit 2.53) slam)
  let a := A.add (A.lit (-0.059)) (A.mul (A.lit 0.02483) b)
  let invalpha := A.add (A.lit 1.1239) (A.div (A.lit 1.1328) (A.sub b (A.lit 3.4)))
  let vr := A.sub (A.lit 0.9277) (A.div (A.lit 3.6224) (A.sub b (A.lit 2)))
  poissonPtrsLoop A R lam loglam a b invalpha vr fuel r

/-- `PoissonInt64`. -/
def PoissonInt64 (A : Arith F) (R : Source F σ) (fuel : Nat) (lam : F) (r : σ) :
    Option (Int × σ) :=
  if A.le (A.lit 10) lam then
    poissonPtrs A R fuel lam r
  else if A.eq lam (A.lit 0) then
    some (0, r)
  else
    poissonMult A R fuel lam r

/-! ## IEEE-754 binary64

The finite values of `float64` are rationals; the result of every operation
is the exact result rounded to the nearest value of the format, ties to even.
The sign of a zero is not recorded (a zero divisor counts as `+0`); the
source divides by zero only in `2*a/us` and `a/(us*us)`, where `us` is the
difference `0.5 - |U|` of two equal values, which is `+0`.  Operations are
rounded one by one, without fused multiply-add, and `int64(x)` outside the
range of `int64` gives `-2^63`, as on amd64 (the language leaves that result
to the implementation). -/

/-- A `float64` value. -/
inductive F64 where
  | fin (q : ℚ)
  | pinf
  | ninf
  | nan
  deriving DecidableEq

/-- Rounding of a rational to the nearest integer, ties to the even one. -/
def roundHalfEven (y : ℚ) : Int :=
  if y - ⌊y⌋ < 1 / 2 then ⌊y⌋
  else if 1 / 2 < y - ⌊y⌋ then ⌊y⌋ + 1
  else if ⌊y⌋ % 2 = 0 then ⌊y⌋ else ⌊y⌋ + 1

/-- The exponent `e` with `2^e ≤ |q| < 2^(e+1)`, and `-1022` for the numbers
below the normal range. -/
def binade (q : ℚ) : Int := max (Int.log 2 |q|) (-1022)

/-- The spacing of the binary64 values in the binade of `q`. -/
def quantum (q : ℚ) : ℚ := 2 ^ (binade q - 52)

/-- Rounding to the nearest multiple of the quantum, ties to even, with an
unbounded exponent. -/
def rnd (q : ℚ) : ℚ := roundHalfEven (q / quantum q) * quantum q

namespace F64

/-- Rounding of an exact result to binary64, overflowing to an infinity. -/
def round (q : ℚ) : F64 :=
  if 2 ^ 1024 ≤ |rnd q| then (if 0 < q then pinf else ninf) else fin (rnd q)

/-- The unary minus. -/
def neg : F64 → F64
  | fin q => fin (-q)
  | pinf => ninf
  | ninf => pinf
  | nan => nan

/-- The function `math.Abs`. -/
def abs : F64 → F64
  | fin q => fin |q|
  | pinf => pinf
  | ninf => pinf
  | nan => nan

/-- The sum `x + y`. -/
def add : F64 → F64 → F64
  | fin a, fin b => round (a + b)
  | nan, _ => nan
  | _, nan => nan
  | pinf, ninf => nan
  | ninf, pinf => nan
  | pinf, _ => pinf
  | _, pinf => pinf
  | ninf, _ => ninf
  | _, ninf => ninf

/-- The difference `x - y`. -/
def sub (x y : F64) : F64 := add x (neg y)

/-- The product `x * y`. -/
def mul : F64 → F64 → F64
  | fin a, fin b => round (a * b)
  | nan, _ => nan
  | _, nan => nan
  | fin a, pinf => if a = 0 then nan else if 0 < a then pinf else ninf
  | fin a, ninf => if a = 0 then nan else if 0 < a then ninf else pinf
  | pinf, fin b => if b = 0 then nan else if 0 < b then pinf else ninf
  | ninf, fin b => if b = 0 then nan else if 0 < b then ninf else pinf
  | pinf, pinf => pinf
  | ninf, ninf => pinf
  | pinf, ninf => ninf
  | ninf, pinf => ninf

/-- The quotient `x / y`. -/
def div : F64 → F64 → F64
  | fin a, fin b =>
    if b = 0 then (if a = 0 then nan else if 0 < a then pinf else ninf) else round (a / b)
  | nan, _ => nan
  | _, nan => nan
  | fin _, pinf => fin 0
  | fin _, ninf => fin 0
  | pinf, fin b => if 0 ≤ b then pinf else ninf
  | ninf, fin b => if 0 ≤ b then ninf else pinf
  | pinf, pinf => nan
  | pinf, ninf => nan
  | ninf, pinf => nan
  | ninf, ninf => nan

/-- The comparison `x <= y`. -/
def le : F64 → F64 → Bool
  | fin a, fin b => decide (a ≤ b)
  | nan, _ => false
  | _, nan => false
  | ninf, _ => true
  | _, pinf => true
  | _, _ => false

/-- The comparison `x < y`. -/
def lt : F64 → F64 → Bool
  | fin a, fin b => decide (a < b)
  | nan, _ => false
  | _, nan => false
  | ninf, ninf => false
  | pinf, pinf => false
  | ninf, _ => true
  | _, pinf => true
  | _, _ => false

/-- The comparison `x == y`. -/
def eq : F64 → F64 → Bool
  | fin a, fin b => decide (a = b)
  | pinf, pinf => true
  | ninf, ninf => true
  | _, _ => false

/-- The function `math.Sqrt`: the square root, correctly rounded.  For
`2^(2e) ≤ q < 2^(2e+2)` the root lies in the binade `e`; `n` is the integer
part of the root counted in quanta of that binade. -/
def sqrt : F64 → F64
  | fin q =>
    if q < 0 then nan
    else if q = 0 then fin 0
    else
      let e : Int := Int.log 2 q / 2
      let u : ℚ := 2 ^ (e - 52)
      let y : ℚ := q / (u * u)
      let n : Nat := Nat.sqrt ⌊y⌋₊
      let m : Nat :=
        if y < n * n + n + 1 / 4 then n
        else if (n : ℚ) * n + n + 1 / 4 < y then n + 1
        else if n % 2 = 0 then n else n + 1
      fin (m * u)
  | pinf => pinf
  | ninf => nan
  | nan => nan

end F64

/-- Truncation toward zero into the range of `int64`; `-2^63` outside it. -/
def truncInt64 {K : Type} [LinearOrderedField K] [FloorRing K] (x : K) : Int :=
  let t : Int := if 0 ≤ x then ⌊x⌋ else ⌈x⌉
  if -2 ^ 63 ≤ t ∧ t < 2 ^ 63 then t else -2 ^ 63

/-- The conversion `int64(x)`. -/
def F64.toInt64 : F64 → Int
  | F64.fin q => truncInt64 q
  | _ => -2 ^ 63

/-- The two functions of the Go `math` package that the source calls and that
the format does not define: `math.Log` and `math.Exp`. -/
structure LibM where
  log : F64 → F64
  exp : F64 → F64

/-- The arithmetic of `float64`, over a given `math` library. -/
def binary64 (M : LibM) : Arith F64 where
  lit := F64.round
  add := F64.add
  sub := F64.sub
  mul := F64.mul
  div := F64.div
  neg := F64.neg
  abs := F64.abs
  sqrt := F64.sqrt
  log := M.log
  exp := M.exp
  le := F64.le
  lt := F64.lt
  eq := F64.eq
  toInt64 := F64.toInt64
  ofInt64 := fun k => F64.round k

/-- The exact arithmetic of an ordered field, the reading of the source in
which no operation rounds. -/
def exactArith {K : Type} [LinearOrderedField K] [FloorRing K] (sqrt log exp : K → K) :
    Arith K where
  lit := fun q => (q : K)
  add := fun x y => x + y
  sub := fun x y => x - y
  mul := fun x y => x * y
  div := fun x y => x / y
  neg := fun x => -x
  abs := fun x => |x|
  sqrt := sqrt
  log := log
  exp := exp
  le := fun x y => decide (x ≤ y)
  lt := fun x y => decide (x < y)
  eq := fun x y => decide (x = y)
  toInt64 := truncInt64
  ofInt64 := fun k => (k : K)

/-- A coarse `math` library for closed examples: `log x` is `x - 1` and
`exp x` is `1 + x` for `x ≥ 0` and `1 / (1 - x)` for `x < 0`, both rounded,
with the values of `math.Log` and `math.Exp` at the zeros, the infinities and
NaN. -/
def coarseLibM : LibM where
  log := fun x =>
    match x with
    | F64.fin q => if q < 0 then F64.nan else if q = 0 then F64.ninf else F64.round (q - 1)
    | F64.pinf => F64.pinf
    | F64.ninf => F64.nan
    | F64.nan => F64.nan
  exp := fun x =>
    match x with
    | F64.fin q => if 0 ≤ q then F64.round (1 + q) else F64.round (1 / (1 - q))
    | F64.pinf => F64.pinf
    | F64.ninf => F64.fin 0
    | F64.nan => F64.nan

/-- A source that replays a fixed list of draws and then repeats `d`. -/
def replay {F : Type} (d : F) : Source F (List F) where
  float64 := fun l => (l.headD d, l.tail)

/-! ## The draws of a source -/

/-- The state of the source after `n` calls of `Float64`. -/
def Source.after (R : Source F σ) (r : σ) : Nat → σ
  | 0 => r
  | n + 1 => (R.float64 (Source.after R r n)).2

/-- The draw of index `n`, counted from 0: the value returned by the call of
`Float64` number `n + 1`. -/
def Source.draw (R : Source F σ) (r : σ) (n : Nat) : F :=
  (R.float64 (Source.after R r n)).1

/-- The running product of `poissonMult` after `n` draws,
`1.0 * u1 * ... * un`, multiplied from the left as the loop does. -/
def runningProd (A : Arith F) (R : Source F σ) (r : σ) : Nat → F
  | 0 => A.lit 1
  | n + 1 => A.mul (runningProd A R r n) (R.draw r n)

/-- The contract of the source along the run from the state `r`: every draw is a
`float64` value in `[0,1)`. -/
def UnitDraws (R : Source F64 σ) (r : σ) : Prop :=
  ∀ n, ∃ u : ℚ, R.draw r n = F64.fin u ∧ F64.round u = F64.fin u ∧ 0 ≤ u ∧ u < 1


/-! ## Sequences of calls, and the parts of `loggam` and `poissonPtrs` -/

/-- One call of a sampling method of `Rand`, with its arguments. -/
inductive Call (F : Type) where
  | expFloat64 (scale : F)
  | uniformFloat64 (loc scale : F)
  | poissonInt64 (lam : F)

/-- The value returned by a call: a `float64` or an `int64`. -/
inductive Outcome (F : Type) where
  | float (x : F)
  | int (k : Int)

/-- One call on a sampler whose source is in the state `r`: the value returned
and the state of the source after the call. -/
def runCall (A : Arith F) (R : Source F σ) (fuel : Nat) : Call F → σ → Option (Outcome F × σ)
  | Call.expFloat64 scale, r =>
    let d := ExpFloat64 A R scale r
    some (Outcome.float d.1, d.2)
  | Call.uniformFloat64 loc scale, r =>
    let d := UniformFloat64 A R loc scale r
    some (Outcome.float d.1, d.2)
  | Call.poissonInt64 lam, r =>
    (PoissonInt64 A R fuel lam r).map (fun p => (Outcome.int p.1, p.2))

/-- A finite sequence of calls on one sampler, in order: the values returned
and the final state of the source. -/
def runCalls (A : Arith F) (R : Source F σ) (fuel : Nat) :
    List (Call F) → σ → Option (List (Outcome F) × σ)
  | [], r => some ([], r)
  | c :: cs, r =>
    match runCall A R fuel c r with
    | none => none
    | some (o, r1) =>
      match runCalls A R fuel cs r1 with
      | none => none
      | some (os, r2) => some (o :: os, r2)

/-- Two sources, each from its own state, produce the same sequence of
draws. -/
def SameDraws {σ₁ σ₂ : Type} (R₁ : Source F σ₁) (r₁ : σ₁) (R₂ : Source F σ₂) (r₂ : σ₂) :
    Prop :=
  ∀ n, R₁.draw r₁ n = R₂.draw r₂ n

/-- Two runs started in the states `r₁` and `r₂` agree: both run out of fuel,
or both return the same value, after the same number of draws, and the draws
that remain are the same on both sides. -/
def Agree {α σ₁ σ₂ : Type} (R₁ : Source F σ₁) (r₁ : σ₁) (R₂ : Source F σ₂) (r₂ : σ₂)
    (o₁ : Option (α × σ₁)) (o₂ : Option (α × σ₂)) : Prop :=
  (o₁ = none ∧ o₂ = none) ∨
    ∃ (a : α) (n : Nat), o₁ = some (a, R₁.after r₁ n) ∧ o₂ = some (a, R₂.after r₂ n) ∧
      SameDraws R₁ (R₁.after r₁ n) R₂ (R₂.after r₂ n)

/-- A source given by the table of its draws: the state is the number of
draws made so far. -/
def tabulated {F : Type} (f : Nat → F) : Source F Nat where
  float64 := fun n => (f n, n + 1)

/-- The number `n` of shift steps of `loggam`: `int64(7 - x)` when `x <= 7.0`,
and the initial `0` otherwise. -/
def loggamSteps (A : Arith F) (x : F) : Int :=
  if A.le x (A.lit 7) then A.toInt64 (A.sub (A.lit 7) x) else 0

/-- The point `x0` at which `loggam` evaluates the series: `x + float64(n)`
when `x <= 7.0`, and `x` otherwise. -/
def loggamPoint (A : Arith F) (x : F) : F :=
  if A.le x (A.lit 7) then A.add x (A.ofInt64 (loggamSteps A x)) else x

/-- The series value `S(y)` in the words of the specification:
`(sum over k = 0..9 of a[k] / y^(2k+1)) + 0.5*ln(2*pi) + (y - 0.5)*ln(y) - y`,
over a field with a logarithm, `pi` being the constant `math.Pi`. -/
def stirlingSum {K : Type} [Field K] (log : K → K) (y : K) : K :=
  (∑ k in Finset.range 10, ((loggamCoeffs.getD k 0 : ℚ) : K) / y ^ (2 * k + 1))
    + 0.5 * log (2 * (goPi : K)) + (y - 0.5) * log y - y

/-- The difference `gl - sum over i = 1..n of ln(y - i)` in the words of the
specification, read in binary64: `gl - Log(y - 1) - Log(y - 2) - ... - Log(y - n)`,
the terms subtracted one after the other, each subtraction rounded, each
argument `y - i` the exact number. -/
def subLogs (M : LibM) (gl : F64) (y : ℚ) : Nat → F64
  | 0 => gl
  | n + 1 => F64.sub (subLogs M gl y n) (M.log (F64.fin (y - ((n + 1 : Nat) : ℚ))))

/-- The constant `b` of `poissonPtrs`: `0.931 + 2.53*slam` with
`slam = math.Sqrt(lam)`. -/
def shapeB (A : Arith F) (lam : F) : F :=
  A.add (A.lit 0.931) (A.mul (A.lit 2.53) (A.sqrt lam))

/-- The constant `a` of `poissonPtrs`: `-0.059 + 0.02483*b`. -/
def shapeA (A : Arith F) (lam : F) : F :=
  A.add (A.lit (-0.059)) (A.mul (A.lit 0.02483) (shapeB A lam))

/-- The constant `invalpha` of `poissonPtrs`: `1.1239 + 1.1328/(b-3.4)`. -/
def shapeInvalpha (A : Arith F) (lam : F) : F :=
  A.add (A.lit 1.1239) (A.div (A.lit 1.1328) (A.sub (shapeB A lam) (A.lit 3.4)))

/-- The constant `vr` of `poissonPtrs`: `0.9277 - 3.6224/(b-2)`. -/
def shapeVr (A : Arith F) (lam : F) : F :=
  A.sub (A.lit 0.9277) (A.div (A.lit 3.6224) (A.sub (shapeB A lam) (A.lit 2)))

/-- The centred draw of an iteration of `poissonPtrs`: `U = r.Float64() - 0.5`. -/
def ptrsU (A : Arith F) (u : F) : F := A.sub u (A.lit 0.5)

/-- The distance `us = 0.5 - math.Abs(U)` of an iteration of `poissonPtrs`. -/
def ptrsUs (A : Arith F) (u : F) : F := A.sub (A.lit 0.5) (A.abs (ptrsU A u))

/-- The value converted by `int64(...)` in `poissonPtrs`:
`(2*a/us+b)*U + lam + 0.43`. -/
def ptrsValue (A : Arith F) (lam a b us U : F) : F :=
  A.add (A.add (A.mul (A.add (A.div (A.mul (A.lit 2) a) us) b) U) lam) (A.lit 0.43)

/-- The squeeze test of `poissonPtrs`: `(us >= 0.07) && (V <= vr)`. -/
def ptrsSqueeze (A : Arith F) (vr us V : F) : Bool :=
  A.le (A.lit 0.07) us && A.le V vr

/-- The fast-reject test of `poissonPtrs`:
`(k < 0) || ((us < 0.013) && (V > us))`. -/
def ptrsReject (A : Arith F) (k : Int) (us V : F) : Bool :=
  decide (k < 0) || (A.lt us (A.lit 0.013) && A.lt us V)

/-- The exact test of `poissonPtrs`:
`math.Log(V) + math.Log(invalpha) - math.Log(a/(us*us)+b)
  <= -lam + float64(k)*loglam - loggam(float64(k+1))`. -/
def ptrsExact (A : Arith F) (lam loglam a b invalpha us V : F) (k : Int) : Bool :=
  A.le
    (A.sub (A.add (A.log V) (A.log invalpha)) (A.log (A.add (A.div a (A.mul us us)) b)))
    (A.sub (A.add (A.neg lam) (A.mul (A.ofInt64 k) loglam))
      (loggam A (A.ofInt64 (wrapInt64 (k + 1)))))

/-- The candidate of the iteration of `poissonPtrs` whose first draw is `u`. -/
def ptrsCandidateOf (A : Arith F) (lam a b u : F) : Int :=
  ptrsCandidate A lam a b (ptrsUs A u) (ptrsU A u)

/-- An iteration of `poissonPtrs` with the draws `u` and `v` returns: either
the squeeze holds, or the fast-reject condition does not hold and the exact
test holds. -/
def ptrsReturns (A : Arith F) (lam loglam a b invalpha vr u v : F) : Bool :=
  ptrsSqueeze A vr (ptrsUs A u) v ||
    (!ptrsReject A (ptrsCandidateOf A lam a b u) (ptrsUs A u) v &&
      ptrsExact A lam loglam a b invalpha (ptrsUs A u) v (ptrsCandidateOf A lam a b u))

/-- The loop of `poissonPtrs` with a record of its calls of `loggam`: the
arguments of the calls, in order, made until the loop returns or the fuel
runs out. -/
def poissonPtrsLoggamArgs (A : Arith F) (R : Source F σ) (lam loglam a b invalpha vr : F) :
    Nat → σ → List F
  | 0, _ => []
  | fuel + 1, r =>
    let d1 := R.float64 r
    let U := A.sub d1.1 (A.lit 0.5)
    let d2 := R.float64 d1.2
    let V := d2.1
    let us := A.sub (A.lit 0.5) (A.abs U)
    let k := ptrsCandidate A lam a b us U
    if A.le (A.lit 0.07) us && A.le V vr then
      []
    else if decide (k < 0) || (A.lt us (A.lit 0.013) && A.lt us V) then
      poissonPtrsLoggamArgs A R lam loglam a b invalpha vr fuel d2.2
    else
      A.ofInt64 (wrapInt64 (k + 1)) ::
        (if A.le
            (A.sub (A.add (A.log V) (A.log invalpha))
              (A.log (A.add (A.div a (A.mul us us)) b)))
            (A.sub (A.add (A.neg lam) (A.mul (A.ofInt64 k) loglam))
              (loggam A (A.ofInt64 (wrapInt64 (k + 1))))) then
          []
        else
          poissonPtrsLoggamArgs A R lam loglam a b invalpha vr fuel d2.2)

/-- The calls of `loggam` made by `poissonPtrs(lam)`. -/
def poissonPtrsArgs (A : Arith F) (R : Source F σ) (fuel : Nat) (lam : F) (r : σ) : List F :=
  poissonPtrsLoggamArgs A R lam (A.log lam) (shapeA A lam) (shapeB A lam)
    (shapeInvalpha A lam) (shapeVr A lam) fuel r

/-! ## Rounding

Rounding to nearest, ties to even, is odd, monotone, and leaves the values of
the format in place. -/

theorem roundHalfEven_cases (y : ℚ) : roundHalfEven y = ⌊y⌋ ∨ roundHalfEven y = ⌊y⌋ + 1 := by
  unfold roundHalfEven
  split_ifs <;> simp

theorem roundHalfEven_intCast (n : Int) : roundHalfEven (n : ℚ) = n := by
  simp [roundHalfEven]

theorem roundHalfEven_mono {x y : ℚ} (h : x ≤ y) : roundHalfEven x ≤ roundHalfEven y := by
  have hf : ⌊x⌋ ≤ ⌊y⌋ := Int.floor_mono h
  rcases hf.eq_or_lt with he | hl
  · unfold roundHalfEven
    rw [he]
    have hxy : x - ⌊y⌋ ≤ y - ⌊y⌋ := by linarith
    split_ifs <;> first | omega | (exfalso; linarith)
  · rcases roundHalfEven_cases x with h1 | h1 <;>
    rcases roundHalfEven_cases y with h2 | h2 <;> omega

theorem roundHalfEven_neg (y : ℚ) : roundHalfEven (-y) = -roundHalfEven y := by
  by_cases hy : (⌊y⌋ : ℚ) = y
  · rw [← hy, ← Int.cast_neg, roundHalfEven_intCast, roundHalfEven_intCast]
  · have h1 : (⌊y⌋ : ℚ) < y := lt_of_le_of_ne (Int.floor_le y) hy
    have h2 : y < ⌊y⌋ + 1 := Int.lt_floor_add_one y
    have h3 : ⌊-y⌋ = -⌊y⌋ - 1 := by
      rw [Int.floor_eq_iff]; push_cast; constructor <;> linarith
    unfold roundHalfEven
    rw [h3]
    push_cast
    split_ifs <;> first | omega | (exfalso; linarith)

theorem abs_roundHalfEven_sub_le (y : ℚ) : |(roundHalfEven y : ℚ) - y| ≤ 1 / 2 := by
  have h1 : (⌊y⌋ : ℚ) ≤ y := Int.floor_le y
  have h2 : y < ⌊y⌋ + 1 := Int.lt_floor_add_one y
  unfold roundHalfEven
  rw [abs_le]
  split_ifs <;> push_cast <;> constructor <;> linarith

theorem roundHalfEven_eq_of_lt {y : ℚ} {n : Int} (h1 : (n : ℚ) - 1 / 2 < y)
    (h2 : y < n + 1 / 2) : roundHalfEven y = n := by
  have h := abs_roundHalfEven_sub_le y
  rw [abs_le] at h
  have h3 : ((roundHalfEven y - n : Int) : ℚ) < 1 := by push_cast; linarith
  have h4 : (-1 : ℚ) < ((roundHalfEven y - n : Int) : ℚ) := by push_cast; linarith
  have h5 : roundHalfEven y - n < 1 := by exact_mod_cast h3
  have h6 : -1 < roundHalfEven y - n := by exact_mod_cast h4
  omega

theorem roundHalfEven_tie_up {n : Int} (hn : n % 2 = 0) :
    roundHalfEven ((n : ℚ) - 1 / 2) = n := by
  have hf : ⌊(n : ℚ) - 1 / 2⌋ = n - 1 := by
    rw [Int.floor_eq_iff]; push_cast; constructor <;> linarith
  unfold roundHalfEven
  rw [hf]
  push_cast
  have e : (n : ℚ) - 1 / 2 - (n - 1) = 1 / 2 := by ring
  rw [e]
  simp
  omega

theorem roundHalfEven_tie_down {n : Int} (hn : n % 2 = 0) :
    roundHalfEven ((n : ℚ) + 1 / 2) = n := by
  have hf : ⌊(n : ℚ) + 1 / 2⌋ = n := by
    rw [Int.floor_eq_iff]; constructor <;> linarith
  unfold roundHalfEven
  rw [hf]
  have e : (n : ℚ) + 1 / 2 - n = 1 / 2 := by ring
  rw [e]
  simp [hn]

/-! ### The binade and the quantum -/

theorem binade_neg (q : ℚ) : binade (-q) = binade q := by simp [binade]

theorem binade_ge (q : ℚ) : -1022 ≤ binade q := le_max_right _ _

theorem quantum_pos (q : ℚ) : 0 < quantum q := by
  unfold quantum; positivity

theorem quantum_neg (q : ℚ) : quantum (-q) = quantum q := by simp [quantum, binade_neg]

theorem rnd_neg (q : ℚ) : rnd (-q) = -rnd q := by
  simp [rnd, quantum_neg, neg_div, roundHalfEven_neg]

theorem rnd_zero : rnd 0 = 0 := by simp [rnd, roundHalfEven]

theorem binade_mono {x y : ℚ} (hx : 0 < x) (h : x ≤ y) : binade x ≤ binade y := by
  unfold binade
  have hy : 0 < y := lt_of_lt_of_le hx h
  rw [abs_of_pos hx, abs_of_pos hy]
  exact max_le_max (Int.log_mono_right hx h) le_rfl

/-- a number lies below the top of its binade -/
theorem abs_lt_binade_top (q : ℚ) : |q| < 2 ^ (binade q + 1) := by
  have h := Int.lt_zpow_succ_log_self (by norm_num : 1 < 2) |q|
  refine lt_of_lt_of_le h ?_
  push_cast
  exact zpow_le_zpow_right₀ (by norm_num) (by unfold binade; have := le_max_left (Int.log 2 |q|) (-1022); omega)

/-- a nonzero number above the subnormal range lies above the bottom of its binade -/
theorem binade_bot_le_abs {q : ℚ} (hq : q ≠ 0) (h : -1022 < binade q) : 2 ^ binade q ≤ |q| := by
  have h1 : binade q = Int.log 2 |q| := by
    unfold binade at h ⊢
    rcases max_cases (Int.log 2 |q|) (-1022) with ⟨h2, _⟩ | ⟨h2, _⟩
    · exact h2
    · omega
  rw [h1]
  have := Int.zpow_log_le_self (by norm_num : 1 < 2) (abs_pos.mpr hq)
  exact_mod_cast this

theorem binade_eq_of_bounds {q : ℚ} {e : Int} (he : -1022 ≤ e) (h1 : 2 ^ e ≤ |q|)
    (h2 : |q| < 2 ^ (e + 1)) : binade q = e := by
  have hq : 0 < |q| := lt_of_lt_of_le (by positivity) h1
  have h3 : Int.log 2 |q| = e := by
    apply le_antisymm
    · have := (Int.lt_zpow_iff_log_lt (by norm_num : 1 < 2) hq).mp
        (by exact_mod_cast h2 : |q| < ((2 : ℕ) : ℚ) ^ (e + 1))
      omega
    · exact (Int.zpow_le_iff_le_log (by norm_num : 1 < 2) hq).mp (by exact_mod_cast h1)
  unfold binade
  rw [h3]
  exact max_eq_left he

theorem binade_eq_of_small {q : ℚ} (hq : q ≠ 0) (h : |q| < 2 ^ (-1022 : Int)) :
    binade q = -1022 := by
  unfold binade
  apply max_eq_right
  have := (Int.lt_zpow_iff_log_lt (by norm_num : 1 < 2) (abs_pos.mpr hq)).mp
    (by exact_mod_cast h : |q| < ((2 : ℕ) : ℚ) ^ (-1022 : Int))
  omega

theorem rnd_eq_of_binade {q : ℚ} {e : Int} (he : binade q = e) :
    rnd q = roundHalfEven (q / 2 ^ (e - 52)) * 2 ^ (e - 52) := by
  simp [rnd, quantum, he]

theorem zpow_shift53 (e : Int) : (2 : ℚ) ^ (e + 1) = 9007199254740992 * 2 ^ (e - 52) := by
  rw [show e + 1 = 53 + (e - 52) by ring, zpow_add₀ (by norm_num)]; norm_num

theorem zpow_shift52 (e : Int) : (2 : ℚ) ^ e = 4503599627370496 * 2 ^ (e - 52) := by
  rw [show (2 : ℚ) ^ e = 2 ^ (52 + (e - 52)) by congr 1; ring, zpow_add₀ (by norm_num)]; norm_num

theorem rnd_nonneg {q : ℚ} (h : 0 ≤ q) : 0 ≤ rnd q := by
  unfold rnd
  have h1 : roundHalfEven 0 ≤ roundHalfEven (q / quantum q) :=
    roundHalfEven_mono (div_nonneg h (quantum_pos q).le)
  have h0 : roundHalfEven 0 = 0 := by simpa using roundHalfEven_intCast 0
  rw [h0] at h1
  exact mul_nonneg (by exact_mod_cast h1) (quantum_pos q).le

theorem rnd_le_binade_top {q : ℚ} (hq : 0 < q) : rnd q ≤ 2 ^ (binade q + 1) := by
  have h1 : q / quantum q ≤ ((2 ^ 53 : Int) : ℚ) := by
    rw [div_le_iff₀ (quantum_pos q)]
    have := abs_lt_binade_top q
    rw [abs_of_pos hq] at this
    refine this.le.trans (le_of_eq ?_)
    unfold quantum
    push_cast
    exact zpow_shift53 _
  have h2 := roundHalfEven_mono h1
  rw [roundHalfEven_intCast] at h2
  have h3 : (roundHalfEven (q / quantum q) : ℚ) ≤ ((2 ^ 53 : Int) : ℚ) := by exact_mod_cast h2
  unfold rnd
  calc (roundHalfEven (q / quantum q) : ℚ) * quantum q
      ≤ ((2 ^ 53 : Int) : ℚ) * quantum q := mul_le_mul_of_nonneg_right h3 (quantum_pos q).le
    _ = 2 ^ (binade q + 1) := by
        unfold quantum
        push_cast
        exact (zpow_shift53 _).symm

theorem binade_bot_le_rnd {q : ℚ} (hq : 0 < q) (h : -1022 < binade q) :
    2 ^ binade q ≤ rnd q := by
  have h1 : ((2 ^ 52 : Int) : ℚ) ≤ q / quantum q := by
    rw [le_div_iff₀ (quantum_pos q)]
    have := binade_bot_le_abs hq.ne' h
    rw [abs_of_pos hq] at this
    refine le_trans (le_of_eq ?_) this
    unfold quantum
    push_cast
    exact (zpow_shift52 _).symm
  have h2 := roundHalfEven_mono h1
  rw [roundHalfEven_intCast] at h2
  have h3 : ((2 ^ 52 : Int) : ℚ) ≤ (roundHalfEven (q / quantum q) : ℚ) := by exact_mod_cast h2
  unfold rnd
  calc (2 : ℚ) ^ binade q = ((2 ^ 52 : Int) : ℚ) * quantum q := by
        unfold quantum
        push_cast
        exact zpow_shift52 _
    _ ≤ (roundHalfEven (q / quantum q) : ℚ) * quantum q :=
        mul_le_mul_of_nonneg_right h3 (quantum_pos q).le

theorem rnd_mono_pos {x y : ℚ} (hx : 0 < x) (h : x ≤ y) : rnd x ≤ rnd y := by
  have hy : 0 < y := lt_of_lt_of_le hx h
  rcases (binade_mono hx h).eq_or_lt with he | hl
  · unfold rnd quantum
    rw [he]
    refine mul_le_mul_of_nonneg_right ?_ (by positivity)
    exact_mod_cast roundHalfEven_mono (div_le_div_of_nonneg_right h (by positivity))
  · have h1 := rnd_le_binade_top hx
    have h2 := binade_bot_le_rnd hy (lt_of_le_of_lt (binade_ge x) hl)
    have h3 : (2 : ℚ) ^ (binade x + 1) ≤ 2 ^ binade y :=
      zpow_le_zpow_right₀ (by norm_num) (by omega)
    linarith

theorem rnd_mono {x y : ℚ} (h : x ≤ y) : rnd x ≤ rnd y := by
  rcases lt_trichotomy 0 x with hx | hx | hx
  · exact rnd_mono_pos hx h
  · subst hx; rw [rnd_zero]; exact rnd_nonneg h
  · rcases le_or_lt 0 y with hy | hy
    · have := rnd_nonneg hy
      have h2 := rnd_nonneg (neg_nonneg.mpr hx.le)
      rw [rnd_neg] at h2
      linarith
    · have := rnd_mono_pos (neg_pos.mpr hy) (neg_le_neg h)
      rw [rnd_neg, rnd_neg] at this
      linarith

/-- A dyadic number with a mantissa of at most 53 bits and an exponent in range
is its own rounding. -/
theorem rnd_dyadic (m e : Int) (hm : |m| < 2 ^ 53) (he : -1074 ≤ e) :
    rnd ((m : ℚ) * 2 ^ e) = (m : ℚ) * 2 ^ e := by
  rcases eq_or_ne m 0 with rfl | hm0
  · simp [rnd_zero]
  have hq : (m : ℚ) * 2 ^ e ≠ 0 := mul_ne_zero (by exact_mod_cast hm0) (by positivity)
  have hB : binade ((m : ℚ) * 2 ^ e) ≤ e + 52 := by
    unfold binade
    apply max_le _ (by omega)
    have hlt : |(m : ℚ) * 2 ^ e| < ((2 : ℕ) : ℚ) ^ (e + 53) := by
      rw [abs_mul, abs_of_pos (by positivity : (0 : ℚ) < 2 ^ e)]
      have : |(m : ℚ)| < 2 ^ (53 : Int) := by
        have h1 : ((|m| : Int) : ℚ) < ((2 ^ 53 : Int) : ℚ) := by exact_mod_cast hm
        rw [Int.cast_abs] at h1
        refine lt_of_lt_of_le h1 (le_of_eq ?_)
        norm_num
      push_cast
      rw [add_comm e 53, zpow_add₀ (by norm_num)]
      exact mul_lt_mul_of_pos_right this (by positivity)
    have := (Int.lt_zpow_iff_log_lt (by norm_num : 1 < 2) (abs_pos.mpr hq)).mp hlt
    omega
  obtain ⟨k, hk⟩ : ∃ k : ℕ, e + 52 - binade ((m : ℚ) * 2 ^ e) = k :=
    ⟨(e + 52 - binade ((m : ℚ) * 2 ^ e)).toNat, by omega⟩
  have hdiv : (m : ℚ) * 2 ^ e / quantum ((m : ℚ) * 2 ^ e) = ((m * 2 ^ k : Int) : ℚ) := by
    unfold quantum
    rw [mul_div_assoc, ← zpow_sub₀ (by norm_num)]
    push_cast
    rw [← zpow_natCast, ← hk]
    congr 2; ring
  unfold rnd
  rw [hdiv, roundHalfEven_intCast, ← hdiv, div_mul_cancel₀ _ (quantum_pos _).ne']

theorem abs_rnd_sub_le (x : ℚ) : |rnd x - x| ≤ quantum x / 2 := by
  have hq := quantum_pos x
  have h := abs_roundHalfEven_sub_le (x / quantum x)
  have e : rnd x - x = ((roundHalfEven (x / quantum x) : ℚ) - x / quantum x) * quantum x := by
    unfold rnd; field_simp
  rw [e, abs_mul, abs_of_pos hq]
  calc |(roundHalfEven (x / quantum x) : ℚ) - x / quantum x| * quantum x
      ≤ 1 / 2 * quantum x := mul_le_mul_of_nonneg_right h hq.le
    _ = quantum x / 2 := by ring

/-- A value of the format is an integer number of quanta. -/
theorem exists_int_of_rnd_eq {a : ℚ} (h : rnd a = a) : ∃ n : Int, a = n * quantum a :=
  ⟨roundHalfEven (a / quantum a), h.symm⟩

theorem quantum_eq (x : ℚ) : quantum x = 2 ^ (binade x - 52) := rfl

theorem quantum_mono {x y : ℚ} (hx : 0 < x) (h : x ≤ y) : quantum x ≤ quantum y := by
  unfold quantum
  exact zpow_le_zpow_right₀ (by norm_num) (by have := binade_mono hx h; omega)

/-- The top of the binade is `2^53` quanta. -/
theorem binade_top_eq (x : ℚ) : (2 : ℚ) ^ (binade x + 1) = 2 ^ 53 * quantum x := by
  rw [quantum_eq, zpow_shift53]; norm_num

theorem binade_bot_eq (x : ℚ) : (2 : ℚ) ^ binade x = 2 ^ 52 * quantum x := by
  rw [quantum_eq, zpow_shift52]; norm_num

/-- Two distinct positive values of the format differ by at least the relative
spacing `2^-53` of the larger one. -/
theorem repr_gap {a p : ℚ} (ha : rnd a = a) (hp : rnd p = p) (h0 : 0 < a) (hap : a < p) :
    a ≤ p * (1 - 1 / 2 ^ 53) := by
  obtain ⟨na, hna⟩ := exists_int_of_rnd_eq ha
  obtain ⟨np, hnp⟩ := exists_int_of_rnd_eq hp
  have hp0 : 0 < p := lt_trans h0 hap
  have hqa := quantum_pos a
  have hqp := quantum_pos p
  have htop_a := abs_lt_binade_top a
  have htop_p := abs_lt_binade_top p
  rw [abs_of_pos h0, binade_top_eq] at htop_a
  rw [abs_of_pos hp0, binade_top_eq] at htop_p
  rcases (binade_mono h0 hap.le).eq_or_lt with he | hl
  · have hq : quantum a = quantum p := by rw [quantum_eq, quantum_eq, he]
    rw [hq] at hna
    have h1 : (na : ℚ) < np := by
      have : (na : ℚ) * quantum p < np * quantum p := by rw [← hna, ← hnp]; exact hap
      exact lt_of_mul_lt_mul_right this hqp.le
    have h2 : na + 1 ≤ np := by exact_mod_cast h1
    have h3 : (na : ℚ) + 1 ≤ np := by exact_mod_cast h2
    have e : p - a = ((np : ℚ) - na) * quantum p := by linear_combination hnp - hna
    have h4 : quantum p ≤ p - a := by
      rw [e]; nlinarith
    nlinarith
  · have h1 : (na : ℚ) < 2 ^ 53 := by
      have : (na : ℚ) * quantum a < 2 ^ 53 * quantum a := by rw [← hna]; exact htop_a
      exact lt_of_mul_lt_mul_right this hqa.le
    have h2 : na < 2 ^ 53 := by exact_mod_cast h1
    have h3 : (na : ℚ) ≤ 2 ^ 53 - 1 := by
      have : na ≤ 2 ^ 53 - 1 := by omega
      exact_mod_cast this
    have h4 : a ≤ (2 ^ 53 - 1) * quantum a := by
      have e : (2 ^ 53 - 1) * quantum a - a = (2 ^ 53 - 1 - (na : ℚ)) * quantum a := by
        linear_combination -hna
      nlinarith
    have h5 : (2 : ℚ) ^ (binade a + 1) ≤ 2 ^ binade p :=
      zpow_le_zpow_right₀ (by norm_num) (by omega)
    have h6 := binade_bot_le_abs hp0.ne' (lt_of_le_of_lt (binade_ge a) hl)
    rw [abs_of_pos hp0] at h6
    rw [binade_top_eq] at h5
    nlinarith


theorem rnd_rnd (x : ℚ) : rnd (rnd x) = rnd x := by
  have hq := quantum_pos x
  have htop := abs_lt_binade_top x
  rw [binade_top_eq, abs_lt] at htop
  have h1 : x / quantum x ≤ ((2 ^ 53 : Int) : ℚ) := by
    rw [div_le_iff₀ hq]; push_cast; linarith
  have h2 : ((-2 ^ 53 : Int) : ℚ) ≤ x / quantum x := by
    rw [le_div_iff₀ hq]; push_cast; linarith
  have h3 := roundHalfEven_mono h1
  have h4 := roundHalfEven_mono h2
  rw [roundHalfEven_intCast] at h3 h4
  have hB := binade_ge x
  rcases h3.eq_or_lt with h5 | h5
  · have e : rnd x = ((1 : Int) : ℚ) * 2 ^ (binade x + 1) := by
      unfold rnd; rw [h5, binade_top_eq]; push_cast; ring
    rw [e]
    exact rnd_dyadic 1 _ (by norm_num) (by omega)
  · rcases h4.eq_or_lt with h6 | h6
    · have e : rnd x = ((-1 : Int) : ℚ) * 2 ^ (binade x + 1) := by
        unfold rnd; rw [← h6, binade_top_eq]; push_cast; ring
      rw [e]
      exact rnd_dyadic (-1) _ (by norm_num) (by omega)
    · have e : rnd x = (roundHalfEven (x / quantum x) : ℚ) * 2 ^ (binade x - 52) := rfl
      rw [e]
      exact rnd_dyadic _ _ (by rw [abs_lt]; constructor <;> omega) (by omega)

theorem binade_le_of_lt {x : ℚ} {e : Int} (hx : 0 < x) (h : x < 2 ^ (e + 1))
    (he : -1022 ≤ e) : binade x ≤ e := by
  unfold binade
  apply max_le _ he
  have := (Int.lt_zpow_iff_log_lt (by norm_num : 1 < 2) (abs_pos.mpr hx.ne')).mp
    (by rw [abs_of_pos hx]; exact_mod_cast h : |x| < ((2 : ℕ) : ℚ) ^ (e + 1))
  omega

/-- Below a value `p` of the format above the smallest normal number, everything
up to `p * (1 - 2^-53)` rounds strictly below `p`. -/
theorem rnd_lt_of_le_mul {p x : ℚ} (hp : rnd p = p) (hpn : 2 ^ (-1022 : Int) < p)
    (hx : x ≤ p * (1 - 1 / 2 ^ 53)) : rnd x < p := by
  have hp0 : 0 < p := lt_trans (by positivity) hpn
  have hy0 : 0 < p * (1 - 1 / 2 ^ 53) := mul_pos hp0 (by norm_num)
  refine lt_of_le_of_lt (rnd_mono hx) ?_
  generalize hy : p * (1 - 1 / 2 ^ 53) = y at hy0
  have hyp : y < p := by rw [← hy]; nlinarith
  obtain ⟨n, hn⟩ := exists_int_of_rnd_eq hp
  have hq := quantum_pos p
  have hbot : (2 : ℚ) ^ binade p ≤ p := by
    rcases (binade_ge p).eq_or_lt with h | h
    · rw [← h]; exact hpn.le
    · have := binade_bot_le_abs hp0.ne' h
      rwa [abs_of_pos hp0] at this
  rw [binade_bot_eq] at hbot
  have hn52 : (2 : ℚ) ^ 52 ≤ n := by
    have : (2 : ℚ) ^ 52 * quantum p ≤ n * quantum p := by rw [← hn]; exact hbot
    exact le_of_mul_le_mul_right this hq
  have hn52' : (2 : Int) ^ 52 ≤ n := by exact_mod_cast hn52
  have herr := abs_rnd_sub_le y
  rw [abs_le] at herr
  have hqy : quantum y ≤ quantum p := quantum_mono hy0 hyp.le
  rcases hn52'.eq_or_lt with h | h
  · -- `p` is a power of two
    have hnq : (n : ℚ) = 2 ^ 52 := by rw [← h]; norm_num
    have hpq : p = 2 ^ 52 * quantum p := by linear_combination hn + quantum p * hnq
    have hpe : p = 2 ^ binade p := by rw [binade_bot_eq]; exact hpq
    have he : -1022 < binade p := by
      rcases (binade_ge p).eq_or_lt with h' | h'
      · rw [← h'] at hpe; rw [hpe] at hpn; exact absurd hpn (lt_irrefl _)
      · exact h'
    have hb : binade y ≤ binade p - 1 :=
      binade_le_of_lt hy0 (by rw [sub_add_cancel, ← hpe]; exact hyp) (by omega)
    have hqy' : quantum y ≤ quantum p / 2 := by
      rw [quantum_eq, quantum_eq]
      have : (2 : ℚ) ^ (binade y - 52) ≤ 2 ^ (binade p - 1 - 52) :=
        zpow_le_zpow_right₀ (by norm_num) (by omega)
      refine this.trans (le_of_eq ?_)
      rw [show binade p - 1 - 52 = (binade p - 52) + (-1) by ring, zpow_add₀ (by norm_num)]
      norm_num
      ring
    have : y = p - p / 2 ^ 53 := by rw [← hy]; ring
    nlinarith
  · have h' : (2 : Int) ^ 52 + 1 ≤ n := by omega
    have h'' : (2 : ℚ) ^ 52 + 1 ≤ n := by exact_mod_cast h'
    have hpq : (2 ^ 52 + 1) * quantum p ≤ p := by
      have e : p - (2 ^ 52 + 1) * quantum p = ((n : ℚ) - (2 ^ 52 + 1)) * quantum p := by
        linear_combination hn
      nlinarith
    have : y = p - p / 2 ^ 53 := by rw [← hy]; ring
    nlinarith


namespace F64

theorem round_of_lt {q : ℚ} (h : |rnd q| < 2 ^ 1024) : round q = fin (rnd q) := by
  unfold round
  rw [if_neg (not_le.mpr h)]

/-- The values `m * 2^e` with `|m| < 2^53` and `-1074 ≤ e ≤ 970` are values of
the format. -/
theorem round_dyadic (m e : Int) (hm : |m| < 2 ^ 53) (he : -1074 ≤ e) (he2 : e ≤ 970) :
    round ((m : ℚ) * 2 ^ e) = fin ((m : ℚ) * 2 ^ e) := by
  have h := rnd_dyadic m e hm he
  have hlt : |rnd ((m : ℚ) * 2 ^ e)| < 2 ^ 1024 := by
    rw [h, abs_mul, abs_of_pos (by positivity : (0 : ℚ) < 2 ^ e)]
    have h1 : |(m : ℚ)| < 2 ^ (53 : Int) := by
      have h1 : ((|m| : Int) : ℚ) < ((2 ^ 53 : Int) : ℚ) := by exact_mod_cast hm
      rw [Int.cast_abs] at h1
      refine lt_of_lt_of_le h1 (le_of_eq ?_)
      norm_num
    have h2 : (2 : ℚ) ^ e ≤ 2 ^ (970 : Int) := zpow_le_zpow_right₀ (by norm_num) he2
    calc |(m : ℚ)| * 2 ^ e < 2 ^ (53 : Int) * 2 ^ (970 : Int) :=
          mul_lt_mul_of_pos_of_nonneg' h1 h2 (by positivity) (by positivity)
      _ ≤ 2 ^ 1024 := by norm_num
  rw [round_of_lt hlt, h]

theorem round_intCast (m : Int) (hm : |m| < 2 ^ 53) : round (m : ℚ) = fin (m : ℚ) := by
  simpa using round_dyadic m 0 hm (by norm_num) (by norm_num)

@[simp] theorem round_zero : round 0 = fin 0 := by simpa using round_intCast 0 (by norm_num)
@[simp] theorem round_one : round 1 = fin 1 := by simpa using round_intCast 1 (by norm_num)
@[simp] theorem round_two : round 2 = fin 2 := by simpa using round_intCast 2 (by norm_num)
@[simp] theorem round_seven : round 7 = fin 7 := by simpa using round_intCast 7 (by norm_num)
@[simp] theorem round_ten : round 10 = fin 10 := by simpa using round_intCast 10 (by norm_num)

theorem round_ne_nan (q : ℚ) : round q ≠ nan := by
  unfold round; split_ifs <;> simp

theorem le_round_round {x y : ℚ} (h : x ≤ y) : le (round x) (round y) = true := by
  have hm := rnd_mono h
  unfold round
  by_cases hy : 2 ^ 1024 ≤ |rnd y|
  · rw [if_pos hy]
    by_cases hy0 : 0 < y
    · rw [if_pos hy0]
      split_ifs <;> simp [le]
    · rw [if_neg hy0]
      have hy1 : rnd y ≤ 0 := by
        have := rnd_nonneg (neg_nonneg.mpr (not_lt.mp hy0)); rw [rnd_neg] at this; linarith
      rw [abs_of_nonpos hy1] at hy
      have hx1 : rnd x ≤ 0 := le_trans hm hy1
      have hx : (2 : ℚ) ^ 1024 ≤ |rnd x| := by rw [abs_of_nonpos hx1]; linarith
      have hx0 : ¬ 0 < x := not_lt.mpr (le_trans h (not_lt.mp hy0))
      rw [if_pos hx, if_neg hx0]
      simp [le]
  · rw [if_neg hy]
    by_cases hx : 2 ^ 1024 ≤ |rnd x|
    · rw [if_pos hx]
      have hx0 : ¬ 0 < x := by
        intro hx0
        have h1 := rnd_nonneg hx0.le
        rw [abs_of_nonneg h1] at hx
        have h2 := le_trans hx hm
        have h3 := le_trans h1 hm
        rw [abs_of_nonneg h3] at hy
        exact hy h2
      rw [if_neg hx0]
      simp [le]
    · rw [if_neg hx]
      simp [le, hm]

/-- The rounding of `2 - 2^-53`, midway between `2 - 2^-52` and `2`, is `2` -/
theorem round_two_sub_half_ulp : round (2 - 1 / 2 ^ 53) = fin 2 := by
  have hb : binade (2 - 1 / 2 ^ 53 : ℚ) = 0 := by
    apply binade_eq_of_bounds (by norm_num)
    · rw [abs_of_pos (by norm_num)]; norm_num
    · rw [abs_of_pos (by norm_num)]; norm_num
  have hr : rnd (2 - 1 / 2 ^ 53 : ℚ) = 2 := by
    rw [rnd_eq_of_binade hb]
    have e : (2 - 1 / 2 ^ 53 : ℚ) / 2 ^ ((0 : Int) - 52) = ((2 ^ 53 : Int) : ℚ) - 1 / 2 := by
      norm_num
    rw [e, roundHalfEven_tie_up (by norm_num)]
    norm_num
  rw [round_of_lt (by rw [hr]; norm_num), hr]

theorem rnd_of_round_eq {q : ℚ} (h : round q = fin q) : rnd q = q ∧ |q| < 2 ^ 1024 := by
  unfold round at h
  split_ifs at h with h1
  have h2 : rnd q = q := by injection h
  rw [h2] at h1
  exact ⟨h2, not_le.mp h1⟩

theorem rnd_one : rnd 1 = 1 := by
  have := rnd_dyadic 1 0 (by norm_num) (by norm_num)
  simpa using this

/-- A rounding between two values of moderate size is finite -/
theorem round_of_bounds (q lo hi : ℚ) (h1 : lo ≤ q) (h2 : q ≤ hi)
    (hlo : round lo = fin lo) (hhi : round hi = fin hi) :
    round q = fin (rnd q) ∧ lo ≤ rnd q ∧ rnd q ≤ hi := by
  have a1 := rnd_of_round_eq hlo
  have a2 := rnd_of_round_eq hhi
  have b1 := rnd_mono h1
  have b2 := rnd_mono h2
  rw [a1.1] at b1
  rw [a2.1] at b2
  refine ⟨round_of_lt ?_, b1, b2⟩
  have c1 := abs_lt.mp a1.2
  have c2 := abs_lt.mp a2.2
  rw [abs_lt]
  constructor <;> linarith

theorem zero_le_round {q : ℚ} (h : 0 ≤ q) : le (fin 0) (round q) = true := by
  have := le_round_round h
  rwa [round_zero] at this
theorem round_one_sub_ulp : round (1 - 1 / 2 ^ 53) = fin (1 - 1 / 2 ^ 53) := by
  have h := round_dyadic (2 ^ 53 - 1) (-53) (by norm_num) (by norm_num) (by norm_num)
  have e : (((2 ^ 53 - 1 : Int) : ℚ)) * 2 ^ (-53 : Int) = 1 - 1 / 2 ^ 53 := by norm_num
  rwa [e] at h
end F64

/-! ### Error bounds -/

/-- The rounding error is at most half a quantum: `2^-53` relative to a normal
number, `2^-1075` below the normal range. -/
theorem abs_rnd_sub_le_rel (x : ℚ) : |rnd x - x| ≤ |x| / 2 ^ 53 + 1 / 2 ^ 1075 := by
  rcases eq_or_ne x 0 with rfl | hx
  · rw [rnd_zero]; norm_num
  refine (abs_rnd_sub_le x).trans ?_
  rcases (binade_ge x).eq_or_lt with h | h
  · have e : quantum x / 2 = 1 / 2 ^ 1075 := by
      rw [quantum_eq, ← h]
      rw [show (-1022 - 52 : Int) = -1074 by norm_num, zpow_neg, ← zpow_natCast]
      norm_num
    rw [e]
    have : (0 : ℚ) ≤ |x| / 2 ^ 53 := by positivity
    linarith
  · have h1 := binade_bot_le_abs hx h
    rw [binade_bot_eq] at h1
    have h2 : quantum x / 2 ≤ |x| / 2 ^ 53 := by
      rw [div_le_div_iff₀ (by norm_num) (by positivity)]
      nlinarith [quantum_pos x]
    have : (0 : ℚ) ≤ 1 / 2 ^ 1075 := by positivity
    linarith

theorem tiny_le : (1 : ℚ) / 2 ^ 1075 ≤ 1 / 2 ^ 100 := by
  apply one_div_le_one_div_of_le (by positivity)
  exact pow_le_pow_right₀ (by norm_num) (by norm_num)

/-- An upper bound of the rounding of a non-negative number. -/
theorem rnd_le_rel {x : ℚ} (h : 0 ≤ x) : rnd x ≤ x * (1 + 1 / 2 ^ 53) + 1 / 2 ^ 100 := by
  have h1 := abs_rnd_sub_le_rel x
  rw [abs_of_nonneg h, abs_le] at h1
  have := tiny_le
  linarith [h1.2]

/-- A lower bound of the rounding of a non-positive number. -/
theorem rel_le_rnd {x : ℚ} (h : x ≤ 0) : x * (1 + 1 / 2 ^ 53) - 1 / 2 ^ 100 ≤ rnd x := by
  have h1 := abs_rnd_sub_le_rel x
  rw [abs_of_nonpos h, abs_le] at h1
  have := tiny_le
  linarith [h1.1]



/-- The correctly rounded square root of a positive number: a positive finite
value whose square is the argument up to the relative error `2^-50`. -/
theorem F64.sqrt_fin_pos {q : ℚ} (hq : 0 < q) :
    ∃ s : ℚ, F64.sqrt (F64.fin q) = F64.fin s ∧ 0 < s ∧
      s ^ 2 ≤ q * (1 + 1 / 2 ^ 50) ∧ q ≤ s ^ 2 * (1 + 1 / 2 ^ 50) := by
  have hL1 : ((2 : ℕ) : ℚ) ^ Int.log 2 q ≤ q := Int.zpow_log_le_self (by norm_num) hq
  have hL2 : q < ((2 : ℕ) : ℚ) ^ (Int.log 2 q + 1) := Int.lt_zpow_succ_log_self (by norm_num) q
  push_cast at hL1 hL2
  simp only [F64.sqrt, if_neg (not_lt.mpr hq.le), if_neg hq.ne']
  generalize Int.log 2 q = L at hL1 hL2 ⊢
  have he1 : 2 * (L / 2) ≤ L := by omega
  have hu : (0 : ℚ) < 2 ^ (L / 2 - 52) := by positivity
  generalize hc104 : (2 : ℚ) ^ (104 : ℕ) = c104
  have huu : (2 : ℚ) ^ (L / 2 - 52) * 2 ^ (L / 2 - 52) * c104 = 2 ^ (2 * (L / 2)) := by
    rw [← hc104, ← zpow_natCast, ← zpow_add₀ (by norm_num), ← zpow_add₀ (by norm_num)]
    congr 1; push_cast; ring
  have hy1 : c104 ≤ q / (2 ^ (L / 2 - 52) * 2 ^ (L / 2 - 52)) := by
    rw [le_div_iff₀ (by positivity), mul_comm, huu]
    exact le_trans (zpow_le_zpow_right₀ (by norm_num) he1) hL1
  have hqy : q = q / (2 ^ (L / 2 - 52) * 2 ^ (L / 2 - 52)) * (2 ^ (L / 2 - 52)) ^ 2 := by
    rw [sq, div_mul_cancel₀]; positivity
  generalize q / (2 ^ (L / 2 - 52) * 2 ^ (L / 2 - 52)) = y at hy1 hqy ⊢
  have hy0 : 0 ≤ y := le_trans (by rw [← hc104]; positivity) hy1
  have hfl : 2 ^ 52 * 2 ^ 52 ≤ ⌊y⌋₊ := by
    apply Nat.le_floor
    rw [← hc104] at hy1
    refine le_trans (le_of_eq ?_) hy1
    norm_num
  have hn52 : 2 ^ 52 ≤ Nat.sqrt ⌊y⌋₊ := by
    rw [Nat.le_sqrt]; exact hfl
  have hn1 : Nat.sqrt ⌊y⌋₊ * Nat.sqrt ⌊y⌋₊ ≤ ⌊y⌋₊ := Nat.sqrt_le _
  have hn2 : ⌊y⌋₊ < (Nat.sqrt ⌊y⌋₊ + 1) * (Nat.sqrt ⌊y⌋₊ + 1) := Nat.lt_succ_sqrt _
  generalize Nat.sqrt ⌊y⌋₊ = n at hn52 hn1 hn2 ⊢
  have hn52' : (2 : ℚ) ^ 52 ≤ n := by exact_mod_cast hn52
  have hny : (n : ℚ) ^ 2 ≤ y := by
    have : ((n * n : ℕ) : ℚ) ≤ (⌊y⌋₊ : ℚ) := by exact_mod_cast hn1
    have h2 := Nat.floor_le hy0
    push_cast at this
    rw [sq]
    exact le_trans this h2
  have hyn : y < ((n : ℚ) + 1) ^ 2 := by
    have : ((⌊y⌋₊ + 1 : ℕ) : ℚ) ≤ (((n + 1) * (n + 1) : ℕ) : ℚ) := by exact_mod_cast hn2
    have h2 := Nat.lt_floor_add_one y
    push_cast at this
    rw [sq]
    exact lt_of_lt_of_le h2 this
  have hn0 : (0 : ℚ) < n := lt_of_lt_of_le (by positivity) hn52'
  have hnn : ((n : ℚ) + 1) ^ 2 ≤ (n : ℚ) ^ 2 * (1 + 1 / 2 ^ 50) := by
    have h4 : (4 : ℚ) * 2 ^ 50 ≤ n := le_trans (by norm_num) hn52'
    have : (4 : ℚ) * n ≤ (n : ℚ) ^ 2 / 2 ^ 50 := by
      rw [le_div_iff₀ (by positivity), sq]
      calc (4 : ℚ) * (n : ℚ) * 2 ^ 50 = (4 * 2 ^ 50) * (n : ℚ) := by ring
        _ ≤ (n : ℚ) * (n : ℚ) := mul_le_mul_of_nonneg_right h4 hn0.le
    have h1 : (1 : ℚ) ≤ n := le_trans (by norm_num) hn52'
    calc ((n : ℚ) + 1) ^ 2 = (n : ℚ) ^ 2 + 2 * n + 1 := by ring
      _ ≤ (n : ℚ) ^ 2 + 4 * n := by linarith
      _ ≤ (n : ℚ) ^ 2 + (n : ℚ) ^ 2 / 2 ^ 50 := by linarith
      _ = (n : ℚ) ^ 2 * (1 + 1 / 2 ^ 50) := by ring
  have hc : (1 : ℚ) ≤ 1 + 1 / 2 ^ 50 := by norm_num
  have huu0 : (0 : ℚ) < (2 ^ (L / 2 - 52)) ^ 2 := by positivity
  have key : ∀ m : ℕ, (m = n ∨ m = n + 1) →
      0 < (m : ℚ) * 2 ^ (L / 2 - 52) ∧
      ((m : ℚ) * 2 ^ (L / 2 - 52)) ^ 2 ≤ q * (1 + 1 / 2 ^ 50) ∧
      q ≤ ((m : ℚ) * 2 ^ (L / 2 - 52)) ^ 2 * (1 + 1 / 2 ^ 50) := by
    intro m hm
    have hm1 : (n : ℚ) ≤ m := by rcases hm with rfl | rfl <;> push_cast <;> linarith
    have hm2 : (m : ℚ) ≤ n + 1 := by rcases hm with rfl | rfl <;> push_cast <;> linarith
    have hm0 : (0 : ℚ) < m := lt_of_lt_of_le hn0 hm1
    have hmm1 : (n : ℚ) ^ 2 ≤ (m : ℚ) ^ 2 := pow_le_pow_left₀ hn0.le hm1 2
    have hmm2 : (m : ℚ) ^ 2 ≤ ((n : ℚ) + 1) ^ 2 := pow_le_pow_left₀ hm0.le hm2 2
    refine ⟨mul_pos hm0 hu, ?_, ?_⟩
    · rw [mul_pow, hqy]
      have h1 : (m : ℚ) ^ 2 ≤ y * (1 + 1 / 2 ^ 50) :=
        calc (m : ℚ) ^ 2 ≤ (n : ℚ) ^ 2 * (1 + 1 / 2 ^ 50) := hmm2.trans hnn
          _ ≤ y * (1 + 1 / 2 ^ 50) := mul_le_mul_of_nonneg_right hny (by linarith)
      calc (m : ℚ) ^ 2 * (2 ^ (L / 2 - 52)) ^ 2
          ≤ y * (1 + 1 / 2 ^ 50) * (2 ^ (L / 2 - 52)) ^ 2 :=
            mul_le_mul_of_nonneg_right h1 huu0.le
        _ = y * (2 ^ (L / 2 - 52)) ^ 2 * (1 + 1 / 2 ^ 50) := by ring
    · rw [mul_pow, hqy]
      have h1 : y ≤ (m : ℚ) ^ 2 * (1 + 1 / 2 ^ 50) :=
        calc y ≤ ((n : ℚ) + 1) ^ 2 := hyn.le
          _ ≤ (n : ℚ) ^ 2 * (1 + 1 / 2 ^ 50) := hnn
          _ ≤ (m : ℚ) ^ 2 * (1 + 1 / 2 ^ 50) := mul_le_mul_of_nonneg_right hmm1 (by linarith)
      calc y * (2 ^ (L / 2 - 52)) ^ 2
          ≤ (m : ℚ) ^ 2 * (1 + 1 / 2 ^ 50) * (2 ^ (L / 2 - 52)) ^ 2 :=
            mul_le_mul_of_nonneg_right h1 huu0.le
        _ = (m : ℚ) ^ 2 * (2 ^ (L / 2 - 52)) ^ 2 * (1 + 1 / 2 ^ 50) := by ring
  split_ifs
  · exact ⟨_, rfl, key n (Or.inl rfl)⟩
  · exact ⟨_, rfl, key (n + 1) (Or.inr rfl)⟩
  · exact ⟨_, rfl, key n (Or.inl rfl)⟩
  · exact ⟨_, rfl, key (n + 1) (Or.inr rfl)⟩



namespace F64

theorem round_pow2 (k : ℕ) (hk : k ≤ 970) : round ((2 : ℚ) ^ k) = fin (2 ^ k) := by
  have := round_dyadic 1 k (by norm_num) (by omega) (by omega)
  simpa using this

theorem round_neg {q : ℚ} (h : round q = fin q) : round (-q) = fin (-q) := by
  have h1 := rnd_of_round_eq h
  have h2 : rnd (-q) = -q := by rw [rnd_neg, h1.1]
  rw [round_of_lt (by rw [h2, abs_neg]; exact h1.2), h2]

/-- A rounding between two values of the format is finite, with the relative
error bounds. -/
theorem round_fin (q lo hi : ℚ) (h1 : lo ≤ q) (h2 : q ≤ hi)
    (hlo : round lo = fin lo) (hhi : round hi = fin hi) :
    round q = fin (rnd q) ∧ lo ≤ rnd q ∧ rnd q ≤ hi ∧
      (0 ≤ q → rnd q ≤ q * (1 + 1 / 2 ^ 53) + 1 / 2 ^ 100) ∧
      (q ≤ 0 → q * (1 + 1 / 2 ^ 53) - 1 / 2 ^ 100 ≤ rnd q) := by
  obtain ⟨a, b, c⟩ := round_of_bounds q lo hi h1 h2 hlo hhi
  exact ⟨a, b, c, rnd_le_rel, rel_le_rnd⟩

end F64

theorem truncInt64_nonneg {q : ℚ} (h0 : 0 ≤ q) (h1 : q < 2 ^ 63) :
    0 ≤ truncInt64 q := by
  unfold truncInt64
  simp only [if_pos h0]
  have hf : 0 ≤ ⌊q⌋ := Int.floor_nonneg.mpr h0
  have hf2 : ⌊q⌋ < 2 ^ 63 := Int.floor_lt.mpr (by push_cast; exact h1)
  split_ifs <;> omega



/-! ## The dispatch of `PoissonInt64` -/

theorem PoissonInt64_at_zero (M : LibM) (R : Source F64 σ) (fuel : Nat) (r : σ) :
    PoissonInt64 (binary64 M) R fuel (F64.fin 0) r = some (0, r) := by
  simp [PoissonInt64, binary64, F64.le, F64.eq]

theorem PoissonInt64_eq_mult (M : LibM) (R : Source F64 σ) (fuel : Nat) (r : σ) (lam : ℚ)
    (h0 : 0 < lam) (h10 : lam < 10) :
    PoissonInt64 (binary64 M) R fuel (F64.fin lam) r
      = poissonMult (binary64 M) R fuel (F64.fin lam) r := by
  simp [PoissonInt64, binary64, F64.le, F64.eq, not_le.mpr h10, h0.ne']

theorem PoissonInt64_eq_ptrs (M : LibM) (R : Source F64 σ) (fuel : Nat) (r : σ) (lam : ℚ)
    (h10 : 10 ≤ lam) :
    PoissonInt64 (binary64 M) R fuel (F64.fin lam) r
      = poissonPtrs (binary64 M) R fuel (F64.fin lam) r := by
  simp [PoissonInt64, binary64, F64.le, h10]

/-- C2: `PoissonInt64(0)` returns 0 and consumes no draw: for every `math`
library, every source, every state of it and every fuel, the result is 0 and
the state of the source after the call is the state before it. -/
theorem PoissonInt64_zero (M : LibM) (R : Source F64 σ) (fuel : Nat) (r : σ) :
    PoissonInt64 (binary64 M) R fuel (F64.fin 0) r = some (0, r) :=
  PoissonInt64_at_zero M R fuel r

/-- C3: `PoissonInt64` dispatches on `lam` by the threshold 10: for
`0 < lam < 10` it is `poissonMult(lam)`, result and final source state, and for
`lam ≥ 10`, the value 10 included, it is `poissonPtrs(lam)`. -/
theorem PoissonInt64_dispatch (M : LibM) (R : Source F64 σ) (fuel : Nat) (r : σ) (lam : ℚ) :
    (0 < lam → lam < 10 →
      PoissonInt64 (binary64 M) R fuel (F64.fin lam) r
        = poissonMult (binary64 M) R fuel (F64.fin lam) r) ∧
    (10 ≤ lam →
      PoissonInt64 (binary64 M) R fuel (F64.fin lam) r
        = poissonPtrs (binary64 M) R fuel (F64.fin lam) r) :=
  ⟨PoissonInt64_eq_mult M R fuel r lam, PoissonInt64_eq_ptrs M R fuel r lam⟩

/-- The dispatch at `lam = 9.999`, at `lam = 10` and at `lam = 10.5`. -/
theorem PoissonInt64_dispatch_witness :
    (∀ (M : LibM) (fuel : Nat) (l : List F64),
      PoissonInt64 (binary64 M) (replay (F64.fin 0)) fuel (F64.fin 9.999) l
        = poissonMult (binary64 M) (replay (F64.fin 0)) fuel (F64.fin 9.999) l) ∧
    (∀ (M : LibM) (fuel : Nat) (l : List F64),
      PoissonInt64 (binary64 M) (replay (F64.fin 0)) fuel (F64.fin 10) l
        = poissonPtrs (binary64 M) (replay (F64.fin 0)) fuel (F64.fin 10) l) ∧
    (∀ (M : LibM) (fuel : Nat) (l : List F64),
      PoissonInt64 (binary64 M) (replay (F64.fin 0)) fuel (F64.fin 10.5) l
        = poissonPtrs (binary64 M) (replay (F64.fin 0)) fuel (F64.fin 10.5) l) :=
  ⟨fun M fuel l =>
      (PoissonInt64_dispatch M (replay (F64.fin 0)) fuel l 9.999).1 (by norm_num) (by norm_num),
    fun M fuel l => (PoissonInt64_dispatch M (replay (F64.fin 0)) fuel l 10).2 (by norm_num),
    fun M fuel l => (PoissonInt64_dispatch M (replay (F64.fin 0)) fuel l 10.5).2 (by norm_num)⟩

/-! ## The multiplicative loop -/

theorem wrapInt64_of_range {z : Int} (h1 : -2 ^ 63 ≤ z) (h2 : z < 2 ^ 63) : wrapInt64 z = z := by
  unfold wrapInt64
  omega

/-- The loop of `poissonMult`, for every arithmetic: entered after `j` draws with
the running product of those draws and the count `j`, it returns the first
index `n` at which the test `prod > enlam` fails, after `n + 1` draws. -/
theorem poissonMultLoop_least (A : Arith F) (R : Source F σ) (enlam : F) (r : σ) (n : Nat)
    (hn : (n : Int) < 2 ^ 63)
    (hgt : ∀ j, j < n → A.lt enlam (runningProd A R r (j + 1)) = true)
    (hle : A.lt enlam (runningProd A R r (n + 1)) = false) :
    ∀ (d j fuel : Nat), j + d = n → d + 1 ≤ fuel →
      poissonMultLoop A R enlam fuel (runningProd A R r j) j (R.after r j)
        = some ((n : Int), R.after r (n + 1)) := by
  intro d
  induction d with
  | zero =>
    intro j fuel hj hf
    obtain ⟨f, rfl⟩ : ∃ f, fuel = f + 1 := ⟨fuel - 1, by omega⟩
    have hj' : j = n := by omega
    subst hj'
    have h : A.lt enlam (A.mul (runningProd A R r j) (R.float64 (R.after r j)).1) = false := hle
    simp only [poissonMultLoop, h]
    rfl
  | succ d ih =>
    intro j fuel hj hf
    obtain ⟨f, rfl⟩ : ∃ f, fuel = f + 1 := ⟨fuel - 1, by omega⟩
    have h : A.lt enlam (A.mul (runningProd A R r j) (R.float64 (R.after r j)).1) = true :=
      hgt j (by omega)
    have hw : wrapInt64 ((j : Int) + 1) = ((j + 1 : Nat) : Int) := by
      rw [wrapInt64_of_range (by omega) (by omega)]; push_cast; rfl
    simp only [poissonMultLoop, h, if_true, hw]
    exact ih (j + 1) f (by omega) (by omega)


theorem pow_decay (N : ℕ) (hN : 0 < N) : (1 - 1 / (N : ℚ)) ^ N ≤ 1 / 2 := by
  have hN' : (0 : ℚ) < N := by exact_mod_cast hN
  have h1 : (1 : ℚ) + N * (1 / N) ≤ (1 + 1 / (N : ℚ)) ^ N :=
    one_add_mul_le_pow (by have : (0 : ℚ) ≤ 1 / N := by positivity
                           linarith) N
  have h2 : (2 : ℚ) ≤ (1 + 1 / (N : ℚ)) ^ N := by
    have : (N : ℚ) * (1 / N) = 1 := by field_simp
    linarith
  have h3 : (1 - 1 / (N : ℚ)) * (1 + 1 / (N : ℚ)) ≤ 1 := by
    have : (1 - 1 / (N : ℚ)) * (1 + 1 / (N : ℚ)) = 1 - (1 / (N : ℚ)) ^ 2 := by ring
    rw [this]
    have : (0 : ℚ) ≤ (1 / (N : ℚ)) ^ 2 := by positivity
    linarith
  have h0 : (0 : ℚ) ≤ 1 - 1 / (N : ℚ) := by
    rw [sub_nonneg, div_le_one hN']
    exact_mod_cast hN
  have h4 : ((1 - 1 / (N : ℚ)) * (1 + 1 / (N : ℚ))) ^ N ≤ 1 :=
    pow_le_one₀ (mul_nonneg h0 (by positivity)) h3
  rw [mul_pow] at h4
  have h5 : (0 : ℚ) ≤ (1 - 1 / (N : ℚ)) ^ N := pow_nonneg h0 N
  nlinarith

theorem pow_decay_mul (N : ℕ) (hN : 0 < N) (k j : ℕ) (hj : k * N ≤ j) :
    (1 - 1 / (N : ℚ)) ^ j ≤ (1 / 2) ^ k := by
  have hN' : (0 : ℚ) < N := by exact_mod_cast hN
  have h0 : (0 : ℚ) ≤ 1 - 1 / (N : ℚ) := by
    rw [sub_nonneg, div_le_one hN']
    exact_mod_cast hN
  have h1 : (1 - 1 / (N : ℚ)) ≤ 1 := by
    have : (0 : ℚ) ≤ 1 / N := by positivity
    linarith
  calc (1 - 1 / (N : ℚ)) ^ j ≤ (1 - 1 / (N : ℚ)) ^ (N * k) :=
        pow_le_pow_of_le_one h0 h1 (by rw [mul_comm]; exact hj)
    _ = ((1 - 1 / (N : ℚ)) ^ N) ^ k := pow_mul _ _ _
    _ ≤ (1 / 2) ^ k := pow_le_pow_left₀ (pow_nonneg h0 N) (pow_decay N hN) k



theorem runningProd_succ (A : Arith F) (R : Source F σ) (r : σ) (n : Nat) :
    runningProd A R r (n + 1) = A.mul (runningProd A R r n) (R.draw r n) := rfl

/-- Under the contract of the source the running product is a `float64` value
in `[0,1]`. -/
theorem runningProd_unit (M : LibM) (R : Source F64 σ) (r : σ) (hd : UnitDraws R r) (j : Nat) :
    ∃ p : ℚ, runningProd (binary64 M) R r j = F64.fin p ∧ rnd p = p ∧ 0 ≤ p ∧ p ≤ 1 := by
  induction j with
  | zero => exact ⟨1, by simp [runningProd, binary64], F64.rnd_one, by norm_num, le_rfl⟩
  | succ j ih =>
    obtain ⟨p, hp, _, hp0, hp1⟩ := ih
    obtain ⟨u, hu, _, hu0, hu1⟩ := hd j
    obtain ⟨h1, h2, h3⟩ := F64.round_of_bounds (p * u) 0 1 (mul_nonneg hp0 hu0)
      (by nlinarith) F64.round_zero F64.round_one
    refine ⟨rnd (p * u), ?_, rnd_rnd _, h2, h3⟩
    rw [runningProd_succ, hp, hu]
    exact h1

/-- A `float64` value below 1 is at most `1 - 2^-53`. -/
theorem le_pred_one {u : ℚ} (hu : F64.round u = F64.fin u) (h1 : u < 1) :
    u ≤ 1 - 1 / 2 ^ 53 := by
  rcases le_or_lt u 0 with h0 | h0
  · have : (0 : ℚ) ≤ 1 - 1 / 2 ^ 53 := by norm_num
    linarith
  · have := repr_gap (F64.rnd_of_round_eq hu).1 F64.rnd_one h0 h1
    linarith

/-- While the running product stays above a threshold `e ≥ 2^-1022`, each draw
of the source shrinks it by the factor `1 - 2^-53` at least. -/
theorem runningProd_le_pow (M : LibM) (R : Source F64 σ) (r : σ) (hd : UnitDraws R r)
    (e : ℚ) (he : 2 ^ (-1022 : Int) ≤ e) (j : Nat)
    (hgt : ∀ i, i < j → F64.lt (F64.fin e) (runningProd (binary64 M) R r (i + 1)) = true) :
    ∃ p : ℚ, runningProd (binary64 M) R r j = F64.fin p ∧ p ≤ (1 - 1 / 2 ^ 53) ^ j := by
  induction j with
  | zero => exact ⟨1, by simp [runningProd, binary64], by norm_num⟩
  | succ j ih =>
    obtain ⟨p, hp, hpj⟩ := ih (fun i hi => hgt i (by omega))
    obtain ⟨p', hp', hpr, hp0, hp1⟩ := runningProd_unit M R r hd j
    have hpp : p' = p := by rw [hp] at hp'; injection hp' with h; exact h.symm
    subst hpp
    obtain ⟨q, hq, hqr, hq0, hq1⟩ := runningProd_unit M R r hd (j + 1)
    obtain ⟨u, hu, hur, hu0, hu1⟩ := hd j
    have hqe : q = rnd (p' * u) := by
      rw [runningProd_succ, hp, hu] at hq
      obtain ⟨h1, _, _⟩ := F64.round_of_bounds (p' * u) 0 1 (mul_nonneg hp0 hu0)
        (by nlinarith) F64.round_zero F64.round_one
      have : F64.round (p' * u) = F64.fin q := hq
      rw [h1] at this
      injection this with h
      exact h.symm
    have hpn : (2 : ℚ) ^ (-1022 : Int) < p' := by
      rcases Nat.eq_zero_or_pos j with hj | hj
      · subst hj
        have : p' = 1 := by
          have h1 : runningProd (binary64 M) R r 0 = F64.fin 1 := by
            simp [runningProd, binary64]
          rw [h1] at hp; injection hp with h; exact h.symm
        rw [this]
        rw [zpow_neg]
        exact inv_lt_one_of_one_lt₀ (one_lt_zpow₀ (by norm_num) (by norm_num))
      · obtain ⟨i, rfl⟩ : ∃ i, j = i + 1 := ⟨j - 1, by omega⟩
        have := hgt i (by omega)
        rw [hp] at this
        have : e < p' := by simpa [F64.lt] using this
        linarith
    have hule := le_pred_one hur hu1
    have hx : p' * u ≤ p' * (1 - 1 / 2 ^ 53) := mul_le_mul_of_nonneg_left hule hp0
    have hlt : q < p' := by rw [hqe]; exact rnd_lt_of_le_mul hpr hpn hx
    refine ⟨q, hq, ?_⟩
    have h53 : (0 : ℚ) ≤ 1 - 1 / 2 ^ 53 := by norm_num
    rcases hq0.eq_or_lt with h0 | h0
    · rw [← h0]; positivity
    · have := repr_gap hqr hpr h0 hlt
      calc q ≤ p' * (1 - 1 / 2 ^ 53) := this
        _ ≤ (1 - 1 / 2 ^ 53) ^ j * (1 - 1 / 2 ^ 53) := mul_le_mul_of_nonneg_right hpj h53
        _ = (1 - 1 / 2 ^ 53) ^ (j + 1) := (pow_succ _ _).symm

/-- Under the contract of the source, a loop of `poissonMult` whose threshold is
a normal number cannot keep going for `1022 * 2^53` draws. -/
theorem runningProd_count_lt (M : LibM) (R : Source F64 σ) (r : σ) (hd : UnitDraws R r)
    (e : ℚ) (he : 2 ^ (-1022 : Int) ≤ e) (n : Nat)
    (hgt : ∀ i, i < n → F64.lt (F64.fin e) (runningProd (binary64 M) R r (i + 1)) = true) :
    n < 1022 * 2 ^ 53 := by
  by_contra hn
  have hn' : 1022 * 2 ^ 53 ≤ n := not_lt.mp hn
  obtain ⟨p, hp, hpn⟩ := runningProd_le_pow M R r hd e he n hgt
  obtain ⟨i, rfl⟩ : ∃ i, n = i + 1 := ⟨n - 1, by omega⟩
  have h1 := hgt i (by omega)
  rw [hp] at h1
  have h2 : e < p := by simpa [F64.lt] using h1
  have h3 := pow_decay_mul (2 ^ 53) (by positivity) 1022 (i + 1) hn'
  have h4 : (1 - 1 / ((2 ^ 53 : ℕ) : ℚ)) = 1 - 1 / 2 ^ 53 := by norm_num
  rw [h4] at h3
  have h5 : ((1 : ℚ) / 2) ^ 1022 = 2 ^ (-1022 : Int) := by
    rw [one_div, inv_pow, zpow_neg, ← zpow_natCast]
    simp only [Nat.cast_ofNat]
  rw [h5] at h3
  exact absurd (lt_of_lt_of_le h2 (hpn.trans h3)) (not_lt.mpr he)



/-- The loop of `poissonMult` in binary64, under the contract of the source. -/
theorem poissonMult_returns_least (M : LibM) (R : Source F64 σ) (r : σ) (lam : ℚ)
    (h0 : 0 < lam) (h10 : lam < 10)
    (hexp : ∀ x : ℚ, -10 < x → x < 0 →
      ∃ e : ℚ, M.exp (F64.fin x) = F64.fin e ∧ 2 ^ (-1022 : Int) ≤ e)
    (hd : UnitDraws R r) (n : Nat)
    (hgt : ∀ j, j < n →
      F64.lt (M.exp (F64.fin (-lam))) (runningProd (binary64 M) R r (j + 1)) = true)
    (hle : F64.le (runningProd (binary64 M) R r (n + 1)) (M.exp (F64.fin (-lam))) = true)
    (fuel : Nat) (hfuel : n + 1 ≤ fuel) :
    poissonMult (binary64 M) R fuel (F64.fin lam) r = some ((n : Int), R.after r (n + 1)) := by
  obtain ⟨e, hee, he⟩ := hexp (-lam) (by linarith) (by linarith)
  rw [hee] at hgt hle
  have hcount := runningProd_count_lt M R r hd e he n hgt
  have hn : (n : Int) < 2 ^ 63 := by
    have : n < 2 ^ 63 := lt_trans hcount (by norm_num)
    exact_mod_cast this
  obtain ⟨p, hp, _, _, _⟩ := runningProd_unit M R r hd (n + 1)
  have hle' : F64.lt (F64.fin e) (runningProd (binary64 M) R r (n + 1)) = false := by
    rw [hp] at hle ⊢
    have : p ≤ e := by simpa [F64.le] using hle
    simpa [F64.lt] using this
  have hen : (binary64 M).exp ((binary64 M).neg (F64.fin lam)) = F64.fin e := hee
  unfold poissonMult
  rw [hen]
  exact poissonMultLoop_least (binary64 M) R (F64.fin e) r n hn hgt hle' n 0 fuel
    (by omega) hfuel

theorem unitDraws_replay (l : List F64)
    (hl : ∀ x ∈ l, ∃ u : ℚ, x = F64.fin u ∧ F64.round u = F64.fin u ∧ 0 ≤ u ∧ u < 1) :
    UnitDraws (replay (F64.fin 0)) l := by
  have hafter : ∀ n, (replay (F64.fin 0)).after l n = l.drop n := by
    intro n
    induction n with
    | zero => rfl
    | succ n ih =>
      show ((replay (F64.fin 0)).float64 ((replay (F64.fin 0)).after l n)).2 = _
      rw [ih]
      simp [replay, List.tail_drop]
  intro n
  show ∃ u : ℚ, ((replay (F64.fin 0)).float64 ((replay (F64.fin 0)).after l n)).1 = _ ∧ _
  rw [hafter n]
  cases hdn : l.drop n with
  | nil => exact ⟨0, by simp [replay], F64.round_zero, le_rfl, by norm_num⟩
  | cons x t =>
    have hx : x ∈ l := List.mem_of_mem_drop (by rw [hdn]; exact List.mem_cons_self _ _)
    obtain ⟨u, hu⟩ := hl x hx
    exact ⟨u, by simp [replay, hu.1], hu.2⟩

theorem coarseLibM_exp_normal (x : ℚ) (h1 : -10 < x) (h2 : x < 0) :
    ∃ e : ℚ, coarseLibM.exp (F64.fin x) = F64.fin e ∧ 2 ^ (-1022 : Int) ≤ e := by
  have hx : (0 : ℚ) < 1 - x := by linarith
  obtain ⟨a, b, _⟩ := F64.round_of_bounds (1 / (1 - x)) (1 / 16) 1
    (by rw [div_le_div_iff₀ (by norm_num) hx]; linarith)
    (by rw [div_le_one hx]; linarith)
    (by have := F64.round_dyadic 1 (-4) (by norm_num) (by norm_num) (by norm_num)
        norm_num at this ⊢; exact this)
    F64.round_one
  refine ⟨rnd (1 / (1 - x)), ?_, ?_⟩
  · simp only [coarseLibM]
    rw [if_neg (not_le.mpr h2)]
    exact a
  · refine le_trans ?_ b
    rw [zpow_neg, one_div]
    apply inv_anti₀ (by norm_num)
    calc (16 : ℚ) = 2 ^ (4 : Int) := by norm_num
      _ ≤ 2 ^ (1022 : Int) := zpow_le_zpow_right₀ (by norm_num) (by norm_num)



theorem round_half : F64.round (1 / 2) = F64.fin (1 / 2) := by
  have := F64.round_dyadic 1 (-1) (by norm_num) (by norm_num) (by norm_num)
  norm_num at this ⊢; exact this

theorem round_quarter : F64.round (1 / 4) = F64.fin (1 / 4) := by
  have := F64.round_dyadic 1 (-2) (by norm_num) (by norm_num) (by norm_num)
  norm_num at this ⊢; exact this

theorem round_three_quarters : F64.round (3 / 4) = F64.fin (3 / 4) := by
  have := F64.round_dyadic 3 (-2) (by norm_num) (by norm_num) (by norm_num)
  norm_num at this ⊢; exact this

theorem round_three_sixteenths : F64.round (3 / 16) = F64.fin (3 / 16) := by
  have := F64.round_dyadic 3 (-4) (by norm_num) (by norm_num) (by norm_num)
  norm_num at this ⊢; exact this

theorem coarse_exp_neg_one : coarseLibM.exp (F64.fin (-1)) = F64.fin (1 / 2) := by
  simp only [coarseLibM]
  norm_num
  exact round_half

theorem example_draws_unit :
    UnitDraws (replay (F64.fin 0)) [F64.fin (3 / 4), F64.fin (1 / 4)] :=
  unitDraws_replay _ (by
    intro x hx
    simp only [List.mem_cons, List.mem_singleton, List.not_mem_nil, or_false] at hx
    rcases hx with rfl | rfl
    · exact ⟨3 / 4, rfl, round_three_quarters, by norm_num, by norm_num⟩
    · exact ⟨1 / 4, rfl, round_quarter, by norm_num, by norm_num⟩)

theorem example_prod_gt : ∀ j, j < 1 →
    F64.lt (coarseLibM.exp (F64.fin (-1)))
      (runningProd (binary64 coarseLibM) (replay (F64.fin 0))
        [F64.fin (3 / 4), F64.fin (1 / 4)] (j + 1)) = true := by
  intro j hj
  obtain rfl : j = 0 := by omega
  rw [coarse_exp_neg_one]
  simp [runningProd, Source.draw, Source.after, replay, binary64, F64.mul,
    round_three_quarters, F64.lt]
  norm_num

theorem example_prod_le :
    F64.le (runningProd (binary64 coarseLibM) (replay (F64.fin 0))
        [F64.fin (3 / 4), F64.fin (1 / 4)] (1 + 1)) (coarseLibM.exp (F64.fin (-1))) = true := by
  rw [coarse_exp_neg_one]
  simp [runningProd, Source.draw, Source.after, replay, binary64, F64.mul,
    round_three_quarters, F64.le]
  norm_num [round_three_sixteenths]

/-- The run of `PoissonInt64(1)` with the coarse library (`exp(-1)` is `1/2`) on
the draws `3/4, 1/4`: the result is 1 after two draws. -/
theorem PoissonInt64_example :
    PoissonInt64 (binary64 coarseLibM) (replay (F64.fin 0)) 2 (F64.fin 1)
      [F64.fin (3 / 4), F64.fin (1 / 4)] = some (1, []) := by
  rw [PoissonInt64_eq_mult _ _ _ _ 1 (by norm_num) (by norm_num)]
  exact poissonMult_returns_least coarseLibM (replay (F64.fin 0))
    [F64.fin (3 / 4), F64.fin (1 / 4)] 1 (by norm_num) (by norm_num) coarseLibM_exp_normal
    example_draws_unit 1 example_prod_gt example_prod_le 2 (by norm_num)

/-- C4: for every `lam` with `0 < lam < 10` and every run of draws,
`poissonMult(lam)` returns the least `n` such that the running product of the
first `n + 1` draws is `≤ exp(-lam)` (the products of the first `1, ..., n` draws
are all `> exp(-lam)`), and it consumes exactly `n + 1` draws.  The draws are
`float64` values in `[0,1)` and `math.Exp` is a normal number on `(-10, 0)`; the
count then stays below `2^63` and never wraps. -/
theorem poissonMult_least (M : LibM) (R : Source F64 σ) (r : σ) (lam : ℚ)
    (h0 : 0 < lam) (h10 : lam < 10)
    (hexp : ∀ x : ℚ, -10 < x → x < 0 →
      ∃ e : ℚ, M.exp (F64.fin x) = F64.fin e ∧ 2 ^ (-1022 : Int) ≤ e)
    (hd : UnitDraws R r) (n : Nat)
    (hgt : ∀ j, j < n →
      F64.lt (M.exp (F64.fin (-lam))) (runningProd (binary64 M) R r (j + 1)) = true)
    (hle : F64.le (runningProd (binary64 M) R r (n + 1)) (M.exp (F64.fin (-lam))) = true)
    (fuel : Nat) (hfuel : n + 1 ≤ fuel) :
    poissonMult (binary64 M) R fuel (F64.fin lam) r = some ((n : Int), R.after r (n + 1)) :=
  poissonMult_returns_least M R r lam h0 h10 hexp hd n hgt hle fuel hfuel

/-- The loop at `lam = 1` with the coarse library (`exp(-1)` is `1/2`) and the
draws `3/4, 1/4`: the products are `3/4 > 1/2` and `3/16 ≤ 1/2`, the result is 1
after two draws. -/
theorem poissonMult_least_witness :
    poissonMult (binary64 coarseLibM) (replay (F64.fin 0)) 2 (F64.fin 1)
      [F64.fin (3 / 4), F64.fin (1 / 4)] = some (1, []) :=
  poissonMult_least coarseLibM (replay (F64.fin 0)) [F64.fin (3 / 4), F64.fin (1 / 4)] 1
    (by norm_num) (by norm_num) coarseLibM_exp_normal example_draws_unit 1
    example_prod_gt example_prod_le 2 (by norm_num)

/-! ## The transformed rejection loop -/

theorem round_043 : ∃ c : ℚ, F64.round 0.43 = F64.fin c ∧ 0 ≤ c ∧ c ≤ 1 := by
  obtain ⟨h1, h2, h3⟩ := F64.round_of_bounds 0.43 0 1 (by norm_num) (by norm_num)
    F64.round_zero F64.round_one
  exact ⟨_, h1, h2, h3⟩

/-- The candidate of a squeeze iteration is non-negative: with `us ≥ 71/1024`
and `|U| ≤ 221/512` the product `(2*a/us + b) * U` is above `-0.7487 * b`. -/
theorem ptrsCandidate_nonneg (M : LibM) (lam a b us U : ℚ)
    (hb8 : 8 ≤ b) (hb35 : b ≤ 2 ^ 35) (ha0 : 0 ≤ a) (hab : a ≤ 0.0254 * b)
    (hus : 71 / 1024 ≤ us) (hU : |U| ≤ 221 / 512)
    (hkey : 0.7487 * b ≤ lam) (hlam : lam ≤ 2 ^ 62) :
    0 ≤ ptrsCandidate (binary64 M) (F64.fin lam) (F64.fin a) (F64.fin b) (F64.fin us)
      (F64.fin U) := by
  have hus0 : 0 < us := lt_of_lt_of_le (by norm_num) hus
  obtain ⟨hU1, hU2⟩ := abs_le.mp hU
  -- v1 = 2 * a
  obtain ⟨e1, l1, u1, r1, _⟩ := F64.round_fin (2 * a) 0 (2 ^ 31)
    (by linarith) (by norm_num at hb35 hab ⊢; linarith) F64.round_zero (F64.round_pow2 31 (by norm_num))
  have r1' := r1 (by linarith)
  generalize rnd (2 * a) = v1 at e1 l1 u1 r1'
  -- v2 = v1 / us
  have hdiv : v1 / us ≤ v1 * (1024 / 71) := by
    rw [div_le_iff₀ hus0]
    nlinarith
  obtain ⟨e2, l2, u2, r2, _⟩ := F64.round_fin (v1 / us) 0 (2 ^ 35)
    (div_nonneg l1 hus0.le) (by norm_num at u1 ⊢; linarith) F64.round_zero
    (F64.round_pow2 35 (by norm_num))
  have r2' := r2 (div_nonneg l1 hus0.le)
  generalize rnd (v1 / us) = v2 at e2 l2 u2 r2'
  -- v3 = v2 + b
  obtain ⟨e3, l3, u3, r3, _⟩ := F64.round_fin (v2 + b) 0 (2 ^ 36)
    (by linarith) (by norm_num at u2 hb35 ⊢; linarith) F64.round_zero
    (F64.round_pow2 36 (by norm_num))
  have r3' := r3 (by linarith)
  generalize rnd (v2 + b) = v3 at e3 l3 u3 r3'
  -- v4 = v3 * U
  have hw1 : -(v3 * (221 / 512)) ≤ v3 * U := by nlinarith
  have hw2 : v3 * U ≤ v3 * (221 / 512) := by nlinarith
  obtain ⟨e4, _, u4, _, _⟩ := F64.round_fin (v3 * U) (-2 ^ 35) (2 ^ 35)
    (by norm_num at u3 ⊢; linarith) (by norm_num at u3 ⊢; linarith)
    (F64.round_neg (F64.round_pow2 35 (by norm_num))) (F64.round_pow2 35 (by norm_num))
  have l4 : -(v3 * (221 / 512)) * (1 + 1 / 2 ^ 53) - 1 / 2 ^ 100 ≤ rnd (v3 * U) :=
    le_trans (rel_le_rnd (by linarith)) (rnd_mono hw1)
  generalize rnd (v3 * U) = v4 at e4 u4 l4
  -- v5 = v4 + lam
  have hv3 : v3 ≤ 1.7330 * b := by
    norm_num at r1' r2' r3' hab hdiv ⊢
    linarith
  have hsum : 0 ≤ v4 + lam := by
    norm_num at l4 hv3 hkey ⊢
    linarith
  have hhi5 := F64.round_dyadic (2 ^ 26 + 1) 36 (by norm_num) (by norm_num) (by norm_num)
  obtain ⟨e5, l5, u5, _, _⟩ := F64.round_fin (v4 + lam) 0 _
    hsum (by norm_num at u4 hlam ⊢; linarith) F64.round_zero hhi5
  generalize rnd (v4 + lam) = v5 at e5 l5 u5
  -- v6 = v5 + 0.43
  obtain ⟨c, ec, c0, c1⟩ := round_043
  have hhi6 := F64.round_dyadic (2 ^ 25 + 1) 37 (by norm_num) (by norm_num) (by norm_num)
  obtain ⟨e6, l6, u6, _, _⟩ := F64.round_fin (v5 + c) 0 _
    (by linarith) (by norm_num at u5 ⊢; linarith) F64.round_zero hhi6
  generalize rnd (v5 + c) = v6 at e6 l6 u6
  have e2' : F64.div (F64.fin v1) (F64.fin us) = F64.fin v2 := by
    simp only [F64.div, if_neg hus0.ne']; exact e2
  have hres : ptrsCandidate (binary64 M) (F64.fin lam) (F64.fin a) (F64.fin b) (F64.fin us)
      (F64.fin U) = truncInt64 v6 := by
    simp only [ptrsCandidate, binary64, F64.round_two, ec]
    rw [show F64.mul (F64.fin 2) (F64.fin a) = F64.fin v1 from e1, e2',
      show F64.add (F64.fin v2) (F64.fin b) = F64.fin v3 from e3,
      show F64.mul (F64.fin v3) (F64.fin U) = F64.fin v4 from e4,
      show F64.add (F64.fin v4) (F64.fin lam) = F64.fin v5 from e5,
      show F64.add (F64.fin v5) (F64.fin c) = F64.fin v6 from e6]
    rfl
  rw [hres]
  exact truncInt64_nonneg l6 (by norm_num at u6 ⊢; linarith)



/-- The rounding of a number between two dyadic bounds: a finite value of the
format between the bounds, within the relative error of the exact number. -/
theorem round_lit (q lo hi : ℚ) (m1 e1 m2 e2 : Int)
    (hlo : lo = (m1 : ℚ) * 2 ^ e1) (hhi : hi = (m2 : ℚ) * 2 ^ e2)
    (hm1 : |m1| < 2 ^ 53) (he1 : -1074 ≤ e1) (he1' : e1 ≤ 970)
    (hm2 : |m2| < 2 ^ 53) (he2 : -1074 ≤ e2) (he2' : e2 ≤ 970)
    (h1 : lo ≤ q) (h2 : q ≤ hi) :
    ∃ c : ℚ, F64.round q = F64.fin c ∧ rnd c = c ∧ lo ≤ c ∧ c ≤ hi ∧
      (0 ≤ q → c ≤ q * (1 + 1 / 2 ^ 53) + 1 / 2 ^ 100) ∧
      (q ≤ 0 → q * (1 + 1 / 2 ^ 53) - 1 / 2 ^ 100 ≤ c) := by
  obtain ⟨a, b, c⟩ := F64.round_of_bounds q lo hi h1 h2
    (by rw [hlo]; exact F64.round_dyadic m1 e1 hm1 he1 he1')
    (by rw [hhi]; exact F64.round_dyadic m2 e2 hm2 he2 he2')
  exact ⟨_, a, rnd_rnd q, b, c, rnd_le_rel, rel_le_rnd⟩

theorem round_253 : ∃ c : ℚ, F64.round 2.53 = F64.fin c ∧ 5 / 2 ≤ c ∧ c ≤ 81 / 32 := by
  obtain ⟨c, e, _, l, u, _, _⟩ := round_lit 2.53 (5 / 2) (81 / 32) 5 (-1) 81 (-5)
    (by norm_num) (by norm_num) (by norm_num) (by norm_num) (by norm_num) (by norm_num)
    (by norm_num) (by norm_num) (by norm_num) (by norm_num)
  exact ⟨c, e, l, u⟩

theorem round_0931 : ∃ c : ℚ, F64.round 0.931 = F64.fin c ∧ 1 / 2 ≤ c ∧ c ≤ 1 := by
  obtain ⟨c, e, _, l, u, _, _⟩ := round_lit 0.931 (1 / 2) 1 1 (-1) 1 0
    (by norm_num) (by norm_num) (by norm_num) (by norm_num) (by norm_num) (by norm_num)
    (by norm_num) (by norm_num) (by norm_num) (by norm_num)
  exact ⟨c, e, l, u⟩

theorem round_002483 : ∃ c : ℚ, F64.round 0.02483 = F64.fin c ∧ 1 / 64 ≤ c ∧ c ≤ 13 / 512 := by
  obtain ⟨c, e, _, l, u, _, _⟩ := round_lit 0.02483 (1 / 64) (13 / 512) 1 (-6) 13 (-9)
    (by norm_num) (by norm_num) (by norm_num) (by norm_num) (by norm_num) (by norm_num)
    (by norm_num) (by norm_num) (by norm_num) (by norm_num)
  exact ⟨c, e, l, u⟩

theorem round_neg0059 : ∃ c : ℚ, F64.round (-0.059) = F64.fin c ∧ -1 / 16 ≤ c ∧ c ≤ 0 := by
  obtain ⟨c, e, _, l, u, _, _⟩ := round_lit (-0.059) (-1 / 16) 0 (-1) (-4) 0 0
    (by norm_num) (by norm_num) (by norm_num) (by norm_num) (by norm_num) (by norm_num)
    (by norm_num) (by norm_num) (by norm_num) (by norm_num)
  exact ⟨c, e, l, u⟩

/-- The square root `slam` of `poissonPtrs` for `10 ≤ lam ≤ 2^62`. -/
theorem ptrs_slam (lam : ℚ) (h10 : 10 ≤ lam) (h62 : lam ≤ 3 * 2 ^ 62) :
    ∃ s : ℚ, F64.sqrt (F64.fin lam) = F64.fin s ∧ 3 ≤ s ∧ s ≤ 2 ^ 32 ∧
      s ^ 2 ≤ lam * (1 + 1 / 2 ^ 50) := by
  obtain ⟨s, hs, hs0, hs1, hs2⟩ := F64.sqrt_fin_pos (lt_of_lt_of_le (by norm_num) h10)
  refine ⟨s, hs, ?_, ?_, hs1⟩
  · by_contra h
    have : s < 3 := not_le.mp h
    have : s ^ 2 < 9 := by nlinarith
    norm_num at hs2
    linarith
  · by_contra h
    have : (2 : ℚ) ^ 32 < s := not_le.mp h
    have : ((2 : ℚ) ^ 32) ^ 2 < s ^ 2 := by nlinarith
    norm_num at hs1 this h62
    linarith

/-- The constant `b` of `poissonPtrs`, from `slam`. -/
theorem ptrs_b (s : ℚ) (hs3 : 3 ≤ s) (hs32 : s ≤ 2 ^ 32) :
    ∃ b : ℚ,
      F64.add (F64.round 0.931) (F64.mul (F64.round 2.53) (F64.fin s)) = F64.fin b ∧
      8 ≤ b ∧ b ≤ 2 ^ 35 ∧ b ≤ 1.001 + 2.532 * s := by
  obtain ⟨c253, ec253, l253, u253⟩ := round_253
  obtain ⟨c931, ec931, l931, u931⟩ := round_0931
  have hs0 : 0 ≤ s := by linarith
  have hp1 : c253 * s ≤ 81 / 32 * s := mul_le_mul_of_nonneg_right u253 hs0
  have hp1' : 5 / 2 * s ≤ c253 * s := mul_le_mul_of_nonneg_right l253 hs0
  obtain ⟨t1, et1, _, lt1, ut1, rt1, _⟩ := round_lit (c253 * s) (15 / 2) (2 ^ 34) 15 (-1) 1 34
    (by norm_num) (by norm_num) (by norm_num) (by norm_num) (by norm_num) (by norm_num)
    (by norm_num) (by norm_num) (by linarith) (by norm_num at hs32 ⊢; linarith)
  have rt1' := rt1 (by linarith)
  obtain ⟨b, eb, _, lb, ub, rb, _⟩ := round_lit (c931 + t1) 8 (2 ^ 35) 1 3 1 35
    (by norm_num) (by norm_num) (by norm_num) (by norm_num) (by norm_num) (by norm_num)
    (by norm_num) (by norm_num) (by linarith) (by norm_num at ut1 ⊢; linarith)
  have rb' := rb (by linarith)
  refine ⟨b, ?_, lb, ub, ?_⟩
  · rw [ec931, ec253]
    show F64.add (F64.fin c931) (F64.round (c253 * s)) = _
    rw [et1]
    exact eb
  · norm_num at rt1' rb' hp1 ⊢
    linarith

/-- The constant `a` of `poissonPtrs`, from `b`. -/
theorem ptrs_a (b : ℚ) (lb : 8 ≤ b) (ub : b ≤ 2 ^ 35) :
    ∃ a : ℚ,
      F64.add (F64.round (-0.059)) (F64.mul (F64.round 0.02483) (F64.fin b)) = F64.fin a ∧
      0 ≤ a ∧ a ≤ 0.0254 * b := by
  obtain ⟨c02483, ec02483, l02483, u02483⟩ := round_002483
  obtain ⟨c059, ec059, l059, u059⟩ := round_neg0059
  have hp2 : c02483 * b ≤ 13 / 512 * b := mul_le_mul_of_nonneg_right u02483 (by linarith)
  have hp2' : 1 / 64 * b ≤ c02483 * b := mul_le_mul_of_nonneg_right l02483 (by linarith)
  obtain ⟨t2, et2, ht2, lt2, ut2, rt2, _⟩ := round_lit (c02483 * b) (1 / 8) (2 ^ 30) 1 (-3) 1 30
    (by norm_num) (by norm_num) (by norm_num) (by norm_num) (by norm_num) (by norm_num)
    (by norm_num) (by norm_num) (by linarith) (by norm_num at ub ⊢; linarith)
  have rt2' := rt2 (by linarith)
  obtain ⟨ea, la, ua⟩ := F64.round_of_bounds (c059 + t2) (1 / 16) (2 ^ 30)
    (by linarith) (by linarith)
    (by have := F64.round_dyadic 1 (-4) (by norm_num) (by norm_num) (by norm_num)
        norm_num at this ⊢; exact this)
    (F64.round_pow2 30 (by norm_num))
  have hat : rnd (c059 + t2) ≤ t2 := by
    have := rnd_mono (show c059 + t2 ≤ t2 by linarith)
    rwa [ht2] at this
  refine ⟨rnd (c059 + t2), ?_, by linarith, ?_⟩
  · rw [ec059, ec02483]
    show F64.add (F64.fin c059) (F64.round (c02483 * b)) = _
    rw [et2]
    exact ea
  · norm_num at rt2' hp2 ⊢
    linarith

/-- For `10 ≤ lam` the constant `b` stays below `lam / 0.7487`. -/
theorem ptrs_key (lam s b : ℚ) (hs3 : 3 ≤ s) (hs1 : s ^ 2 ≤ lam * (1 + 1 / 2 ^ 50))
    (hbs : b ≤ 1.001 + 2.532 * s) : 0.7487 * b ≤ lam := by
  have h1 : (0.7495 + 1.8958 * s) * (1 + 1 / 2 ^ 50) ≤ s ^ 2 := by
    norm_num
    nlinarith
  have h2 : 0.7487 * b ≤ 0.7495 + 1.8958 * s := by
    norm_num at hbs ⊢
    linarith
  have h3 : (0.7495 + 1.8958 * s) * (1 + 1 / 2 ^ 50) ≤ lam * (1 + 1 / 2 ^ 50) := h1.trans hs1
  have h4 := le_of_mul_le_mul_right h3 (by norm_num)
  linarith



theorem Source.after_succ_eq (R : Source F64 σ) (r : σ) (n : Nat) :
    R.after (R.float64 r).2 n = R.after r (n + 1) := by
  induction n with
  | zero => rfl
  | succ n ih =>
    show (R.float64 (R.after (R.float64 r).2 n)).2 = (R.float64 (R.after r (n + 1))).2
    rw [ih]

theorem UnitDraws.next {R : Source F64 σ} {r : σ} (h : UnitDraws R r) :
    UnitDraws R (R.float64 r).2 := by
  intro n
  have := h (n + 1)
  unfold Source.draw at this ⊢
  rw [Source.after_succ_eq]
  exact this

theorem UnitDraws.head {R : Source F64 σ} {r : σ} (h : UnitDraws R r) :
    ∃ u : ℚ, (R.float64 r).1 = F64.fin u ∧ F64.round u = F64.fin u ∧ 0 ≤ u ∧ u < 1 := h 0

theorem round_half' : F64.round 0.5 = F64.fin (1 / 2) := by
  have := F64.round_dyadic 1 (-1) (by norm_num) (by norm_num) (by norm_num)
  norm_num at this ⊢; exact this

theorem round_007 : ∃ c : ℚ, F64.round 0.07 = F64.fin c ∧ 71 / 1024 ≤ c ∧ c ≤ 1 / 8 := by
  obtain ⟨c, e, _, l, u, _, _⟩ := round_lit 0.07 (71 / 1024) (1 / 8) 71 (-10) 1 (-3)
    (by norm_num) (by norm_num) (by norm_num) (by norm_num) (by norm_num) (by norm_num)
    (by norm_num) (by norm_num) (by norm_num) (by norm_num)
  exact ⟨c, e, l, u⟩

/-- The centred draw `U` and the distance `us` of one iteration of `poissonPtrs`,
for a draw in `[0,1)`. -/
theorem ptrs_draw (M : LibM) (u : ℚ) (hu0 : 0 ≤ u) (hu1 : u < 1) :
    ∃ U us : ℚ,
      (binary64 M).sub (F64.fin u) ((binary64 M).lit 0.5) = F64.fin U ∧
      (binary64 M).sub ((binary64 M).lit 0.5) ((binary64 M).abs (F64.fin U)) = F64.fin us ∧
      (71 / 1024 ≤ us → |U| ≤ 221 / 512) := by
  have hhalf := F64.round_dyadic 1 (-1) (by norm_num) (by norm_num) (by norm_num)
  have hhalf' : F64.round (1 / 2) = F64.fin (1 / 2) := by norm_num at hhalf ⊢; exact hhalf
  have hnhalf : F64.round (-(1 / 2)) = F64.fin (-(1 / 2)) := F64.round_neg hhalf'
  obtain ⟨eU, lU, uU⟩ := F64.round_of_bounds (u + -(1 / 2)) (-(1 / 2)) (1 / 2)
    (by linarith) (by linarith) hnhalf hhalf'
  have habs : |rnd (u + -(1 / 2))| ≤ 1 / 2 := abs_le.mpr ⟨lU, uU⟩
  obtain ⟨eus, lus, uus⟩ := F64.round_of_bounds (1 / 2 + -|rnd (u + -(1 / 2))|) 0 (1 / 2)
    (by linarith) (by linarith [abs_nonneg (rnd (u + -(1 / 2)))]) F64.round_zero hhalf'
  refine ⟨rnd (u + -(1 / 2)), rnd (1 / 2 + -|rnd (u + -(1 / 2))|), ?_, ?_, ?_⟩
  · simp only [binary64, round_half', F64.sub, F64.neg, F64.add]
    exact eU
  · simp only [binary64, round_half', F64.sub, F64.neg, F64.add, F64.abs]
    exact eus
  · intro h
    by_contra hc
    have hc' : 221 / 512 < |rnd (u + -(1 / 2))| := not_le.mp hc
    have h70 : F64.round (35 / 512) = F64.fin (35 / 512) := by
      have := F64.round_dyadic 35 (-9) (by norm_num) (by norm_num) (by norm_num)
      norm_num at this ⊢; exact this
    have := rnd_mono (show 1 / 2 + -|rnd (u + -(1 / 2))| ≤ 35 / 512 by linarith)
    rw [(F64.rnd_of_round_eq h70).1] at this
    linarith

/-- Every result of the loop of `poissonPtrs` is non-negative when `b ≥ 8`,
`0 ≤ a ≤ 0.0254 * b` and `0.7487 * b ≤ lam ≤ 2^62`. -/
theorem poissonPtrsLoop_nonneg (M : LibM) (R : Source F64 σ) (lam a b : ℚ)
    (loglam invalpha vr : F64)
    (hb8 : 8 ≤ b) (hb35 : b ≤ 2 ^ 35) (ha0 : 0 ≤ a) (hab : a ≤ 0.0254 * b)
    (hkey : 0.7487 * b ≤ lam) (hlam : lam ≤ 2 ^ 62) :
    ∀ (fuel : Nat) (r : σ), UnitDraws R r → ∀ (k : Int) (r' : σ),
      poissonPtrsLoop (binary64 M) R (F64.fin lam) loglam (F64.fin a) (F64.fin b) invalpha vr
        fuel r = some (k, r') → 0 ≤ k := by
  intro fuel
  induction fuel with
  | zero => intro r _ k r' h; simp [poissonPtrsLoop] at h
  | succ fuel ih =>
    intro r hd k r' h
    obtain ⟨u, hu, _, hu0, hu1⟩ := hd.head
    obtain ⟨U, us, hU, hus, hUb⟩ := ptrs_draw M u hu0 hu1
    obtain ⟨c007, e007, l007, _⟩ := round_007
    have hd2 : UnitDraws R (R.float64 (R.float64 r).2).2 := hd.next.next
    simp only [poissonPtrsLoop, hu, hU, hus] at h
    split_ifs at h with h1 h2 h3
    · -- the squeeze return
      simp only [Option.some.injEq, Prod.mk.injEq] at h
      rw [← h.1]
      have h1' := (Bool.and_eq_true _ _).mp h1
      have hle : c007 ≤ us := by
        have := h1'.1
        simp only [binary64, e007, F64.le, decide_eq_true_eq] at this
        exact this
      exact ptrsCandidate_nonneg M lam a b us U hb8 hb35 ha0 hab (le_trans l007 hle)
        (hUb (le_trans l007 hle)) hkey hlam
    · exact ih _ hd2 k r' h
    · -- the exact-test return
      simp only [Option.some.injEq, Prod.mk.injEq] at h
      rw [← h.1]
      simp only [Bool.or_eq_true, decide_eq_true_eq, not_or, not_lt] at h2
      exact h2.1
    · exact ih _ hd2 k r' h

/-- Under the contract of the source and with a normal threshold, every result
of the loop of `poissonMult` is non-negative: the count never wraps. -/
theorem poissonMultLoop_nonneg (M : LibM) (R : Source F64 σ) (r : σ) (hd : UnitDraws R r)
    (e : ℚ) (he : 2 ^ (-1022 : Int) ≤ e) :
    ∀ (fuel j : Nat),
      (∀ i, i < j → F64.lt (F64.fin e) (runningProd (binary64 M) R r (i + 1)) = true) →
      ∀ (k : Int) (r' : σ),
        poissonMultLoop (binary64 M) R (F64.fin e) fuel (runningProd (binary64 M) R r j) j
          (R.after r j) = some (k, r') → 0 ≤ k := by
  intro fuel
  induction fuel with
  | zero => intro j _ k r' h; simp [poissonMultLoop] at h
  | succ fuel ih =>
    intro j hgt k r' h
    simp only [poissonMultLoop] at h
    split_ifs at h with h1
    · have hgt' : ∀ i, i < j + 1 →
          F64.lt (F64.fin e) (runningProd (binary64 M) R r (i + 1)) = true := by
        intro i hi
        rcases Nat.lt_succ_iff_lt_or_eq.mp hi with h2 | h2
        · exact hgt i h2
        · rw [h2]; exact h1
      have hc := runningProd_count_lt M R r hd e he (j + 1) hgt'
      have hw : wrapInt64 ((j : Int) + 1) = ((j + 1 : Nat) : Int) := by
        rw [wrapInt64_of_range (by omega) (by omega)]; push_cast; rfl
      rw [hw] at h
      exact ih (j + 1) hgt' k r' h
    · simp only [Option.some.injEq, Prod.mk.injEq] at h
      rw [← h.1]
      exact Int.natCast_nonneg j

/-- C1 as amended: for every `float64` value `lam` with `0 ≤ lam ≤ 2^62` and
every source whose draws are `float64` values in `[0,1)`, whenever
`PoissonInt64(lam)` returns, the returned integer is non-negative: on the
`lam == 0` branch, on the multiplicative branch (`math.Exp` being a normal
number on `(-10, 0)`), and at both return points of `poissonPtrs`. -/
theorem PoissonInt64_nonneg (M : LibM) (R : Source F64 σ) (r : σ) (lam : ℚ)
    (hlam0 : 0 ≤ lam) (hlam62 : lam ≤ 2 ^ 62)
    (hexp : ∀ x : ℚ, -10 < x → x < 0 →
      ∃ e : ℚ, M.exp (F64.fin x) = F64.fin e ∧ 2 ^ (-1022 : Int) ≤ e)
    (hd : UnitDraws R r) (fuel : Nat) (k : Int) (r' : σ)
    (h : PoissonInt64 (binary64 M) R fuel (F64.fin lam) r = some (k, r')) : 0 ≤ k := by
  rcases le_or_lt 10 lam with h10 | h10
  · rw [PoissonInt64_eq_ptrs M R fuel r lam h10] at h
    obtain ⟨s, hs, hs3, hs32, hs1⟩ := ptrs_slam lam h10 (by norm_num at hlam62 ⊢; linarith)
    obtain ⟨b, eb, lb, ub, hbs⟩ := ptrs_b s hs3 hs32
    obtain ⟨a, ea, la, ua⟩ := ptrs_a b lb ub
    have hkey := ptrs_key lam s b hs3 hs1 hbs
    have eb' : (binary64 M).add ((binary64 M).lit 0.931)
        ((binary64 M).mul ((binary64 M).lit 2.53) ((binary64 M).sqrt (F64.fin lam)))
        = F64.fin b := by
      show F64.add (F64.round 0.931) (F64.mul (F64.round 2.53) (F64.sqrt (F64.fin lam))) = _
      rw [hs]; exact eb
    have ea' : (binary64 M).add ((binary64 M).lit (-0.059))
        ((binary64 M).mul ((binary64 M).lit 0.02483) (F64.fin b)) = F64.fin a := ea
    simp only [poissonPtrs, eb', ea'] at h
    exact poissonPtrsLoop_nonneg M R lam a b _ _ _ lb ub la ua hkey hlam62 fuel r hd k r' h
  · rcases hlam0.eq_or_lt with h0 | h0
    · rw [← h0, PoissonInt64_at_zero] at h
      simp only [Option.some.injEq, Prod.mk.injEq] at h
      rw [← h.1]
    · rw [PoissonInt64_eq_mult M R fuel r lam h0 h10] at h
      obtain ⟨e, hee, he⟩ := hexp (-lam) (by linarith) (by linarith)
      have hen : (binary64 M).exp ((binary64 M).neg (F64.fin lam)) = F64.fin e := hee
      have h1 : (binary64 M).lit 1 = runningProd (binary64 M) R r 0 := rfl
      unfold poissonMult at h
      rw [hen, h1] at h
      exact poissonMultLoop_nonneg M R r hd e he fuel 0 (fun i hi => absurd hi (Nat.not_lt_zero i))
        k r' h



/-- The constant `vr` of `poissonPtrs` is a finite non-negative number for
`b ≥ 8`. -/
theorem ptrs_vr (b : ℚ) (lb : 8 ≤ b) (ub : b ≤ 2 ^ 35) :
    ∃ v : ℚ, F64.sub (F64.round 0.9277)
        (F64.div (F64.round 3.6224) (F64.sub (F64.fin b) (F64.round 2))) = F64.fin v ∧
      0 ≤ v := by
  obtain ⟨c1, e1, _, l1, u1, _, _⟩ := round_lit 0.9277 (7 / 8) 1 7 (-3) 1 0
    (by norm_num) (by norm_num) (by norm_num) (by norm_num) (by norm_num) (by norm_num)
    (by norm_num) (by norm_num) (by norm_num) (by norm_num)
  obtain ⟨c2, e2, _, l2, u2, _, _⟩ := round_lit 3.6224 3 4 3 0 4 0
    (by norm_num) (by norm_num) (by norm_num) (by norm_num) (by norm_num) (by norm_num)
    (by norm_num) (by norm_num) (by norm_num) (by norm_num)
  obtain ⟨x, ex, _, lx, ux, _, _⟩ := round_lit (b + -2) 6 (2 ^ 35) 6 0 1 35
    (by norm_num) (by norm_num) (by norm_num) (by norm_num) (by norm_num) (by norm_num)
    (by norm_num) (by norm_num) (by linarith) (by linarith)
  have hx0 : 0 < x := by linarith
  obtain ⟨y, ey, _, ly, uy, _, _⟩ := round_lit (c2 / x) 0 (3 / 4) 0 0 3 (-2)
    (by norm_num) (by norm_num) (by norm_num) (by norm_num) (by norm_num) (by norm_num)
    (by norm_num) (by norm_num) (div_nonneg (by linarith) hx0.le)
    (by rw [div_le_iff₀ hx0]; linarith)
  obtain ⟨v, ev, _, lv, _, _, _⟩ := round_lit (c1 + -y) (1 / 8) 1 1 (-3) 1 0
    (by norm_num) (by norm_num) (by norm_num) (by norm_num) (by norm_num) (by norm_num)
    (by norm_num) (by norm_num) (by linarith) (by linarith)
  refine ⟨v, ?_, by linarith⟩
  rw [e1, e2, F64.round_two]
  show F64.sub (F64.fin c1) (F64.div (F64.fin c2) (F64.round (b + -2))) = _
  rw [ex]
  simp only [F64.div, if_neg hx0.ne', ey]
  exact ev

theorem rnd_two_pow_63_add {c : ℚ} (h0 : 0 ≤ c) (h1 : c ≤ 1) :
    rnd (2 ^ 63 + c) = 2 ^ 63 := by
  have e63 : rnd ((2 : ℚ) ^ 63) = 2 ^ 63 := by
    have := rnd_dyadic 1 63 (by norm_num) (by norm_num)
    norm_num at this ⊢; exact this
  have hb : binade ((2 : ℚ) ^ 63 + 1) = 63 := by
    apply binade_eq_of_bounds (by norm_num)
    · rw [abs_of_pos (by norm_num)]; norm_num
    · rw [abs_of_pos (by norm_num)]; norm_num
  have e64 : rnd ((2 : ℚ) ^ 63 + 1) = 2 ^ 63 := by
    rw [rnd_eq_of_binade hb]
    have : roundHalfEven (((2 : ℚ) ^ 63 + 1) / 2 ^ ((63 : Int) - 52)) = 2 ^ 52 := by
      apply roundHalfEven_eq_of_lt <;> norm_num
    rw [this]
    norm_num
  apply le_antisymm
  · have := rnd_mono (show (2 : ℚ) ^ 63 + c ≤ 2 ^ 63 + 1 by linarith)
    rwa [e64] at this
  · have := rnd_mono (show (2 : ℚ) ^ 63 ≤ 2 ^ 63 + c by linarith)
    rwa [e63] at this

theorem truncInt64_two_pow_63 : truncInt64 ((2 : ℚ) ^ 63) = -2 ^ 63 := by
  unfold truncInt64
  have : ⌊(2 : ℚ) ^ 63⌋ = 2 ^ 63 := by
    have : ((2 : ℚ) ^ 63) = ((2 ^ 63 : Int) : ℚ) := by norm_num
    rw [this, Int.floor_intCast]
  simp only [if_pos (show (0 : ℚ) ≤ 2 ^ 63 by norm_num), this]
  norm_num

/-- At `lam = 2^63`, with the draws `1/2` and `0`, the first iteration of
`poissonPtrs` takes the squeeze return with a candidate whose value `2^63` is
outside the range of `int64`. -/
theorem PoissonInt64_two_pow_63 (M : LibM) :
    PoissonInt64 (binary64 M) (replay (F64.fin 0)) 1 (F64.fin (2 ^ 63))
      [F64.fin (1 / 2), F64.fin 0] = some (-2 ^ 63, []) := by
  obtain ⟨s, hs, hs3, hs32, hs1⟩ := ptrs_slam (2 ^ 63) (by norm_num) (by norm_num)
  obtain ⟨b, eb, lb, ub, hbs⟩ := ptrs_b s hs3 hs32
  obtain ⟨a, ea, la, ua⟩ := ptrs_a b lb ub
  obtain ⟨v, ev, lv⟩ := ptrs_vr b lb ub
  obtain ⟨c007, e007, _, u007⟩ := round_007
  obtain ⟨c043, e043, l043, u043⟩ := round_043
  have eb' : (binary64 M).add ((binary64 M).lit 0.931)
      ((binary64 M).mul ((binary64 M).lit 2.53) ((binary64 M).sqrt (F64.fin (2 ^ 63))))
      = F64.fin b := by
    show F64.add (F64.round 0.931) (F64.mul (F64.round 2.53) (F64.sqrt (F64.fin (2 ^ 63)))) = _
    rw [hs]; exact eb
  have ea' : (binary64 M).add ((binary64 M).lit (-0.059))
      ((binary64 M).mul ((binary64 M).lit 0.02483) (F64.fin b)) = F64.fin a := ea
  have ev' : (binary64 M).sub ((binary64 M).lit 0.9277)
      ((binary64 M).div ((binary64 M).lit 3.6224)
        ((binary64 M).sub (F64.fin b) ((binary64 M).lit 2))) = F64.fin v := ev
  have eU : (binary64 M).sub (F64.fin (1 / 2)) ((binary64 M).lit 0.5) = F64.fin 0 := by
    simp only [binary64, round_half', F64.sub, F64.neg, F64.add]
    norm_num
  have eus : (binary64 M).sub ((binary64 M).lit 0.5) ((binary64 M).abs (F64.fin 0))
      = F64.fin (1 / 2) := by
    simp only [binary64, round_half', F64.sub, F64.neg, F64.add, F64.abs]
    norm_num
    exact round_half
  -- the candidate
  obtain ⟨e1, l1, u1⟩ := F64.round_of_bounds (2 * a) 0 (2 ^ 31)
    (by linarith) (by norm_num at ub ua ⊢; linarith) F64.round_zero (F64.round_pow2 31 (by norm_num))
  generalize rnd (2 * a) = v1 at e1 l1 u1
  obtain ⟨e2, l2, u2⟩ := F64.round_of_bounds (v1 / (1 / 2)) 0 (2 ^ 32)
    (by norm_num; linarith) (by norm_num at u1 ⊢; linarith) F64.round_zero
    (F64.round_pow2 32 (by norm_num))
  generalize rnd (v1 / (1 / 2)) = v2 at e2 l2 u2
  obtain ⟨e3, l3, u3⟩ := F64.round_of_bounds (v2 + b) 0 (2 ^ 36)
    (by linarith) (by norm_num at u2 ub ⊢; linarith) F64.round_zero
    (F64.round_pow2 36 (by norm_num))
  generalize rnd (v2 + b) = v3 at e3 l3 u3
  have e2' : F64.div (F64.fin v1) (F64.fin (1 / 2)) = F64.fin v2 := by
    simp only [F64.div, if_neg (show (1 / 2 : ℚ) ≠ 0 by norm_num)]; exact e2
  have e4 : F64.mul (F64.fin v3) (F64.fin 0) = F64.fin 0 := by
    simp only [F64.mul, mul_zero, F64.round_zero]
  have e63 : F64.round ((2 : ℚ) ^ 63) = F64.fin (2 ^ 63) := F64.round_pow2 63 (by norm_num)
  have e5 : F64.add (F64.fin 0) (F64.fin (2 ^ 63)) = F64.fin (2 ^ 63) := by
    simp only [F64.add, zero_add, e63]
  have e6 : F64.add (F64.fin (2 ^ 63)) (F64.fin c043) = F64.fin (2 ^ 63) := by
    have h := rnd_two_pow_63_add l043 u043
    simp only [F64.add]
    rw [F64.round_of_lt (by rw [h]; norm_num), h]
  have hk : ptrsCandidate (binary64 M) (F64.fin (2 ^ 63)) (F64.fin a) (F64.fin b)
      (F64.fin (1 / 2)) (F64.fin 0) = -2 ^ 63 := by
    simp only [ptrsCandidate, binary64, F64.round_two, e043]
    rw [show F64.mul (F64.fin 2) (F64.fin a) = F64.fin v1 from e1, e2',
      show F64.add (F64.fin v2) (F64.fin b) = F64.fin v3 from e3, e4, e5, e6]
    exact truncInt64_two_pow_63
  have hdisp : (binary64 M).le ((binary64 M).lit 10) (F64.fin (2 ^ 63)) = true := by
    simp only [binary64, F64.round_ten, F64.le]
    norm_num
  have hsq1 : (binary64 M).le ((binary64 M).lit 0.07) (F64.fin (1 / 2)) = true := by
    simp only [binary64, e007, F64.le, decide_eq_true_eq]
    linarith
  have hsq2 : (binary64 M).le (F64.fin 0) (F64.fin v) = true := by
    simp only [binary64, F64.le, decide_eq_true_eq]
    exact lv
  simp only [PoissonInt64, hdisp, if_true, poissonPtrs, eb', ea', ev', poissonPtrsLoop, replay,
    List.headD_cons, List.tail_cons, eU, eus, hk, hsq1, hsq2, Bool.and_self]

/-- C1, the claim fails for large `lam`: at `lam = 2^63`, with the draws
`U = 1/2` and `V = 0` (both in `[0,1)`), the first iteration has `us = 0.5` and
the candidate value `2^63 + 0.43`, which rounds to `2^63`, outside the range of
`int64`; the squeeze `us >= 0.07 && V <= vr` holds and `PoissonInt64` returns
the converted value `-2^63` without a test of its sign, for every `math`
library. -/
theorem PoissonInt64_negative :
    (0 : ℚ) ≤ 2 ^ 63 ∧ F64.round ((2 : ℚ) ^ 63) = F64.fin (2 ^ 63) ∧
    UnitDraws (replay (F64.fin 0)) [F64.fin (1 / 2), F64.fin 0] ∧
    ∀ M : LibM,
      PoissonInt64 (binary64 M) (replay (F64.fin 0)) 1 (F64.fin (2 ^ 63))
        [F64.fin (1 / 2), F64.fin 0] = some (-9223372036854775808, []) := by
  refine ⟨by norm_num, F64.round_pow2 63 (by norm_num), ?_, fun M => ?_⟩
  · apply unitDraws_replay
    intro x hx
    simp only [List.mem_cons, List.mem_singleton, List.not_mem_nil, or_false] at hx
    rcases hx with rfl | rfl
    · exact ⟨1 / 2, rfl, round_half, by norm_num, by norm_num⟩
    · exact ⟨0, rfl, F64.round_zero, by norm_num, by norm_num⟩
  · have := PoissonInt64_two_pow_63 M
    norm_num at this ⊢
    exact this

/-- Non-negativity at `lam = 1` with the coarse library and the draws
`3/4, 1/4`: `PoissonInt64` returns 1. -/
theorem PoissonInt64_nonneg_witness :
    PoissonInt64 (binary64 coarseLibM) (replay (F64.fin 0)) 2 (F64.fin 1)
      [F64.fin (3 / 4), F64.fin (1 / 4)] = some (1, []) ∧ (0 : Int) ≤ 1 :=
  ⟨PoissonInt64_example,
    PoissonInt64_nonneg coarseLibM (replay (F64.fin 0)) [F64.fin (3 / 4), F64.fin (1 / 4)] 1
      (by norm_num) (by norm_num) coarseLibM_exp_normal example_draws_unit 2 1 []
      PoissonInt64_example⟩

/-! ## The one-draw samplers -/

/-- C7: for every arithmetic, every `scale` and every state of the source,
`ExpFloat64(scale)` returns `scale * (-log(1 - U))` where `U` is the next draw,
and leaves the source advanced by that one draw. -/
theorem ExpFloat64_eq (A : Arith F) (R : Source F σ) (scale : F) (r : σ) :
    ExpFloat64 A R scale r
      = (A.mul scale (A.neg (A.log (A.sub (A.lit 1) (R.float64 r).1))), (R.float64 r).2) :=
  rfl

/-- C8: for every arithmetic, every `loc`, `scale` and every state of the
source, `UniformFloat64(loc, scale)` returns `loc + scale * U` where `U` is the
next draw, and leaves the source advanced by that one draw. -/
theorem UniformFloat64_eq (A : Arith F) (R : Source F σ) (loc scale : F) (r : σ) :
    UniformFloat64 A R loc scale r
      = (A.add loc (A.mul scale (R.float64 r).1), (R.float64 r).2) :=
  rfl

/-- C5, the claim fails: with `loc = 1`, `scale = 1` and the draw
`U = 1 - 2^-53`, the largest `float64` below 1, the product `scale * U` is `U`
and the sum `1 + U = 2 - 2^-53` lies midway between the neighbouring values
`2 - 2^-52` and `2`; it rounds to the even one, so `UniformFloat64(1, 1)`
returns `2 = loc + scale`, which is not strictly below `loc + scale`. -/
theorem UniformFloat64_reaches_upper :
    F64.round 1 = F64.fin 1 ∧
    F64.round (1 - 1 / 2 ^ 53) = F64.fin (1 - 1 / 2 ^ 53) ∧
    (0 : ℚ) ≤ 1 - 1 / 2 ^ 53 ∧ (1 - 1 / 2 ^ 53 : ℚ) < 1 ∧
    ∀ M : LibM,
      (UniformFloat64 (binary64 M) (replay (F64.fin 0)) (F64.fin 1) (F64.fin 1)
        [F64.fin (1 - 1 / 2 ^ 53)]).1 = F64.fin 2 ∧
      F64.add (F64.fin 1) (F64.fin 1) = F64.fin 2 ∧
      F64.lt (F64.fin 2) (F64.fin (1 + 1)) = false := by
  refine ⟨F64.round_one, F64.round_one_sub_ulp, by norm_num, by norm_num, fun M => ⟨?_, ?_, ?_⟩⟩
  · have e : (1 : ℚ) + (1 - 1 / 2 ^ 53) = 2 - 1 / 2 ^ 53 := by ring
    simp only [UniformFloat64, binary64, replay, List.headD_cons, F64.mul, F64.add, one_mul,
      F64.round_one_sub_ulp, e, F64.round_two_sub_half_ulp]
  · simp only [F64.add]
    norm_num
  · simp [F64.lt]
    norm_num

/-- C5 as amended: for every `float64` values `loc` and `scale > 0` and every
draw `U` in `[0,1)`, the value returned by `UniformFloat64(loc, scale)` lies in
the closed interval from `loc` to the `float64` sum `loc + scale`. -/
theorem UniformFloat64_bounds (M : LibM) (R : Source F64 σ) (r : σ) (loc scale u : ℚ)
    (hloc : F64.round loc = F64.fin loc) (hscale : F64.round scale = F64.fin scale)
    (hpos : 0 < scale) (hdraw : (R.float64 r).1 = F64.fin u) (hu0 : 0 ≤ u) (hu1 : u < 1) :
    F64.le (F64.fin loc)
      (UniformFloat64 (binary64 M) R (F64.fin loc) (F64.fin scale) r).1 = true ∧
    F64.le (UniformFloat64 (binary64 M) R (F64.fin loc) (F64.fin scale) r).1
      (F64.add (F64.fin loc) (F64.fin scale)) = true := by
  have h0 : (0 : ℚ) ≤ scale * u := mul_nonneg hpos.le hu0
  have h1 : scale * u ≤ scale := by nlinarith
  have hs := F64.rnd_of_round_eq hscale
  have hp0 : 0 ≤ rnd (scale * u) := rnd_nonneg h0
  have hp1 : rnd (scale * u) ≤ scale := by
    have := rnd_mono h1
    rwa [hs.1] at this
  have hp : F64.round (scale * u) = F64.fin (rnd (scale * u)) := by
    apply F64.round_of_lt
    rw [abs_of_nonneg hp0]
    have := hs.2
    rw [abs_of_pos hpos] at this
    linarith
  simp only [UniformFloat64, binary64, hdraw, F64.mul, hp, F64.add]
  constructor
  · rw [← hloc]
    exact F64.le_round_round (by linarith)
  · exact F64.le_round_round (by linarith)

/-- The bounds at `loc = 1`, `scale = 1`, `U = 1/2`. -/
theorem UniformFloat64_bounds_witness :
    F64.le (F64.fin 1)
      (UniformFloat64 (binary64 coarseLibM) (replay (F64.fin 0)) (F64.fin 1) (F64.fin 1)
        [F64.fin (1 / 2)]).1 = true ∧
    F64.le (UniformFloat64 (binary64 coarseLibM) (replay (F64.fin 0)) (F64.fin 1) (F64.fin 1)
        [F64.fin (1 / 2)]).1
      (F64.add (F64.fin 1) (F64.fin 1)) = true :=
  UniformFloat64_bounds coarseLibM (replay (F64.fin 0)) [F64.fin (1 / 2)] 1 1 (1 / 2)
    F64.round_one F64.round_one (by norm_num) rfl (by norm_num) (by norm_num)

/-- C6: for every `scale > 0` and every draw `U` in `[0,1)`, the value returned
by `ExpFloat64(scale)` is non-negative, for every `math` library whose `Log` is
`≤ 0` on `[0,1]`. -/
theorem ExpFloat64_nonneg (M : LibM) (R : Source F64 σ) (r : σ) (scale u : ℚ)
    (hlog : ∀ x : ℚ, 0 ≤ x → x ≤ 1 → F64.le (M.log (F64.fin x)) (F64.fin 0) = true)
    (hpos : 0 < scale) (hdraw : (R.float64 r).1 = F64.fin u) (hu0 : 0 ≤ u) (hu1 : u < 1) :
    F64.le (F64.fin 0) (ExpFloat64 (binary64 M) R (F64.fin scale) r).1 = true := by
  obtain ⟨hx, hx0, hx1⟩ := F64.round_of_bounds (1 + -u) 0 1 (by linarith) (by linarith)
    F64.round_zero F64.round_one
  have hl := hlog (rnd (1 + -u)) hx0 hx1
  simp only [ExpFloat64, standardExpFloat64, binary64, hdraw, F64.round_one, F64.sub, F64.neg,
    F64.add, hx]
  cases hL : M.log (F64.fin (rnd (1 + -u))) with
  | fin y =>
    rw [hL] at hl
    have hy : y ≤ 0 := by simpa [F64.le] using hl
    simp only [F64.neg, F64.mul]
    exact F64.zero_le_round (mul_nonneg hpos.le (by linarith))
  | pinf => rw [hL] at hl; simp [F64.le] at hl
  | ninf => simp [F64.neg, F64.mul, hpos.ne', hpos, F64.le]
  | nan => rw [hL] at hl; simp [F64.le] at hl

/-- The logarithm of the coarse library is `≤ 0` on `[0,1]`. -/
theorem coarseLibM_log_nonpos (x : ℚ) (h0 : 0 ≤ x) (h1 : x ≤ 1) :
    F64.le (coarseLibM.log (F64.fin x)) (F64.fin 0) = true := by
  simp only [coarseLibM]
  rw [if_neg (not_lt.mpr h0)]
  split_ifs
  · simp [F64.le]
  · have := F64.le_round_round (show x - 1 ≤ 0 by linarith)
    rwa [F64.round_zero] at this

/-- Non-negativity at `scale = 2`, `U = 1/2`, with the coarse library. -/
theorem ExpFloat64_nonneg_witness :
    F64.le (F64.fin 0)
      (ExpFloat64 (binary64 coarseLibM) (replay (F64.fin 0)) (F64.fin 2) [F64.fin (1 / 2)]).1
      = true :=
  ExpFloat64_nonneg coarseLibM (replay (F64.fin 0)) [F64.fin (1 / 2)] 2 (1 / 2)
    coarseLibM_log_nonpos (by norm_num) rfl (by norm_num) (by norm_num)

/-! ## `loggam` -/

/-- C9: `loggam(1)` and `loggam(2)` are exactly 0, for every `math` library:
the special case returns before the series and before any call of
`math.Log`. -/
theorem loggam_one_two (M : LibM) :
    loggam (binary64 M) (F64.fin 1) = F64.fin 0 ∧
    loggam (binary64 M) (F64.fin 2) = F64.fin 0 := by
  constructor <;> simp [loggam, binary64, F64.eq]

/-! ### The series of `loggam` over the reals -/

theorem loggam_eq (A : Arith F) (x : F) :
    loggam A x =
      if A.eq x (A.lit 1) || A.eq x (A.lit 2) then A.lit 0
      else if A.le x (A.lit 7) then
        loggamShift A (A.toInt64 (A.sub (A.lit 7) x)).toNat
          (loggamStirling A (A.add x (A.ofInt64 (A.toInt64 (A.sub (A.lit 7) x)))))
          (A.add x (A.ofInt64 (A.toInt64 (A.sub (A.lit 7) x))))
      else loggamStirling A x := by
  unfold loggam loggamStirling
  split_ifs <;> rfl

theorem loggamShift_real (n : ℕ) (gl x0 : ℝ) :
    loggamShift (exactArith Real.sqrt Real.log Real.exp) n gl x0
      = gl - ∑ i in Finset.range n, Real.log (x0 - (i + 1)) := by
  induction n generalizing gl x0 with
  | zero => simp [loggamShift]
  | succ n ih =>
    have step : loggamShift (exactArith Real.sqrt Real.log Real.exp) (n + 1) gl x0
        = loggamShift (exactArith Real.sqrt Real.log Real.exp) n (gl - Real.log (x0 - 1))
          (x0 - 1) := by
      simp [loggamShift, exactArith]
    have hsum : ∑ i in Finset.range n, Real.log (x0 - 1 - ((i : ℝ) + 1))
        = ∑ i in Finset.range n, Real.log (x0 - (((i + 1 : ℕ) : ℝ) + 1)) :=
      Finset.sum_congr rfl (fun i _ => by congr 1; push_cast; ring)
    rw [step, ih, Finset.sum_range_succ', hsum]
    simp only [Nat.cast_zero, zero_add]
    ring

theorem loggam_real_direct (x : ℝ) (h7 : 7 < x) :
    loggam (exactArith Real.sqrt Real.log Real.exp) x
      = loggamStirling (exactArith Real.sqrt Real.log Real.exp) x := by
  rw [loggam_eq]
  have h1 : x ≠ 1 := by linarith
  have h2 : x ≠ 2 := by linarith
  simp [exactArith, h1, h2, not_le.mpr h7]

theorem loggam_real_shift (x : ℝ) (n : ℕ) (h1 : x ≠ 1) (h2 : x ≠ 2) (h7 : x ≤ 7)
    (hn : truncInt64 (7 - x) = n) :
    loggam (exactArith Real.sqrt Real.log Real.exp) x
      = loggamStirling (exactArith Real.sqrt Real.log Real.exp) (x + n)
        - ∑ i in Finset.range n, Real.log (x + n - (i + 1)) := by
  rw [loggam_eq]
  have e1 : (exactArith Real.sqrt Real.log Real.exp).eq x
      ((exactArith Real.sqrt Real.log Real.exp).lit 1) = false := by simp [exactArith, h1]
  have e2 : (exactArith Real.sqrt Real.log Real.exp).eq x
      ((exactArith Real.sqrt Real.log Real.exp).lit 2) = false := by simp [exactArith, h2]
  have e3 : (exactArith Real.sqrt Real.log Real.exp).le x
      ((exactArith Real.sqrt Real.log Real.exp).lit 7) = true := by simp [exactArith, h7]
  have e4 : (exactArith Real.sqrt Real.log Real.exp).toInt64
      ((exactArith Real.sqrt Real.log Real.exp).sub
        ((exactArith Real.sqrt Real.log Real.exp).lit 7) x) = n := by
    simp only [exactArith]; push_cast; exact hn
  rw [e1, e2, e3, e4]
  simp only [Bool.or_self, Bool.false_eq_true, if_false, if_true, Int.toNat_ofNat]
  rw [loggamShift_real]
  simp [exactArith]


/-! ### Enclosures of logarithms -/

/-- Partial sums of the series of `log (1 + t) - log (1 - t)` bound it from below,
and from above once a geometric bound of the tail is added. -/
theorem log_series_bounds (t : ℝ) (h0 : 0 ≤ t) (h1 : t < 1) (n : ℕ) :
    (∑ k in Finset.range n, 2 * (1 / (2 * (k : ℝ) + 1)) * t ^ (2 * k + 1))
        ≤ Real.log (1 + t) - Real.log (1 - t) ∧
      Real.log (1 + t) - Real.log (1 - t)
        ≤ (∑ k in Finset.range n, 2 * (1 / (2 * (k : ℝ) + 1)) * t ^ (2 * k + 1))
          + 2 * (1 / (2 * (n : ℝ) + 1)) * t ^ (2 * n + 1) * (1 - t ^ 2)⁻¹ := by
  have hs := Real.hasSum_log_sub_log_of_abs_lt_one (show |t| < 1 by rw [abs_of_nonneg h0]; exact h1)
  have hnn : ∀ k : ℕ, 0 ≤ 2 * (1 / (2 * (k : ℝ) + 1)) * t ^ (2 * k + 1) := fun k => by positivity
  constructor
  · exact sum_le_hasSum _ (fun k _ => hnn k) hs
  · have hshift := (hasSum_nat_add_iff' n).mpr hs
    have ht2 : t ^ 2 < 1 := by nlinarith
    have hgeo := (hasSum_geometric_of_lt_one (sq_nonneg t) ht2).mul_left
      (2 * (1 / (2 * (n : ℝ) + 1)) * t ^ (2 * n + 1))
    have hle : ∀ k : ℕ, 2 * (1 / (2 * ((k + n : ℕ) : ℝ) + 1)) * t ^ (2 * (k + n) + 1)
        ≤ 2 * (1 / (2 * (n : ℝ) + 1)) * t ^ (2 * n + 1) * (t ^ 2) ^ k := by
      intro k
      have e : t ^ (2 * (k + n) + 1) = t ^ (2 * n + 1) * (t ^ 2) ^ k := by
        rw [← pow_mul, ← pow_add]; congr 1; ring
      rw [e]
      have h3 : (1 : ℝ) / (2 * ((k + n : ℕ) : ℝ) + 1) ≤ 1 / (2 * (n : ℝ) + 1) := by
        apply one_div_le_one_div_of_le (by positivity)
        push_cast
        have : (0 : ℝ) ≤ k := Nat.cast_nonneg k
        linarith
      have h4 : 0 ≤ t ^ (2 * n + 1) * (t ^ 2) ^ k := by positivity
      calc 2 * (1 / (2 * ((k + n : ℕ) : ℝ) + 1)) * (t ^ (2 * n + 1) * (t ^ 2) ^ k)
          ≤ 2 * (1 / (2 * (n : ℝ) + 1)) * (t ^ (2 * n + 1) * (t ^ 2) ^ k) := by
            apply mul_le_mul_of_nonneg_right _ h4
            linarith
        _ = 2 * (1 / (2 * (n : ℝ) + 1)) * t ^ (2 * n + 1) * (t ^ 2) ^ k := by ring
    have := hasSum_le hle hshift hgeo
    linarith

/-- An enclosure of `log 2`. -/
theorem log_2_bounds : (0.69314718055994530941 : ℝ) ≤ Real.log 2 ∧ Real.log 2 ≤ 0.69314718055994530942 := by
  have h := log_series_bounds (1 / 3) (by norm_num) (by norm_num) 23
  have e : Real.log (1 + 1 / 3) - Real.log (1 - 1 / 3) = Real.log 2 := by
    rw [← Real.log_div (by norm_num) (by norm_num)]
    norm_num
  rw [e] at h
  simp only [Finset.sum_range_succ, Finset.sum_range_zero] at h
  norm_num at h
  constructor <;> linarith [h.1, h.2]

/-- An enclosure of `log 3`. -/
theorem log_3_bounds : (1.09861228866810969138 : ℝ) ≤ Real.log 3 ∧ Real.log 3 ≤ 1.09861228866810969140 := by
  have h := log_series_bounds (1 / 5) (by norm_num) (by norm_num) 16
  have e : Real.log (1 + 1 / 5) - Real.log (1 - 1 / 5) = Real.log 3 - Real.log 2 := by
    rw [← Real.log_div (by norm_num) (by norm_num), ← Real.log_div (by norm_num) (by norm_num)]
    norm_num
  rw [e] at h
  simp only [Finset.sum_range_succ, Finset.sum_range_zero] at h
  norm_num at h
  have h2 := log_2_bounds
  constructor <;> linarith [h.1, h.2, h2.1, h2.2]

/-- An enclosure of `log 5`. -/
theorem log_5_bounds : (1.60943791243410037458 : ℝ) ≤ Real.log 5 ∧ Real.log 5 ≤ 1.60943791243410037461 := by
  have h := log_series_bounds (1 / 9) (by norm_num) (by norm_num) 11
  have e : Real.log (1 + 1 / 9) - Real.log (1 - 1 / 9) = Real.log 5 - Real.log 4 := by
    rw [← Real.log_div (by norm_num) (by norm_num), ← Real.log_div (by norm_num) (by norm_num)]
    norm_num
  have f : Real.log 4 = 2 * Real.log 2 := by
    rw [show (4 : ℝ) = 2 ^ 2 by norm_num]
    simp only [Real.log_mul, Real.log_pow, ne_eq, OfNat.ofNat_ne_zero, not_false_eq_true, pow_eq_zero_iff, mul_eq_zero, or_self, false_and]
    try push_cast
    try ring
  rw [e, f] at h
  simp only [Finset.sum_range_succ, Finset.sum_range_zero] at h
  norm_num at h
  have h2 := log_2_bounds
  constructor <;> linarith [h.1, h.2, h2.1, h2.2]

/-- An enclosure of `log 7`. -/
theorem log_7_bounds : (1.94591014905531330508 : ℝ) ≤ Real.log 7 ∧ Real.log 7 ≤ 1.94591014905531330512 := by
  have h := log_series_bounds (1 / 13) (by norm_num) (by norm_num) 10
  have e : Real.log (1 + 1 / 13) - Real.log (1 - 1 / 13) = Real.log 7 - Real.log 6 := by
    rw [← Real.log_div (by norm_num) (by norm_num), ← Real.log_div (by norm_num) (by norm_num)]
    norm_num
  have f : Real.log 6 = Real.log 2 + Real.log 3 := by
    rw [show (6 : ℝ) = 2 * 3 by norm_num]
    simp only [Real.log_mul, Real.log_pow, ne_eq, OfNat.ofNat_ne_zero, not_false_eq_true, pow_eq_zero_iff, mul_eq_zero, or_self, false_and]
    try push_cast
    try ring
  rw [e, f] at h
  simp only [Finset.sum_range_succ, Finset.sum_range_zero] at h
  norm_num at h
  have h2 := log_2_bounds
  have h3 := log_3_bounds
  constructor <;> linarith [h.1, h.2, h2.1, h2.2, h3.1, h3.2]

/-- An enclosure of `log 11`. -/
theorem log_11_bounds : (2.39789527279837054403 : ℝ) ≤ Real.log 11 ∧ Real.log 11 ≤ 2.39789527279837054408 := by
  have h := log_series_bounds (1 / 21) (by norm_num) (by norm_num) 8
  have e : Real.log (1 + 1 / 21) - Real.log (1 - 1 / 21) = Real.log 11 - Real.log 10 := by
    rw [← Real.log_div (by norm_num) (by norm_num), ← Real.log_div (by norm_num) (by norm_num)]
    norm_num
  have f : Real.log 10 = Real.log 2 + Real.log 5 := by
    rw [show (10 : ℝ) = 2 * 5 by norm_num]
    simp only [Real.log_mul, Real.log_pow, ne_eq, OfNat.ofNat_ne_zero, not_false_eq_true, pow_eq_zero_iff, mul_eq_zero, or_self, false_and]
    try push_cast
    try ring
  rw [e, f] at h
  simp only [Finset.sum_range_succ, Finset.sum_range_zero] at h
  norm_num at h
  have h2 := log_2_bounds
  have h5 := log_5_bounds
  constructor <;> linarith [h.1, h.2, h2.1, h2.2, h5.1, h5.2]

/-- An enclosure of `log 13`. -/
theorem log_13_bounds : (2.56494935746153673602 : ℝ) ≤ Real.log 13 ∧ Real.log 13 ≤ 2.56494935746153673607 := by
  have h := log_series_bounds (1 / 25) (by norm_num) (by norm_num) 8
  have e : Real.log (1 + 1 / 25) - Real.log (1 - 1 / 25) = Real.log 13 - Real.log 12 := by
    rw [← Real.log_div (by norm_num) (by norm_num), ← Real.log_div (by norm_num) (by norm_num)]
    norm_num
  have f : Real.log 12 = 2 * Real.log 2 + Real.log 3 := by
    rw [show (12 : ℝ) = 2 ^ 2 * 3 by norm_num]
    simp only [Real.log_mul, Real.log_pow, ne_eq, OfNat.ofNat_ne_zero, not_false_eq_true, pow_eq_zero_iff, mul_eq_zero, or_self, false_and]
    try push_cast
    try ring
  rw [e, f] at h
  simp only [Finset.sum_range_succ, Finset.sum_range_zero] at h
  norm_num at h
  have h2 := log_2_bounds
  have h3 := log_3_bounds
  constructor <;> linarith [h.1, h.2, h2.1, h2.2, h3.1, h3.2]

/-- An enclosure of `log 17`. -/
theorem log_17_bounds : (2.83321334405621608022 : ℝ) ≤ Real.log 17 ∧ Real.log 17 ≤ 2.83321334405621608027 := by
  have h := log_series_bounds (1 / 33) (by norm_num) (by norm_num) 7
  have e : Real.log (1 + 1 / 33) - Real.log (1 - 1 / 33) = Real.log 17 - Real.log 16 := by
    rw [← Real.log_div (by norm_num) (by norm_num), ← Real.log_div (by norm_num) (by norm_num)]
    norm_num
  have f : Real.log 16 = 4 * Real.log 2 := by
    rw [show (16 : ℝ) = 2 ^ 4 by norm_num]
    simp only [Real.log_mul, Real.log_pow, ne_eq, OfNat.ofNat_ne_zero, not_false_eq_true, pow_eq_zero_iff, mul_eq_zero, or_self, false_and]
    try push_cast
    try ring
  rw [e, f] at h
  simp only [Finset.sum_range_succ, Finset.sum_range_zero] at h
  norm_num at h
  have h2 := log_2_bounds
  constructor <;> linarith [h.1, h.2, h2.1, h2.2]

/-- An enclosure of `log 19`. -/
theorem log_19_bounds : (2.94443897916644045997 : ℝ) ≤ Real.log 19 ∧ Real.log 19 ≤ 2.94443897916644046003 := by
  have h := log_series_bounds (1 / 37) (by norm_num) (by norm_num) 7
  have e : Real.log (1 + 1 / 37) - Real.log (1 - 1 / 37) = Real.log 19 - Real.log 18 := by
    rw [← Real.log_div (by norm_num) (by norm_num), ← Real.log_div (by norm_num) (by norm_num)]
    norm_num
  have f : Real.log 18 = Real.log 2 + 2 * Real.log 3 := by
    rw [show (18 : ℝ) = 2 * 3 ^ 2 by norm_num]
    simp only [Real.log_mul, Real.log_pow, ne_eq, OfNat.ofNat_ne_zero, not_false_eq_true, pow_eq_zero_iff, mul_eq_zero, or_self, false_and]
    try push_cast
    try ring
  rw [e, f] at h
  simp only [Finset.sum_range_succ, Finset.sum_range_zero] at h
  norm_num at h
  have h2 := log_2_bounds
  have h3 := log_3_bounds
  constructor <;> linarith [h.1, h.2, h2.1, h2.2, h3.1, h3.2]

/-- An enclosure of `log 23`. -/
theorem log_23_bounds : (3.13549421592914969076 : ℝ) ≤ Real.log 23 ∧ Real.log 23 ≤ 3.13549421592914969083 := by
  have h := log_series_bounds (1 / 45) (by norm_num) (by norm_num) 7
  have e : Real.log (1 + 1 / 45) - Real.log (1 - 1 / 45) = Real.log 23 - Real.log 22 := by
    rw [← Real.log_div (by norm_num) (by norm_num), ← Real.log_div (by norm_num) (by norm_num)]
    norm_num
  have f : Real.log 22 = Real.log 2 + Real.log 11 := by
    rw [show (22 : ℝ) = 2 * 11 by norm_num]
    simp only [Real.log_mul, Real.log_pow, ne_eq, OfNat.ofNat_ne_zero, not_false_eq_true, pow_eq_zero_iff, mul_eq_zero, or_self, false_and]
    try push_cast
    try ring
  rw [e, f] at h
  simp only [Finset.sum_range_succ, Finset.sum_range_zero] at h
  norm_num at h
  have h2 := log_2_bounds
  have h11 := log_11_bounds
  constructor <;> linarith [h.1, h.2, h2.1, h2.2, h11.1, h11.2]

/-- An enclosure of `log 29`. -/
theorem log_29_bounds : (3.36729582998647402714 : ℝ) ≤ Real.log 29 ∧ Real.log 29 ≤ 3.36729582998647402721 := by
  have h := log_series_bounds (1 / 57) (by norm_num) (by norm_num) 6
  have e : Real.log (1 + 1 / 57) - Real.log (1 - 1 / 57) = Real.log 29 - Real.log 28 := by
    rw [← Real.log_div (by norm_num) (by norm_num), ← Real.log_div (by norm_num) (by norm_num)]
    norm_num
  have f : Real.log 28 = 2 * Real.log 2 + Real.log 7 := by
    rw [show (28 : ℝ) = 2 ^ 2 * 7 by norm_num]
    simp only [Real.log_mul, Real.log_pow, ne_eq, OfNat.ofNat_ne_zero, not_false_eq_true, pow_eq_zero_iff, mul_eq_zero, or_self, false_and]
    try push_cast
    try ring
  rw [e, f] at h
  simp only [Finset.sum_range_succ, Finset.sum_range_zero] at h
  norm_num at h
  have h2 := log_2_bounds
  have h7 := log_7_bounds
  constructor <;> linarith [h.1, h.2, h2.1, h2.2, h7.1, h7.2]

/-- An enclosure of `log 31`. -/
theorem log_31_bounds : (3.43398720448514624588 : ℝ) ≤ Real.log 31 ∧ Real.log 31 ≤ 3.43398720448514624595 := by
  have h := log_series_bounds (1 / 61) (by norm_num) (by norm_num) 6
  have e : Real.log (1 + 1 / 61) - Real.log (1 - 1 / 61) = Real.log 31 - Real.log 30 := by
    rw [← Real.log_div (by norm_num) (by norm_num), ← Real.log_div (by norm_num) (by norm_num)]
    norm_num
  have f : Real.log 30 = Real.log 2 + Real.log 3 + Real.log 5 := by
    rw [show (30 : ℝ) = 2 * 3 * 5 by norm_num]
    simp only [Real.log_mul, Real.log_pow, ne_eq, OfNat.ofNat_ne_zero, not_false_eq_true, pow_eq_zero_iff, mul_eq_zero, or_self, false_and]
    try push_cast
    try ring
  rw [e, f] at h
  simp only [Finset.sum_range_succ, Finset.sum_range_zero] at h
  norm_num at h
  have h2 := log_2_bounds
  have h3 := log_3_bounds
  have h5 := log_5_bounds
  constructor <;> linarith [h.1, h.2, h2.1, h2.2, h3.1, h3.2, h5.1, h5.2]

/-- An enclosure of `log 37`. -/
theorem log_37_bounds : (3.61091791264422444432 : ℝ) ≤ Real.log 37 ∧ Real.log 37 ≤ 3.61091791264422444439 := by
  have h := log_series_bounds (1 / 73) (by norm_num) (by norm_num) 6
  have e : Real.log (1 + 1 / 73) - Real.log (1 - 1 / 73) = Real.log 37 - Real.log 36 := by
    rw [← Real.log_div (by norm_num) (by norm_num), ← Real.log_div (by norm_num) (by norm_num)]
    norm_num
  have f : Real.log 36 = 2 * Real.log 2 + 2 * Real.log 3 := by
    rw [show (36 : ℝ) = 2 ^ 2 * 3 ^ 2 by norm_num]
    simp only [Real.log_mul, Real.log_pow, ne_eq, OfNat.ofNat_ne_zero, not_false_eq_true, pow_eq_zero_iff, mul_eq_zero, or_self, false_and]
    try push_cast
    try ring
  rw [e, f] at h
  simp only [Finset.sum_range_succ, Finset.sum_range_zero] at h
  norm_num at h
  have h2 := log_2_bounds
  have h3 := log_3_bounds
  constructor <;> linarith [h.1, h.2, h2.1, h2.2, h3.1, h3.2]

/-- An enclosure of `log 41`. -/
theorem log_41_bounds : (3.71357206670430780382 : ℝ) ≤ Real.log 41 ∧ Real.log 41 ≤ 3.71357206670430780389 := by
  have h := log_series_bounds (1 / 81) (by norm_num) (by norm_num) 6
  have e : Real.log (1 + 1 / 81) - Real.log (1 - 1 / 81) = Real.log 41 - Real.log 40 := by
    rw [← Real.log_div (by norm_num) (by norm_num), ← Real.log_div (by norm_num) (by norm_num)]
    norm_num
  have f : Real.log 40 = 3 * Real.log 2 + Real.log 5 := by
    rw [show (40 : ℝ) = 2 ^ 3 * 5 by norm_num]
    simp only [Real.log_mul, Real.log_pow, ne_eq, OfNat.ofNat_ne_zero, not_false_eq_true, pow_eq_zero_iff, mul_eq_zero, or_self, false_and]
    try push_cast
    try ring
  rw [e, f] at h
  simp only [Finset.sum_range_succ, Finset.sum_range_zero] at h
  norm_num at h
  have h2 := log_2_bounds
  have h5 := log_5_bounds
  constructor <;> linarith [h.1, h.2, h2.1, h2.2, h5.1, h5.2]

/-- An enclosure of `log 43`. -/
theorem log_43_bounds : (3.76120011569356242342 : ℝ) ≤ Real.log 43 ∧ Real.log 43 ≤ 3.76120011569356242350 := by
  have h := log_series_bounds (1 / 85) (by norm_num) (by norm_num) 6
  have e : Real.log (1 + 1 / 85) - Real.log (1 - 1 / 85) = Real.log 43 - Real.log 42 := by
    rw [← Real.log_div (by norm_num) (by norm_num), ← Real.log_div (by norm_num) (by norm_num)]
    norm_num
  have f : Real.log 42 = Real.log 2 + Real.log 3 + Real.log 7 := by
    rw [show (42 : ℝ) = 2 * 3 * 7 by norm_num]
    simp only [Real.log_mul, Real.log_pow, ne_eq, OfNat.ofNat_ne_zero, not_false_eq_true, pow_eq_zero_iff, mul_eq_zero, or_self, false_and]
    try push_cast
    try ring
  rw [e, f] at h
  simp only [Finset.sum_range_succ, Finset.sum_range_zero] at h
  norm_num at h
  have h2 := log_2_bounds
  have h3 := log_3_bounds
  have h7 := log_7_bounds
  constructor <;> linarith [h.1, h.2, h2.1, h2.2, h3.1, h3.2, h7.1, h7.2]

/-- An enclosure of `log 47`. -/
theorem log_47_bounds : (3.85014760171005858676 : ℝ) ≤ Real.log 47 ∧ Real.log 47 ≤ 3.85014760171005858685 := by
  have h := log_series_bounds (1 / 93) (by norm_num) (by norm_num) 6
  have e : Real.log (1 + 1 / 93) - Real.log (1 - 1 / 93) = Real.log 47 - Real.log 46 := by
    rw [← Real.log_div (by norm_num) (by norm_num), ← Real.log_div (by norm_num) (by norm_num)]
    norm_num
  have f : Real.log 46 = Real.log 2 + Real.log 23 := by
    rw [show (46 : ℝ) = 2 * 23 by norm_num]
    simp only [Real.log_mul, Real.log_pow, ne_eq, OfNat.ofNat_ne_zero, not_false_eq_true, pow_eq_zero_iff, mul_eq_zero, or_self, false_and]
    try push_cast
    try ring
  rw [e, f] at h
  simp only [Finset.sum_range_succ, Finset.sum_range_zero] at h
  norm_num at h
  have h2 := log_2_bounds
  have h23 := log_23_bounds
  constructor <;> linarith [h.1, h.2, h2.1, h2.2, h23.1, h23.2]

/-- An enclosure of `log 53`. -/
theorem log_53_bounds : (3.97029191355212183409 : ℝ) ≤ Real.log 53 ∧ Real.log 53 ≤ 3.97029191355212183417 := by
  have h := log_series_bounds (1 / 105) (by norm_num) (by norm_num) 6
  have e : Real.log (1 + 1 / 105) - Real.log (1 - 1 / 105) = Real.log 53 - Real.log 52 := by
    rw [← Real.log_div (by norm_num) (by norm_num), ← Real.log_div (by norm_num) (by norm_num)]
    norm_num
  have f : Real.log 52 = 2 * Real.log 2 + Real.log 13 := by
    rw [show (52 : ℝ) = 2 ^ 2 * 13 by norm_num]
    simp only [Real.log_mul, Real.log_pow, ne_eq, OfNat.ofNat_ne_zero, not_false_eq_true, pow_eq_zero_iff, mul_eq_zero, or_self, false_and]
    try push_cast
    try ring
  rw [e, f] at h
  simp only [Finset.sum_range_succ, Finset.sum_range_zero] at h
  norm_num at h
  have h2 := log_2_bounds
  have h13 := log_13_bounds
  constructor <;> linarith [h.1, h.2, h2.1, h2.2, h13.1, h13.2]

/-- An enclosure of `log 59`. -/
theorem log_59_bounds : (4.07753744390571945056 : ℝ) ≤ Real.log 59 ∧ Real.log 59 ≤ 4.07753744390571945065 := by
  have h := log_series_bounds (1 / 117) (by norm_num) (by norm_num) 5
  have e : Real.log (1 + 1 / 117) - Real.log (1 - 1 / 117) = Real.log 59 - Real.log 58 := by
    rw [← Real.log_div (by norm_num) (by norm_num), ← Real.log_div (by norm_num) (by norm_num)]
    norm_num
  have f : Real.log 58 = Real.log 2 + Real.log 29 := by
    rw [show (58 : ℝ) = 2 * 29 by norm_num]
    simp only [Real.log_mul, Real.log_pow, ne_eq, OfNat.ofNat_ne_zero, not_false_eq_true, pow_eq_zero_iff, mul_eq_zero, or_self, false_and]
    try push_cast
    try ring
  rw [e, f] at h
  simp only [Finset.sum_range_succ, Finset.sum_range_zero] at h
  norm_num at h
  have h2 := log_2_bounds
  have h29 := log_29_bounds
  constructor <;> linarith [h.1, h.2, h2.1, h2.2, h29.1, h29.2]

/-- An enclosure of `log 61`. -/
theorem log_61_bounds : (4.11087386417331124870 : ℝ) ≤ Real.log 61 ∧ Real.log 61 ≤ 4.11087386417331124878 := by
  have h := log_series_bounds (1 / 121) (by norm_num) (by norm_num) 5
  have e : Real.log (1 + 1 / 121) - Real.log (1 - 1 / 121) = Real.log 61 - Real.log 60 := by
    rw [← Real.log_div (by norm_num) (by norm_num), ← Real.log_div (by norm_num) (by norm_num)]
    norm_num
  have f : Real.log 60 = 2 * Real.log 2 + Real.log 3 + Real.log 5 := by
    rw [show (60 : ℝ) = 2 ^ 2 * 3 * 5 by norm_num]
    simp only [Real.log_mul, Real.log_pow, ne_eq, OfNat.ofNat_ne_zero, not_false_eq_true, pow_eq_zero_iff, mul_eq_zero, or_self, false_and]
    try push_cast
    try ring
  rw [e, f] at h
  simp only [Finset.sum_range_succ, Finset.sum_range_zero] at h
  norm_num at h
  have h2 := log_2_bounds
  have h3 := log_3_bounds
  have h5 := log_5_bounds
  constructor <;> linarith [h.1, h.2, h2.1, h2.2, h3.1, h3.2, h5.1, h5.2]

/-- An enclosure of `log 67`. -/
theorem log_67_bounds : (4.20469261939096605961 : ℝ) ≤ Real.log 67 ∧ Real.log 67 ≤ 4.20469261939096605970 := by
  have h := log_series_bounds (1 / 133) (by norm_num) (by norm_num) 5
  have e : Real.log (1 + 1 / 133) - Real.log (1 - 1 / 133) = Real.log 67 - Real.log 66 := by
    rw [← Real.log_div (by norm_num) (by norm_num), ← Real.log_div (by norm_num) (by norm_num)]
    norm_num
  have f : Real.log 66 = Real.log 2 + Real.log 3 + Real.log 11 := by
    rw [show (66 : ℝ) = 2 * 3 * 11 by norm_num]
    simp only [Real.log_mul, Real.log_pow, ne_eq, OfNat.ofNat_ne_zero, not_false_eq_true, pow_eq_zero_iff, mul_eq_zero, or_self, false_and]
    try push_cast
    try ring
  rw [e, f] at h
  simp only [Finset.sum_range_succ, Finset.sum_range_zero] at h
  norm_num at h
  have h2 := log_2_bounds
  have h3 := log_3_bounds
  have h11 := log_11_bounds
  constructor <;> linarith [h.1, h.2, h2.1, h2.2, h3.1, h3.2, h11.1, h11.2]

/-- An enclosure of `log 71`. -/
theorem log_71_bounds : (4.26267987704131542127 : ℝ) ≤ Real.log 71 ∧ Real.log 71 ≤ 4.26267987704131542136 := by
  have h := log_series_bounds (1 / 141) (by norm_num) (by norm_num) 5
  have e : Real.log (1 + 1 / 141) - Real.log (1 - 1 / 141) = Real.log 71 - Real.log 70 := by
    rw [← Real.log_div (by norm_num) (by norm_num), ← Real.log_div (by norm_num) (by norm_num)]
    norm_num
  have f : Real.log 70 = Real.log 2 + Real.log 5 + Real.log 7 := by
    rw [show (70 : ℝ) = 2 * 5 * 7 by norm_num]
    simp only [Real.log_mul, Real.log_pow, ne_eq, OfNat.ofNat_ne_zero, not_false_eq_true, pow_eq_zero_iff, mul_eq_zero, or_self, false_and]
    try push_cast
    try ring
  rw [e, f] at h
  simp only [Finset.sum_range_succ, Finset.sum_range_zero] at h
  norm_num at h
  have h2 := log_2_bounds
  have h5 := log_5_bounds
  have h7 := log_7_bounds
  constructor <;> linarith [h.1, h.2, h2.1, h2.2, h5.1, h5.2, h7.1, h7.2]

/-- An enclosure of `log 73`. -/
theorem log_73_bounds : (4.29045944114839112903 : ℝ) ≤ Real.log 73 ∧ Real.log 73 ≤ 4.29045944114839112911 := by
  have h := log_series_bounds (1 / 145) (by norm_num) (by norm_num) 5
  have e : Real.log (1 + 1 / 145) - Real.log (1 - 1 / 145) = Real.log 73 - Real.log 72 := by
    rw [← Real.log_div (by norm_num) (by norm_num), ← Real.log_div (by norm_num) (by norm_num)]
    norm_num
  have f : Real.log 72 = 3 * Real.log 2 + 2 * Real.log 3 := by
    rw [show (72 : ℝ) = 2 ^ 3 * 3 ^ 2 by norm_num]
    simp only [Real.log_mul, Real.log_pow, ne_eq, OfNat.ofNat_ne_zero, not_false_eq_true, pow_eq_zero_iff, mul_eq_zero, or_self, false_and]
    try push_cast
    try ring
  rw [e, f] at h
  simp only [Finset.sum_range_succ, Finset.sum_range_zero] at h
  norm_num at h
  have h2 := log_2_bounds
  have h3 := log_3_bounds
  constructor <;> linarith [h.1, h.2, h2.1, h2.2, h3.1, h3.2]

/-- An enclosure of `log 79`. -/
theorem log_79_bounds : (4.36944785246702149411 : ℝ) ≤ Real.log 79 ∧ Real.log 79 ≤ 4.36944785246702149420 := by
  have h := log_series_bounds (1 / 157) (by norm_num) (by norm_num) 5
  have e : Real.log (1 + 1 / 157) - Real.log (1 - 1 / 157) = Real.log 79 - Real.log 78 := by
    rw [← Real.log_div (by norm_num) (by norm_num), ← Real.log_div (by norm_num) (by norm_num)]
    norm_num
  have f : Real.log 78 = Real.log 2 + Real.log 3 + Real.log 13 := by
    rw [show (78 : ℝ) = 2 * 3 * 13 by norm_num]
    simp only [Real.log_mul, Real.log_pow, ne_eq, OfNat.ofNat_ne_zero, not_false_eq_true, pow_eq_zero_iff, mul_eq_zero, or_self, false_and]
    try push_cast
    try ring
  rw [e, f] at h
  simp only [Finset.sum_range_succ, Finset.sum_range_zero] at h
  norm_num at h
  have h2 := log_2_bounds
  have h3 := log_3_bounds
  have h13 := log_13_bounds
  constructor <;> linarith [h.1, h.2, h2.1, h2.2, h3.1, h3.2, h13.1, h13.2]

/-- An enclosure of `log 83`. -/
theorem log_83_bounds : (4.41884060779659792342 : ℝ) ≤ Real.log 83 ∧ Real.log 83 ≤ 4.41884060779659792351 := by
  have h := log_series_bounds (1 / 165) (by norm_num) (by norm_num) 5
  have e : Real.log (1 + 1 / 165) - Real.log (1 - 1 / 165) = Real.log 83 - Real.log 82 := by
    rw [← Real.log_div (by norm_num) (by norm_num), ← Real.log_div (by norm_num) (by norm_num)]
    norm_num
  have f : Real.log 82 = Real.log 2 + Real.log 41 := by
    rw [show (82 : ℝ) = 2 * 41 by norm_num]
    simp only [Real.log_mul, Real.log_pow, ne_eq, OfNat.ofNat_ne_zero, not_false_eq_true, pow_eq_zero_iff, mul_eq_zero, or_self, false_and]
    try push_cast
    try ring
  rw [e, f] at h
  simp only [Finset.sum_range_succ, Finset.sum_range_zero] at h
  norm_num at h
  have h2 := log_2_bounds
  have h41 := log_41_bounds
  constructor <;> linarith [h.1, h.2, h2.1, h2.2, h41.1, h41.2]

/-- An enclosure of `log 89`. -/
theorem log_89_bounds : (4.48863636973213983826 : ℝ) ≤ Real.log 89 ∧ Real.log 89 ≤ 4.48863636973213983835 := by
  have h := log_series_bounds (1 / 177) (by norm_num) (by norm_num) 5
  have e : Real.log (1 + 1 / 177) - Real.log (1 - 1 / 177) = Real.log 89 - Real.log 88 := by
    rw [← Real.log_div (by norm_num) (by norm_num), ← Real.log_div (by norm_num) (by norm_num)]
    norm_num
  have f : Real.log 88 = 3 * Real.log 2 + Real.log 11 := by
    rw [show (88 : ℝ) = 2 ^ 3 * 11 by norm_num]
    simp only [Real.log_mul, Real.log_pow, ne_eq, OfNat.ofNat_ne_zero, not_false_eq_true, pow_eq_zero_iff, mul_eq_zero, or_self, false_and]
    try push_cast
    try ring
  rw [e, f] at h
  simp only [Finset.sum_range_succ, Finset.sum_range_zero] at h
  norm_num at h
  have h2 := log_2_bounds
  have h11 := log_11_bounds
  constructor <;> linarith [h.1, h.2, h2.1, h2.2, h11.1, h11.2]

/-- An enclosure of `log 97`. -/
theorem log_97_bounds : (4.57471097850338282206 : ℝ) ≤ Real.log 97 ∧ Real.log 97 ≤ 4.57471097850338282214 := by
  have h := log_series_bounds (1 / 193) (by norm_num) (by norm_num) 5
  have e : Real.log (1 + 1 / 193) - Real.log (1 - 1 / 193) = Real.log 97 - Real.log 96 := by
    rw [← Real.log_div (by norm_num) (by norm_num), ← Real.log_div (by norm_num) (by norm_num)]
    norm_num
  have f : Real.log 96 = 5 * Real.log 2 + Real.log 3 := by
    rw [show (96 : ℝ) = 2 ^ 5 * 3 by norm_num]
    simp only [Real.log_mul, Real.log_pow, ne_eq, OfNat.ofNat_ne_zero, not_false_eq_true, pow_eq_zero_iff, mul_eq_zero, or_self, false_and]
    try push_cast
    try ring
  rw [e, f] at h
  simp only [Finset.sum_range_succ, Finset.sum_range_zero] at h
  norm_num at h
  have h2 := log_2_bounds
  have h3 := log_3_bounds
  constructor <;> linarith [h.1, h.2, h2.1, h2.2, h3.1, h3.2]

/-- An enclosure of `log (2 * math.Pi)`. -/
theorem log_two_goPi_bounds :
    (1.83787706640934543946 : ℝ) ≤ Real.log (2 * (goPi : ℝ)) ∧ Real.log (2 * (goPi : ℝ)) ≤ 1.83787706640934553499 := by
  have ha : (1.0471975511965977 : ℝ) ≤ 2 * (goPi : ℝ) / 6 := by norm_num [goPi]
  have hb : 2 * (goPi : ℝ) / 6 ≤ 1.0471975511965978 := by norm_num [goPi]
  have hpos : (0 : ℝ) < 2 * (goPi : ℝ) / 6 := lt_of_lt_of_le (by norm_num) ha
  have e : Real.log (2 * (goPi : ℝ)) = Real.log 2 + Real.log 3 + Real.log (2 * (goPi : ℝ) / 6) := by
    rw [← Real.log_mul (by norm_num) (by norm_num), ← Real.log_mul (by norm_num) hpos.ne']
    congr 1; ring
  have la := Real.log_le_log (by norm_num) ha
  have lb := Real.log_le_log hpos hb
  have sa := (log_series_bounds (471975511965977 / 20471975511965977) (by norm_num) (by norm_num) 7).1
  have sb := (log_series_bounds (235987755982989 / 10235987755982989) (by norm_num) (by norm_num) 7).2
  have ea : Real.log (1 + 471975511965977 / 20471975511965977) - Real.log (1 - 471975511965977 / 20471975511965977) = Real.log 1.0471975511965977 := by
    rw [← Real.log_div (by norm_num) (by norm_num)]
    norm_num
  have eb : Real.log (1 + 235987755982989 / 10235987755982989) - Real.log (1 - 235987755982989 / 10235987755982989) = Real.log 1.0471975511965978 := by
    rw [← Real.log_div (by norm_num) (by norm_num)]
    norm_num
  rw [ea] at sa
  rw [eb] at sb
  simp only [Finset.sum_range_succ, Finset.sum_range_zero] at sa sb
  norm_num at sa sb
  have h2 := log_2_bounds
  have h3 := log_3_bounds
  rw [e]
  constructor <;> linarith [h2.1, h2.2, h3.1, h3.2]


/-! ### The accuracy of `loggam` -/

/-- The value of `Gamma` at 7, in prime factors. -/
theorem Gamma_7 : Real.Gamma 7 = 2 ^ 4 * 3 ^ 2 * 5 := by
  have h := Real.Gamma_nat_eq_factorial 6
  norm_num [Nat.factorial] at h ⊢


/-- The series of `loggam` at 7 against `log (Gamma 7)`, over the reals. -/
theorem loggamStirling_7 :
    |loggamStirling (exactArith Real.sqrt Real.log Real.exp) 7 - Real.log (Real.Gamma 7)|
      ≤ 1 / 10 ^ 11 := by
  have hG : Real.log (Real.Gamma 7) = 4 * Real.log 2 + 2 * Real.log 3 + Real.log 5 := by
    rw [Gamma_7]
    simp only [Real.log_mul, Real.log_pow, ne_eq, OfNat.ofNat_ne_zero, not_false_eq_true, pow_eq_zero_iff, mul_eq_zero, or_self, false_and]
    try push_cast
    try ring
  simp only [loggamStirling, exactArith, loggamSeries, loggamCoeffs]
  rw [hG]
  norm_num
  have hp := log_two_goPi_bounds
  have h2 := log_2_bounds
  have h3 := log_3_bounds
  have h5 := log_5_bounds
  have h7 := log_7_bounds
  rw [abs_le]
  constructor <;> linarith [hp.1, hp.2, h2.1, h2.2, h3.1, h3.2, h5.1, h5.2, h7.1, h7.2]

/-- The value of `Gamma` at 10, in prime factors. -/
theorem Gamma_10 : Real.Gamma 10 = 2 ^ 7 * 3 ^ 4 * 5 * 7 := by
  have h := Real.Gamma_nat_eq_factorial 9
  norm_num [Nat.factorial] at h ⊢


/-- The series of `loggam` at 10 against `log (Gamma 10)`, over the reals. -/
theorem loggamStirling_10 :
    |loggamStirling (exactArith Real.sqrt Real.log Real.exp) 10 - Real.log (Real.Gamma 10)|
      ≤ 1 / 10 ^ 11 := by
  have hG : Real.log (Real.Gamma 10) = 7 * Real.log 2 + 4 * Real.log 3 + Real.log 5 + Real.log 7 := by
    rw [Gamma_10]
    simp only [Real.log_mul, Real.log_pow, ne_eq, OfNat.ofNat_ne_zero, not_false_eq_true, pow_eq_zero_iff, mul_eq_zero, or_self, false_and]
    try push_cast
    try ring
  have hY : Real.log 10 = Real.log 2 + Real.log 5 := by
    rw [show (10 : ℝ) = 2 * 5 by norm_num]
    simp only [Real.log_mul, Real.log_pow, ne_eq, OfNat.ofNat_ne_zero, not_false_eq_true, pow_eq_zero_iff, mul_eq_zero, or_self, false_and]
    try push_cast
    try ring
  simp only [loggamStirling, exactArith, loggamSeries, loggamCoeffs]
  rw [hG, hY]
  norm_num
  have hp := log_two_goPi_bounds
  have h2 := log_2_bounds
  have h3 := log_3_bounds
  have h5 := log_5_bounds
  have h7 := log_7_bounds
  rw [abs_le]
  constructor <;> linarith [hp.1, hp.2, h2.1, h2.2, h3.1, h3.2, h5.1, h5.2, h7.1, h7.2]

/-- The value of `Gamma` at 50, in prime factors. -/
theorem Gamma_50 : Real.Gamma 50 = 2 ^ 46 * 3 ^ 22 * 5 ^ 10 * 7 ^ 8 * 11 ^ 4 * 13 ^ 3 * 17 ^ 2 * 19 ^ 2 * 23 ^ 2 * 29 * 31 * 37 * 41 * 43 * 47 := by
  have h := Real.Gamma_nat_eq_factorial 49
  norm_num [Nat.factorial] at h ⊢


/-- The series of `loggam` at 50 against `log (Gamma 50)`, over the reals. -/
theorem loggamStirling_50 :
    |loggamStirling (exactArith Real.sqrt Real.log Real.exp) 50 - Real.log (Real.Gamma 50)|
      ≤ 1 / 10 ^ 11 := by
  have hG : Real.log (Real.Gamma 50) = 46 * Real.log 2 + 22 * Real.log 3 + 10 * Real.log 5 + 8 * Real.log 7 + 4 * Real.log 11 + 3 * Real.log 13 + 2 * Real.log 17 + 2 * Real.log 19 + 2 * Real.log 23 + Real.log 29 + Real.log 31 + Real.log 37 + Real.log 41 + Real.log 43 + Real.log 47 := by
    rw [Gamma_50]
    simp only [Real.log_mul, Real.log_pow, ne_eq, OfNat.ofNat_ne_zero, not_false_eq_true, pow_eq_zero_iff, mul_eq_zero, or_self, false_and]
    try push_cast
    try ring
  have hY : Real.log 50 = Real.log 2 + 2 * Real.log 5 := by
    rw [show (50 : ℝ) = 2 * 5 ^ 2 by norm_num]
    simp only [Real.log_mul, Real.log_pow, ne_eq, OfNat.ofNat_ne_zero, not_false_eq_true, pow_eq_zero_iff, mul_eq_zero, or_self, false_and]
    try push_cast
    try ring
  simp only [loggamStirling, exactArith, loggamSeries, loggamCoeffs]
  rw [hG, hY]
  norm_num
  have hp := log_two_goPi_bounds
  have h2 := log_2_bounds
  have h3 := log_3_bounds
  have h5 := log_5_bounds
  have h7 := log_7_bounds
  have h11 := log_11_bounds
  have h13 := log_13_bounds
  have h17 := log_17_bounds
  have h19 := log_19_bounds
  have h23 := log_23_bounds
  have h29 := log_29_bounds
  have h31 := log_31_bounds
  have h37 := log_37_bounds
  have h41 := log_41_bounds
  have h43 := log_43_bounds
  have h47 := log_47_bounds
  rw [abs_le]
  constructor <;> linarith [hp.1, hp.2, h2.1, h2.2, h3.1, h3.2, h5.1, h5.2, h7.1, h7.2, h11.1, h11.2, h13.1, h13.2, h17.1, h17.2, h19.1, h19.2, h23.1, h23.2, h29.1, h29.2, h31.1, h31.2, h37.1, h37.2, h41.1, h41.2, h43.1, h43.2, h47.1, h47.2]

/-- The value of `Gamma` at 100, in prime factors. -/
theorem Gamma_100 : Real.Gamma 100 = 2 ^ 95 * 3 ^ 48 * 5 ^ 22 * 7 ^ 16 * 11 ^ 9 * 13 ^ 7 * 17 ^ 5 * 19 ^ 5 * 23 ^ 4 * 29 ^ 3 * 31 ^ 3 * 37 ^ 2 * 41 ^ 2 * 43 ^ 2 * 47 ^ 2 * 53 * 59 * 61 * 67 * 71 * 73 * 79 * 83 * 89 * 97 := by
  have h := Real.Gamma_nat_eq_factorial 99
  norm_num [Nat.factorial] at h ⊢


/-- The series of `loggam` at 100 against `log (Gamma 100)`, over the reals. -/
theorem loggamStirling_100 :
    |loggamStirling (exactArith Real.sqrt Real.log Real.exp) 100 - Real.log (Real.Gamma 100)|
      ≤ 1 / 10 ^ 11 := by
  have hG : Real.log (Real.Gamma 100) = 95 * Real.log 2 + 48 * Real.log 3 + 22 * Real.log 5 + 16 * Real.log 7 + 9 * Real.log 11 + 7 * Real.log 13 + 5 * Real.log 17 + 5 * Real.log 19 + 4 * Real.log 23 + 3 * Real.log 29 + 3 * Real.log 31 + 2 * Real.log 37 + 2 * Real.log 41 + 2 * Real.log 43 + 2 * Real.log 47 + Real.log 53 + Real.log 59 + Real.log 61 + Real.log 67 + Real.log 71 + Real.log 73 + Real.log 79 + Real.log 83 + Real.log 89 + Real.log 97 := by
    rw [Gamma_100]
    simp only [Real.log_mul, Real.log_pow, ne_eq, OfNat.ofNat_ne_zero, not_false_eq_true, pow_eq_zero_iff, mul_eq_zero, or_self, false_and]
    try push_cast
    try ring
  have hY : Real.log 100 = 2 * Real.log 2 + 2 * Real.log 5 := by
    rw [show (100 : ℝ) = 2 ^ 2 * 5 ^ 2 by norm_num]
    simp only [Real.log_mul, Real.log_pow, ne_eq, OfNat.ofNat_ne_zero, not_false_eq_true, pow_eq_zero_iff, mul_eq_zero, or_self, false_and]
    try push_cast
    try ring
  simp only [loggamStirling, exactArith, loggamSeries, loggamCoeffs]
  rw [hG, hY]
  norm_num
  have hp := log_two_goPi_bounds
  have h2 := log_2_bounds
  have h3 := log_3_bounds
  have h5 := log_5_bounds
  have h7 := log_7_bounds
  have h11 := log_11_bounds
  have h13 := log_13_bounds
  have h17 := log_17_bounds
  have h19 := log_19_bounds
  have h23 := log_23_bounds
  have h29 := log_29_bounds
  have h31 := log_31_bounds
  have h37 := log_37_bounds
  have h41 := log_41_bounds
  have h43 := log_43_bounds
  have h47 := log_47_bounds
  have h53 := log_53_bounds
  have h59 := log_59_bounds
  have h61 := log_61_bounds
  have h67 := log_67_bounds
  have h71 := log_71_bounds
  have h73 := log_73_bounds
  have h79 := log_79_bounds
  have h83 := log_83_bounds
  have h89 := log_89_bounds
  have h97 := log_97_bounds
  rw [abs_le]
  constructor <;> linarith [hp.1, hp.2, h2.1, h2.2, h3.1, h3.2, h5.1, h5.2, h7.1, h7.2, h11.1, h11.2, h13.1, h13.2, h17.1, h17.2, h19.1, h19.2, h23.1, h23.2, h29.1, h29.2, h31.1, h31.2, h37.1, h37.2, h41.1, h41.2, h43.1, h43.2, h47.1, h47.2, h53.1, h53.2, h59.1, h59.2, h61.1, h61.2, h67.1, h67.2, h71.1, h71.2, h73.1, h73.2, h79.1, h79.2, h83.1, h83.2, h89.1, h89.2, h97.1, h97.2]

/-- The value of `Gamma` at 7.5. -/
theorem Gamma_7_5 : Real.Gamma 7.5 = 135135 / 128 * √Real.pi := by
  have h0 := Real.Gamma_one_half_eq
  have h1 : Real.Gamma (1 / 2 + 1) = 1 / 2 * Real.Gamma (1 / 2) := Real.Gamma_add_one (by norm_num)
  have h2 : Real.Gamma (3 / 2 + 1) = 3 / 2 * Real.Gamma (3 / 2) := Real.Gamma_add_one (by norm_num)
  have h3 : Real.Gamma (5 / 2 + 1) = 5 / 2 * Real.Gamma (5 / 2) := Real.Gamma_add_one (by norm_num)
  have h4 : Real.Gamma (7 / 2 + 1) = 7 / 2 * Real.Gamma (7 / 2) := Real.Gamma_add_one (by norm_num)
  have h5 : Real.Gamma (9 / 2 + 1) = 9 / 2 * Real.Gamma (9 / 2) := Real.Gamma_add_one (by norm_num)
  have h6 : Real.Gamma (11 / 2 + 1) = 11 / 2 * Real.Gamma (11 / 2) :=
    Real.Gamma_add_one (by norm_num)
  have h7 : Real.Gamma (13 / 2 + 1) = 13 / 2 * Real.Gamma (13 / 2) :=
    Real.Gamma_add_one (by norm_num)
  rw [show (1 / 2 + 1 : ℝ) = 3 / 2 by norm_num] at h1
  rw [show (3 / 2 + 1 : ℝ) = 5 / 2 by norm_num] at h2
  rw [show (5 / 2 + 1 : ℝ) = 7 / 2 by norm_num] at h3
  rw [show (7 / 2 + 1 : ℝ) = 9 / 2 by norm_num] at h4
  rw [show (9 / 2 + 1 : ℝ) = 11 / 2 by norm_num] at h5
  rw [show (11 / 2 + 1 : ℝ) = 13 / 2 by norm_num] at h6
  rw [show (13 / 2 + 1 : ℝ) = 7.5 by norm_num] at h7
  rw [h7, h6, h5, h4, h3, h2, h1, h0]
  ring

/-- The logarithms of `math.Pi` and of `π` differ by less than `10^-20`. -/
theorem log_goPi_near_pi : |Real.log Real.pi - Real.log (goPi : ℝ)| ≤ 1 / 10 ^ 20 := by
  have hπ1 := Real.pi_gt_d20
  have hπ2 := Real.pi_lt_d20
  have hg1 : (3.14159265358979323846 : ℝ) ≤ (goPi : ℝ) := by norm_num [goPi]
  have hg2 : (goPi : ℝ) ≤ 3.14159265358979323847 := by norm_num [goPi]
  have hg0 : (0 : ℝ) < (goPi : ℝ) := lt_of_lt_of_le (by norm_num) hg1
  have a1 := Real.log_le_log (by norm_num) hπ1.le
  have a2 := Real.log_le_log Real.pi_pos hπ2.le
  have b1 := Real.log_le_log (by norm_num) hg1
  have b2 := Real.log_le_log hg0 hg2
  have w : Real.log 3.14159265358979323847 - Real.log 3.14159265358979323846 ≤ 1 / 10 ^ 20 := by
    rw [← Real.log_div (by norm_num) (by norm_num)]
    refine (Real.log_le_sub_one_of_pos (by norm_num)).trans ?_
    norm_num
  rw [abs_le]
  constructor <;> linarith

/-- The series of `loggam` at 7.5 against `log (Gamma 7.5)`, over the reals. -/
theorem loggamStirling_7_5 :
    |loggamStirling (exactArith Real.sqrt Real.log Real.exp) 7.5 - Real.log (Real.Gamma 7.5)|
      ≤ 1 / 10 ^ 11 := by
  have hG : Real.log (Real.Gamma 7.5) = 3 * Real.log 3 + Real.log 5 + Real.log 7 + Real.log 11
      + Real.log 13 - 7 * Real.log 2 + Real.log Real.pi / 2 := by
    rw [Gamma_7_5, Real.log_mul (by norm_num) (Real.sqrt_ne_zero'.mpr Real.pi_pos),
      Real.log_sqrt Real.pi_pos.le, Real.log_div (by norm_num) (by norm_num),
      show (135135 : ℝ) = 3 ^ 3 * 5 * 7 * 11 * 13 by norm_num, show (128 : ℝ) = 2 ^ 7 by norm_num]
    simp only [Real.log_mul, Real.log_pow, ne_eq, OfNat.ofNat_ne_zero, not_false_eq_true,
      pow_eq_zero_iff, mul_eq_zero, or_self, false_and]
    push_cast
    ring
  have hY : Real.log 7.5 = Real.log 3 + Real.log 5 - Real.log 2 := by
    rw [show (7.5 : ℝ) = 3 * 5 / 2 by norm_num, Real.log_div (by norm_num) (by norm_num),
      Real.log_mul (by norm_num) (by norm_num)]
  have hg0 : (0 : ℝ) < (goPi : ℝ) := by norm_num [goPi]
  have hP : Real.log (2 * (goPi : ℝ)) = Real.log 2 + Real.log (goPi : ℝ) :=
    Real.log_mul (by norm_num) hg0.ne'
  have hn := abs_le.mp log_goPi_near_pi
  simp only [loggamStirling, exactArith, loggamSeries, loggamCoeffs]
  rw [hG, hY]
  norm_num
  rw [hP]
  have h2 := log_2_bounds
  have h3 := log_3_bounds
  have h5 := log_5_bounds
  have h7 := log_7_bounds
  have h11 := log_11_bounds
  have h13 := log_13_bounds
  rw [abs_le]
  constructor <;> linarith [hn.1, hn.2, h2.1, h2.2, h3.1, h3.2, h5.1, h5.2, h7.1, h7.2,
    h11.1, h11.2, h13.1, h13.2]



theorem truncInt64_real_natCast (n : ℕ) (h : (n : Int) < 2 ^ 63) :
    truncInt64 ((n : ℝ)) = n := by
  unfold truncInt64
  simp only [if_pos (Nat.cast_nonneg n : (0 : ℝ) ≤ n), Int.floor_natCast]
  rw [if_pos ⟨by omega, h⟩]

theorem log_Gamma_7 : Real.log (Real.Gamma 7) = 4 * Real.log 2 + 2 * Real.log 3 + Real.log 5 := by
  rw [Gamma_7]
  simp only [Real.log_mul, Real.log_pow, ne_eq, OfNat.ofNat_ne_zero, not_false_eq_true,
    pow_eq_zero_iff, mul_eq_zero, or_self, false_and]
  push_cast
  ring

theorem log_four : Real.log 4 = 2 * Real.log 2 := by
  rw [show (4 : ℝ) = 2 ^ 2 by norm_num, Real.log_pow]; norm_num

theorem log_six : Real.log 6 = Real.log 2 + Real.log 3 := by
  rw [show (6 : ℝ) = 2 * 3 by norm_num, Real.log_mul (by norm_num) (by norm_num)]

theorem log_24 : Real.log 24 = 3 * Real.log 2 + Real.log 3 := by
  rw [show (24 : ℝ) = 2 ^ 3 * 3 by norm_num, Real.log_mul (by norm_num) (by norm_num),
    Real.log_pow]
  norm_num

theorem Gamma_3 : Real.Gamma 3 = 2 := by
  have h := Real.Gamma_nat_eq_factorial 2
  norm_num [Nat.factorial] at h ⊢

theorem Gamma_5 : Real.Gamma 5 = 24 := by
  have h := Real.Gamma_nat_eq_factorial 4
  norm_num [Nat.factorial] at h ⊢

/-- C10: for every `x` in `{1, 2, 3, 5, 7, 7.5, 10, 50, 100}`, with the
arithmetic of `loggam` read over the reals, `|loggam(x) - ln(Gamma(x))| ≤ 1e-10`. -/
theorem loggam_accuracy :
    |loggam (exactArith Real.sqrt Real.log Real.exp) 1 - Real.log (Real.Gamma 1)| ≤ 1 / 10 ^ 10 ∧
    |loggam (exactArith Real.sqrt Real.log Real.exp) 2 - Real.log (Real.Gamma 2)| ≤ 1 / 10 ^ 10 ∧
    |loggam (exactArith Real.sqrt Real.log Real.exp) 3 - Real.log (Real.Gamma 3)| ≤ 1 / 10 ^ 10 ∧
    |loggam (exactArith Real.sqrt Real.log Real.exp) 5 - Real.log (Real.Gamma 5)| ≤ 1 / 10 ^ 10 ∧
    |loggam (exactArith Real.sqrt Real.log Real.exp) 7 - Real.log (Real.Gamma 7)| ≤ 1 / 10 ^ 10 ∧
    |loggam (exactArith Real.sqrt Real.log Real.exp) 7.5 - Real.log (Real.Gamma 7.5)|
      ≤ 1 / 10 ^ 10 ∧
    |loggam (exactArith Real.sqrt Real.log Real.exp) 10 - Real.log (Real.Gamma 10)|
      ≤ 1 / 10 ^ 10 ∧
    |loggam (exactArith Real.sqrt Real.log Real.exp) 50 - Real.log (Real.Gamma 50)|
      ≤ 1 / 10 ^ 10 ∧
    |loggam (exactArith Real.sqrt Real.log Real.exp) 100 - Real.log (Real.Gamma 100)|
      ≤ 1 / 10 ^ 10 := by
  have tol : (1 : ℝ) / 10 ^ 11 ≤ 1 / 10 ^ 10 := by norm_num
  have e7 := abs_le.mp loggamStirling_7
  refine ⟨?_, ?_, ?_, ?_, ?_, ?_, ?_, ?_, ?_⟩
  · simp [loggam, exactArith, Real.Gamma_one]
  · simp [loggam, exactArith, Real.Gamma_two]
  · have hn : truncInt64 ((7 : ℝ) - 3) = ((4 : ℕ) : Int) := by
      have := truncInt64_real_natCast 4 (by norm_num)
      norm_num at this ⊢
      exact this
    rw [loggam_real_shift 3 4 (by norm_num) (by norm_num) (by norm_num) hn, Gamma_3]
    simp only [Finset.sum_range_succ, Finset.sum_range_zero]
    norm_num
    rw [log_six, log_four]
    rw [log_Gamma_7] at e7
    rw [abs_le]
    constructor <;> linarith [e7.1, e7.2]
  · have hn : truncInt64 ((7 : ℝ) - 5) = ((2 : ℕ) : Int) := by
      have := truncInt64_real_natCast 2 (by norm_num)
      norm_num at this ⊢
      exact this
    rw [loggam_real_shift 5 2 (by norm_num) (by norm_num) (by norm_num) hn, Gamma_5]
    simp only [Finset.sum_range_succ, Finset.sum_range_zero]
    norm_num
    rw [log_six, log_24]
    rw [log_Gamma_7] at e7
    rw [abs_le]
    constructor <;> linarith [e7.1, e7.2]
  · have hn : truncInt64 ((7 : ℝ) - 7) = ((0 : ℕ) : Int) := by
      have := truncInt64_real_natCast 0 (by norm_num)
      norm_num at this ⊢
      exact this
    rw [loggam_real_shift 7 0 (by norm_num) (by norm_num) (by norm_num) hn]
    simp only [Finset.sum_range_zero, Nat.cast_zero, add_zero, sub_zero]
    exact loggamStirling_7.trans tol
  · rw [loggam_real_direct 7.5 (by norm_num)]
    exact loggamStirling_7_5.trans tol
  · rw [loggam_real_direct 10 (by norm_num)]
    exact loggamStirling_10.trans tol
  · rw [loggam_real_direct 50 (by norm_num)]
    exact loggamStirling_50.trans tol
  · rw [loggam_real_direct 100 (by norm_num)]
    exact loggamStirling_100.trans tol

/-! ## Determinism -/

section Determinism
variable {σ₁ σ₂ : Type}

theorem Source.draw_after (R : Source F σ) (r : σ) (n m : Nat) :
    R.draw (R.after r n) m = R.draw r (n + m) := by
  have h : ∀ m, R.after (R.after r n) m = R.after r (n + m) := by
    intro m
    induction m with
    | zero => rfl
    | succ m ih =>
      show (R.float64 (R.after (R.after r n) m)).2 = (R.float64 (R.after r (n + m))).2
      rw [ih]
  unfold Source.draw
  rw [h]

theorem SameDraws.after {R₁ : Source F σ₁} {r₁ : σ₁} {R₂ : Source F σ₂} {r₂ : σ₂}
    (h : SameDraws R₁ r₁ R₂ r₂) (n : Nat) :
    SameDraws R₁ (R₁.after r₁ n) R₂ (R₂.after r₂ n) := by
  intro m
  rw [Source.draw_after, Source.draw_after]
  exact h (n + m)

theorem SameDraws.fst {R₁ : Source F σ₁} {r₁ : σ₁} {R₂ : Source F σ₂} {r₂ : σ₂}
    (h : SameDraws R₁ r₁ R₂ r₂) (n : Nat) :
    (R₁.float64 (R₁.after r₁ n)).1 = (R₂.float64 (R₂.after r₂ n)).1 := h n

theorem poissonMultLoop_agree (A : Arith F) (R₁ : Source F σ₁) (R₂ : Source F σ₂)
    (r₁ : σ₁) (r₂ : σ₂) (h : SameDraws R₁ r₁ R₂ r₂) (enlam : F) :
    ∀ (fuel : Nat) (prod : F) (X : Int) (n : Nat),
      Agree R₁ r₁ R₂ r₂ (poissonMultLoop A R₁ enlam fuel prod X (R₁.after r₁ n))
        (poissonMultLoop A R₂ enlam fuel prod X (R₂.after r₂ n)) := by
  intro fuel
  induction fuel with
  | zero => intro prod X n; exact Or.inl ⟨rfl, rfl⟩
  | succ fuel ih =>
    intro prod X n
    simp only [poissonMultLoop, ← h.fst n]
    split_ifs with hc
    · exact ih _ _ (n + 1)
    · exact Or.inr ⟨X, n + 1, rfl, rfl, h.after (n + 1)⟩

theorem poissonPtrsLoop_agree (A : Arith F) (R₁ : Source F σ₁) (R₂ : Source F σ₂)
    (r₁ : σ₁) (r₂ : σ₂) (h : SameDraws R₁ r₁ R₂ r₂) (lam loglam a b invalpha vr : F) :
    ∀ (fuel : Nat) (n : Nat),
      Agree R₁ r₁ R₂ r₂
        (poissonPtrsLoop A R₁ lam loglam a b invalpha vr fuel (R₁.after r₁ n))
        (poissonPtrsLoop A R₂ lam loglam a b invalpha vr fuel (R₂.after r₂ n)) := by
  intro fuel
  induction fuel with
  | zero => intro n; exact Or.inl ⟨rfl, rfl⟩
  | succ fuel ih =>
    intro n
    have e1 := h.fst n
    have e2 := h.fst (n + 1)
    have s1 : (R₁.float64 (R₁.after r₁ n)).2 = R₁.after r₁ (n + 1) := rfl
    have s2 : (R₂.float64 (R₂.after r₂ n)).2 = R₂.after r₂ (n + 1) := rfl
    have t1 : (R₁.float64 (R₁.after r₁ (n + 1))).2 = R₁.after r₁ (n + 2) := rfl
    have t2 : (R₂.float64 (R₂.after r₂ (n + 1))).2 = R₂.after r₂ (n + 2) := rfl
    simp only [poissonPtrsLoop, s1, s2, t1, t2, ← e1, ← e2]
    split_ifs with hc1 hc2 hc3
    · exact Or.inr ⟨_, n + 2, rfl, rfl, h.after (n + 2)⟩
    · exact ih (n + 2)
    · exact Or.inr ⟨_, n + 2, rfl, rfl, h.after (n + 2)⟩
    · exact ih (n + 2)

theorem PoissonInt64_agree (A : Arith F) (R₁ : Source F σ₁) (R₂ : Source F σ₂)
    (r₁ : σ₁) (r₂ : σ₂) (h : SameDraws R₁ r₁ R₂ r₂) (fuel : Nat) (lam : F) (n : Nat) :
    Agree R₁ r₁ R₂ r₂ (PoissonInt64 A R₁ fuel lam (R₁.after r₁ n))
      (PoissonInt64 A R₂ fuel lam (R₂.after r₂ n)) := by
  unfold PoissonInt64
  split_ifs with h1 h2
  · exact poissonPtrsLoop_agree A R₁ R₂ r₁ r₂ h _ _ _ _ _ _ fuel n
  · exact Or.inr ⟨0, n, rfl, rfl, h.after n⟩
  · exact poissonMultLoop_agree A R₁ R₂ r₁ r₂ h _ fuel _ _ n

theorem runCall_agree (A : Arith F) (R₁ : Source F σ₁) (R₂ : Source F σ₂)
    (r₁ : σ₁) (r₂ : σ₂) (h : SameDraws R₁ r₁ R₂ r₂) (fuel : Nat) (c : Call F) (n : Nat) :
    Agree R₁ r₁ R₂ r₂ (runCall A R₁ fuel c (R₁.after r₁ n))
      (runCall A R₂ fuel c (R₂.after r₂ n)) := by
  cases c with
  | expFloat64 scale =>
    refine Or.inr ⟨Outcome.float (A.mul scale (A.neg (A.log (A.sub (A.lit 1)
      (R₁.float64 (R₁.after r₁ n)).1)))), n + 1, rfl, ?_, h.after (n + 1)⟩
    simp only [runCall, ExpFloat64, standardExpFloat64, ← h.fst n]
    rfl
  | uniformFloat64 loc scale =>
    refine Or.inr ⟨Outcome.float (A.add loc (A.mul scale (R₁.float64 (R₁.after r₁ n)).1)),
      n + 1, rfl, ?_, h.after (n + 1)⟩
    simp only [runCall, UniformFloat64, ← h.fst n]
    rfl
  | poissonInt64 lam =>
    rcases PoissonInt64_agree A R₁ R₂ r₁ r₂ h fuel lam n with ⟨e1, e2⟩ | ⟨k, m, e1, e2, hm⟩
    · exact Or.inl ⟨by simp [runCall, e1], by simp [runCall, e2]⟩
    · exact Or.inr ⟨Outcome.int k, m, by simp [runCall, e1], by simp [runCall, e2], hm⟩

theorem runCalls_agree (A : Arith F) (R₁ : Source F σ₁) (R₂ : Source F σ₂)
    (r₁ : σ₁) (r₂ : σ₂) (h : SameDraws R₁ r₁ R₂ r₂) (fuel : Nat) :
    ∀ (calls : List (Call F)) (n : Nat),
      Agree R₁ r₁ R₂ r₂ (runCalls A R₁ fuel calls (R₁.after r₁ n))
        (runCalls A R₂ fuel calls (R₂.after r₂ n)) := by
  intro calls
  induction calls with
  | nil => intro n; exact Or.inr ⟨[], n, rfl, rfl, h.after n⟩
  | cons c cs ih =>
    intro n
    rcases runCall_agree A R₁ R₂ r₁ r₂ h fuel c n with ⟨e1, e2⟩ | ⟨o, m, e1, e2, _⟩
    · exact Or.inl ⟨by simp [runCalls, e1], by simp [runCalls, e2]⟩
    · rcases ih m with ⟨f1, f2⟩ | ⟨os, m', f1, f2, hm'⟩
      · exact Or.inl ⟨by simp [runCalls, e1, f1], by simp [runCalls, e2, f2]⟩
      · exact Or.inr ⟨o :: os, m', by simp [runCalls, e1, f1], by simp [runCalls, e2, f2], hm'⟩

end Determinism

/-- C11: determinism.  For two samplers whose sources produce the same sequence
of draws, every finite sequence of calls of `ExpFloat64`, `UniformFloat64` and
`PoissonInt64`, made with the same methods, the same arguments and in the same
order on both, gives the same results: both runs run out of fuel, or both
return the same list of values after the same number of draws, and the draws
that remain are the same for the two sources. -/
theorem sampler_deterministic {σ₁ σ₂ : Type} (A : Arith F) (R₁ : Source F σ₁)
    (R₂ : Source F σ₂) (r₁ : σ₁) (r₂ : σ₂) (h : SameDraws R₁ r₁ R₂ r₂) (fuel : Nat)
    (calls : List (Call F)) :
    Agree R₁ r₁ R₂ r₂ (runCalls A R₁ fuel calls r₁) (runCalls A R₂ fuel calls r₂) :=
  runCalls_agree A R₁ R₂ r₁ r₂ h fuel calls 0


theorem replay_after {F : Type} (d : F) (l : List F) (n : Nat) :
    (replay d).after l n = l.drop n := by
  induction n with
  | zero => rfl
  | succ n ih =>
    show ((replay d).float64 ((replay d).after l n)).2 = _
    rw [ih]
    show (l.drop n).tail = _
    rw [List.tail_drop]

theorem replay_draw {F : Type} (d : F) (l : List F) (n : Nat) :
    (replay d).draw l n = l.getD n d := by
  unfold Source.draw
  rw [replay_after]
  show (l.drop n).headD d = _
  rw [List.headD_eq_head?_getD, List.head?_drop, List.getD_eq_getElem?_getD]

theorem tabulated_after {F : Type} (f : Nat → F) (s n : Nat) :
    (tabulated f).after s n = s + n := by
  induction n with
  | zero => rfl
  | succ n ih =>
    show ((tabulated f).float64 ((tabulated f).after s n)).2 = _
    rw [ih]
    rfl

theorem tabulated_draw {F : Type} (f : Nat → F) (s n : Nat) :
    (tabulated f).draw s n = f (s + n) := by
  unfold Source.draw
  rw [tabulated_after]
  rfl

/-- A list source and a table source with the same draws, `1/2`, `1/4` and then
zeros, give the same results on a sequence of three calls. -/
theorem sampler_deterministic_witness :
    SameDraws (replay (F64.fin 0)) [F64.fin (1 / 2), F64.fin (1 / 4)]
        (tabulated (fun n => [F64.fin (1 / 2), F64.fin (1 / 4)].getD n (F64.fin 0))) 0 ∧
      Agree (replay (F64.fin 0)) [F64.fin (1 / 2), F64.fin (1 / 4)]
        (tabulated (fun n => [F64.fin (1 / 2), F64.fin (1 / 4)].getD n (F64.fin 0))) 0
        (runCalls (binary64 coarseLibM) (replay (F64.fin 0)) 5
          [Call.uniformFloat64 (F64.fin 0) (F64.fin 1), Call.poissonInt64 (F64.fin 1),
            Call.expFloat64 (F64.fin 1)] [F64.fin (1 / 2), F64.fin (1 / 4)])
        (runCalls (binary64 coarseLibM)
          (tabulated (fun n => [F64.fin (1 / 2), F64.fin (1 / 4)].getD n (F64.fin 0))) 5
          [Call.uniformFloat64 (F64.fin 0) (F64.fin 1), Call.poissonInt64 (F64.fin 1),
            Call.expFloat64 (F64.fin 1)] 0) :=
  have h : SameDraws (replay (F64.fin 0)) [F64.fin (1 / 2), F64.fin (1 / 4)]
      (tabulated (fun n => [F64.fin (1 / 2), F64.fin (1 / 4)].getD n (F64.fin 0))) 0 := by
    intro n
    rw [replay_draw, tabulated_draw, Nat.zero_add]
  ⟨h, sampler_deterministic _ _ _ _ _ h 5 _⟩

/-! ## Negative `lam` -/

/-- The product `1.0 * U` for a draw `U ≤ 1` is a finite number at most 1 or
`-Inf`. -/
theorem one_mul_le_one (U : F64) (hU : F64.le U (F64.fin 1) = true) :
    (∃ p : ℚ, F64.mul (F64.fin 1) U = F64.fin p ∧ p ≤ 1) ∨
      F64.mul (F64.fin 1) U = F64.ninf := by
  cases U with
  | fin u =>
    have hu : u ≤ 1 := by simpa [F64.le] using hU
    have hr : rnd u ≤ 1 := by
      have := rnd_mono hu
      rwa [F64.rnd_one] at this
    show (∃ p : ℚ, F64.round (1 * u) = F64.fin p ∧ p ≤ 1) ∨ F64.round (1 * u) = F64.ninf
    rw [one_mul]
    unfold F64.round
    split_ifs with h1 h2
    · exfalso
      have h0 : 0 ≤ rnd u := rnd_nonneg h2.le
      rw [abs_of_nonneg h0] at h1
      have : (1 : ℚ) < 2 ^ 1024 := by norm_num
      linarith
    · exact Or.inr rfl
    · exact Or.inl ⟨_, rfl, hr⟩
  | pinf => simp [F64.le] at hU
  | ninf => right; simp [F64.mul]
  | nan => simp [F64.le] at hU

/-- C17: for every `lam < 0` and every source whose next draw `U` satisfies
`U <= 1`, with `math.Exp(-lam) >= 1`, `PoissonInt64(lam)` takes the
multiplicative branch and returns 0 after exactly one draw. -/
theorem PoissonInt64_neg_lam (M : LibM) (R : Source F64 σ) (r : σ) (lam : F64)
    (hlam : F64.lt lam (F64.fin 0) = true)
    (hexp : F64.le (F64.fin 1) (M.exp (F64.neg lam)) = true)
    (hU : F64.le (R.float64 r).1 (F64.fin 1) = true) (fuel : Nat) :
    PoissonInt64 (binary64 M) R (fuel + 1) lam r
        = poissonMult (binary64 M) R (fuel + 1) lam r ∧
      PoissonInt64 (binary64 M) R (fuel + 1) lam r = some (0, (R.float64 r).2) := by
  have hbranch : PoissonInt64 (binary64 M) R (fuel + 1) lam r
      = poissonMult (binary64 M) R (fuel + 1) lam r := by
    cases lam with
    | fin q =>
      have hq : q < 0 := by simpa [F64.lt] using hlam
      have h10 : ¬ (10 : ℚ) ≤ q := by linarith
      have h0 : ¬ q = 0 := by linarith
      simp [PoissonInt64, binary64, F64.le, F64.eq, h10, h0]
    | pinf => simp [F64.lt] at hlam
    | ninf => simp [PoissonInt64, binary64, F64.le, F64.eq]
    | nan => simp [F64.lt] at hlam
  refine ⟨hbranch, ?_⟩
  rw [hbranch]
  have hlt : F64.lt (M.exp (F64.neg lam)) (F64.mul (F64.fin 1) (R.float64 r).1) = false := by
    rcases one_mul_le_one _ hU with ⟨p, hp, hp1⟩ | hn
    · rw [hp]
      cases hE : M.exp (F64.neg lam) with
      | fin e =>
        rw [hE] at hexp
        have he : 1 ≤ e := by simpa [F64.le] using hexp
        have : ¬ e < p := by linarith
        simp [F64.lt, this]
      | pinf => simp [F64.lt]
      | ninf => rw [hE] at hexp; simp [F64.le] at hexp
      | nan => rw [hE] at hexp; simp [F64.le] at hexp
    · rw [hn]
      cases hE : M.exp (F64.neg lam) with
      | fin e => simp [F64.lt]
      | pinf => simp [F64.lt]
      | ninf => rw [hE] at hexp; simp [F64.le] at hexp
      | nan => rw [hE] at hexp; simp [F64.le] at hexp
  simp only [poissonMult, poissonMultLoop, binary64, F64.round_one, hlt]
  simp

/-- At `lam = -1` with the coarse library and the draw `1/2`. -/
theorem PoissonInt64_neg_lam_witness :
    F64.lt (F64.fin (-1)) (F64.fin 0) = true ∧
      F64.le (F64.fin 1) (coarseLibM.exp (F64.neg (F64.fin (-1)))) = true ∧
      F64.le ((replay (F64.fin 0)).float64 [F64.fin (1 / 2)]).1 (F64.fin 1) = true ∧
      PoissonInt64 (binary64 coarseLibM) (replay (F64.fin 0)) 1 (F64.fin (-1))
        [F64.fin (1 / 2)] = some (0, []) :=
  have h1 : F64.lt (F64.fin (-1)) (F64.fin 0) = true := by simp [F64.lt]
  have h2 : F64.le (F64.fin 1) (coarseLibM.exp (F64.neg (F64.fin (-1)))) = true := by
    show F64.le (F64.fin 1) (if (0 : ℚ) ≤ - -1 then F64.round (1 + - -1)
      else F64.round (1 / (1 - - -1))) = true
    norm_num [F64.le]
  have h3 : F64.le ((replay (F64.fin 0)).float64 [F64.fin (1 / 2)]).1 (F64.fin 1) = true := by
    norm_num [replay, F64.le]
  ⟨h1, h2, h3, (PoissonInt64_neg_lam coarseLibM (replay (F64.fin 0)) [F64.fin (1 / 2)]
    (F64.fin (-1)) h1 h2 h3 0).2⟩

/-! ## The shifted point and the recurrence of `loggam` -/

/-- `loggam` in terms of its number of steps and its shifted point. -/
theorem loggam_eq_point (A : Arith F) (x : F) :
    loggam A x =
      if A.eq x (A.lit 1) || A.eq x (A.lit 2) then A.lit 0
      else if A.le x (A.lit 7) then
        loggamShift A (loggamSteps A x).toNat (loggamStirling A (loggamPoint A x))
          (loggamPoint A x)
      else loggamStirling A (loggamPoint A x) := by
  rw [loggam_eq]
  unfold loggamPoint loggamSteps
  split_ifs <;> rfl

theorem rnd_seven_add : rnd (7 + 1 / 2 ^ 51) = 7 := by
  have hb : binade (7 + 1 / 2 ^ 51 : ℚ) = 2 := by
    apply binade_eq_of_bounds (by norm_num)
    · rw [abs_of_nonneg (by norm_num)]; norm_num
    · rw [abs_of_nonneg (by norm_num)]; norm_num
  rw [rnd_eq_of_binade hb]
  have e : ((7 : ℚ) + 1 / 2 ^ 51) / 2 ^ ((2 : Int) - 52)
      = ((7881299347898368 : Int) : ℚ) + 1 / 2 := by
    rw [show ((2 : Int) - 52) = -50 by norm_num, zpow_neg]
    norm_num
  rw [e, roundHalfEven_tie_down (by norm_num)]
  rw [show ((2 : Int) - 52) = -50 by norm_num, zpow_neg]
  norm_num

theorem rnd_intCast_small (m : Int) (hm : |m| < 2 ^ 53) : rnd (m : ℚ) = m := by
  have := rnd_dyadic m 0 hm (by norm_num)
  simpa using this

/-- The number of steps and the shifted point of `loggam` in binary64, for a
`float64` argument in `[1, 7]`. -/
theorem loggamPoint_range (M : LibM) (q : ℚ) (h1 : 1 ≤ q) (h7 : q ≤ 7) :
    ∃ (n : Nat) (y : ℚ), n ≤ 6 ∧ loggamSteps (binary64 M) (F64.fin q) = n ∧
      loggamPoint (binary64 M) (F64.fin q) = F64.fin y ∧
      F64.round (q + n) = F64.fin y ∧ 6 ≤ y ∧ y ≤ 7 := by
  have h6 : F64.round 6 = F64.fin 6 := by
    simpa using F64.round_intCast 6 (by norm_num)
  obtain ⟨et, lt, ut⟩ := F64.round_of_bounds (7 + -q) 0 6 (by linarith) (by linarith)
    F64.round_zero h6
  set t : ℚ := 7 + -q with ht
  set r : ℚ := rnd t with hr
  have hfl0 : 0 ≤ ⌊r⌋ := Int.floor_nonneg.mpr lt
  have hfl6 : ⌊r⌋ ≤ 6 := by
    have : (⌊r⌋ : ℚ) ≤ 6 := le_trans (Int.floor_le r) ut
    exact_mod_cast this
  have hle : F64.le (F64.fin q) (F64.fin 7) = true := by
    simp [F64.le, h7]
  have hsteps : loggamSteps (binary64 M) (F64.fin q) = ⌊r⌋ := by
    simp only [loggamSteps, binary64, F64.round_seven, hle, if_true, F64.sub, F64.neg, F64.add]
    rw [et]
    show truncInt64 r = ⌊r⌋
    unfold truncInt64
    simp only [if_pos lt]
    rw [if_pos ⟨by omega, by omega⟩]
  have hof : F64.round ((⌊r⌋ : Int) : ℚ) = F64.fin (⌊r⌋ : ℚ) :=
    F64.round_intCast _ (by rw [abs_of_nonneg hfl0]; omega)
  -- the exact sum `q + ⌊r⌋` lies in `(6, 7 + 2^-51]`
  have hlow : 6 ≤ q + (⌊r⌋ : ℚ) := by
    have a1 : ((⌊t⌋ : Int) : ℚ) ≤ r := by
      have hm : |⌊t⌋| < 2 ^ 53 := by
        have b0 : 0 ≤ ⌊t⌋ := Int.floor_nonneg.mpr (by linarith)
        have b6 : ⌊t⌋ ≤ 6 := by
          have : (⌊t⌋ : ℚ) ≤ 6 := le_trans (Int.floor_le t) (by linarith)
          exact_mod_cast this
        rw [abs_of_nonneg b0]; omega
      have := rnd_mono (Int.floor_le t)
      rwa [rnd_intCast_small _ hm] at this
    have a2 : ⌊t⌋ ≤ ⌊r⌋ := Int.le_floor.mpr a1
    have a3 : t - 1 < (⌊t⌋ : ℚ) := Int.sub_one_lt_floor t
    have a4 : ((⌊t⌋ : Int) : ℚ) ≤ (⌊r⌋ : ℚ) := by exact_mod_cast a2
    linarith
  have hupp : q + (⌊r⌋ : ℚ) ≤ 7 + 1 / 2 ^ 51 := by
    have a1 : (⌊r⌋ : ℚ) ≤ r := Int.floor_le r
    have a2 : r - t ≤ 1 / 2 ^ 51 := by
      rcases eq_or_lt_of_le (show 0 ≤ t by linarith) with h0 | h0
      · rw [hr, ← h0, rnd_zero]; norm_num
      · have b1 := abs_rnd_sub_le t
        have b2 : quantum t ≤ quantum 6 := quantum_mono h0 (by linarith)
        have b3 : quantum 6 = 1 / 2 ^ 50 := by
          have hb : binade (6 : ℚ) = 2 := by
            apply binade_eq_of_bounds (by norm_num)
            · rw [abs_of_nonneg (by norm_num)]; norm_num
            · rw [abs_of_nonneg (by norm_num)]; norm_num
          rw [quantum_eq, hb, show ((2 : Int) - 52) = -50 by norm_num, zpow_neg]
          norm_num
        have b4 := (abs_le.mp b1).2
        rw [b3] at b2
        have : quantum t / 2 ≤ 1 / 2 ^ 51 := by
          have : quantum t / 2 ≤ (1 / 2 ^ 50) / 2 := by linarith
          refine this.trans (by norm_num)
        linarith
    linarith
  have hy6 : 6 ≤ rnd (q + (⌊r⌋ : ℚ)) := by
    have := rnd_mono hlow
    rwa [(F64.rnd_of_round_eq h6).1] at this
  have hy7 : rnd (q + (⌊r⌋ : ℚ)) ≤ 7 := by
    have := rnd_mono hupp
    rwa [rnd_seven_add] at this
  have hround : F64.round (q + (⌊r⌋ : ℚ)) = F64.fin (rnd (q + (⌊r⌋ : ℚ))) := by
    apply F64.round_of_lt
    rw [abs_of_nonneg (by linarith)]
    exact lt_of_le_of_lt hy7 (by norm_num)
  have hn : ((⌊r⌋.toNat : Nat) : Int) = ⌊r⌋ := Int.toNat_of_nonneg hfl0
  have hnq : ((⌊r⌋.toNat : Nat) : ℚ) = (⌊r⌋ : ℚ) := by
    have : (((⌊r⌋.toNat : Nat) : Int) : ℚ) = (⌊r⌋ : ℚ) := by rw [hn]
    exact_mod_cast this
  refine ⟨⌊r⌋.toNat, rnd (q + (⌊r⌋ : ℚ)), by omega, by rw [hsteps, hn], ?_, ?_, hy6, hy7⟩
  · simp only [loggamPoint, hsteps]
    simp only [binary64, F64.round_seven, hle, if_true, hof, F64.add]
    exact hround
  · rw [hnq]; exact hround

/-- C13 as amended: for every `x` with `1 <= x <= 7` other than 1 and 2, in
binary64, the number of shift steps is an integer `n = int64(7 - x)` with
`0 <= n <= 6`, the shifted point is `x0 = x + n` (rounded), `loggam` evaluates
its series at `x0` and then takes `n` shift steps, and `6 <= x0 <= 7`: the
shifted point does not exceed 7. -/
theorem loggam_shifted_point (M : LibM) (q : ℚ) (h1 : 1 ≤ q) (h7 : q ≤ 7) (hne1 : q ≠ 1)
    (hne2 : q ≠ 2) :
    ∃ (n : Nat) (y : ℚ), n ≤ 6 ∧ loggamSteps (binary64 M) (F64.fin q) = n ∧
      loggamPoint (binary64 M) (F64.fin q) = F64.fin y ∧
      F64.round (q + n) = F64.fin y ∧ 6 ≤ y ∧ y ≤ 7 ∧
      loggam (binary64 M) (F64.fin q)
        = loggamShift (binary64 M) n (loggamStirling (binary64 M) (F64.fin y)) (F64.fin y) := by
  obtain ⟨n, y, hn6, hsteps, hpoint, hround, hy6, hy7⟩ := loggamPoint_range M q h1 h7
  refine ⟨n, y, hn6, hsteps, hpoint, hround, hy6, hy7, ?_⟩
  rw [loggam_eq_point, hpoint, hsteps]
  have e1 : (binary64 M).eq (F64.fin q) ((binary64 M).lit 1) = false := by
    simp [binary64, F64.eq, hne1]
  have e2 : (binary64 M).eq (F64.fin q) ((binary64 M).lit 2) = false := by
    simp [binary64, F64.eq, hne2]
  have e3 : (binary64 M).le (F64.fin q) ((binary64 M).lit 7) = true := by
    simp [binary64, F64.le, h7]
  rw [e1, e2, e3]
  simp

/-- C13, the claim fails: at `x = 3` the number of steps is 4 and the shifted
point is exactly 7, which is not greater than 7. -/
theorem loggamPoint_three :
    (1 : ℚ) ≤ 3 ∧ (3 : ℚ) ≤ 7 ∧ (3 : ℚ) ≠ 1 ∧ (3 : ℚ) ≠ 2 ∧
      ∀ M : LibM, loggamSteps (binary64 M) (F64.fin 3) = 4 ∧
        loggamPoint (binary64 M) (F64.fin 3) = F64.fin 7 ∧
        F64.lt (F64.fin 7) (loggamPoint (binary64 M) (F64.fin 3)) = false := by
  refine ⟨by norm_num, by norm_num, by norm_num, by norm_num, fun M => ?_⟩
  have h4 : F64.round 4 = F64.fin 4 := by
    simpa using F64.round_intCast 4 (by norm_num)
  have hle : F64.le (F64.fin 3) (F64.fin 7) = true := by norm_num [F64.le]
  have ht : truncInt64 (4 : ℚ) = 4 := by
    unfold truncInt64
    norm_num
  have hsteps : loggamSteps (binary64 M) (F64.fin 3) = 4 := by
    simp only [loggamSteps, binary64, F64.round_seven, hle, if_true, F64.sub, F64.neg, F64.add]
    rw [show (7 : ℚ) + -3 = 4 by norm_num, h4]
    exact ht
  have hpoint : loggamPoint (binary64 M) (F64.fin 3) = F64.fin 7 := by
    simp only [loggamPoint, hsteps]
    simp only [binary64, F64.round_seven, hle, if_true, Int.cast_ofNat, h4, F64.add]
    rw [show (3 : ℚ) + 4 = 7 by norm_num, F64.round_seven]
  refine ⟨hsteps, hpoint, ?_⟩
  rw [hpoint]
  simp [F64.lt]

/-- The shifted point at `x = 5/2`, with the coarse library. -/
theorem loggam_shifted_point_witness :
    (1 : ℚ) ≤ 5 / 2 ∧ (5 / 2 : ℚ) ≤ 7 ∧ (5 / 2 : ℚ) ≠ 1 ∧ (5 / 2 : ℚ) ≠ 2 ∧
      ∃ (n : Nat) (y : ℚ), n ≤ 6 ∧ loggamSteps (binary64 coarseLibM) (F64.fin (5 / 2)) = n ∧
        loggamPoint (binary64 coarseLibM) (F64.fin (5 / 2)) = F64.fin y ∧
        F64.round (5 / 2 + n) = F64.fin y ∧ 6 ≤ y ∧ y ≤ 7 ∧
        loggam (binary64 coarseLibM) (F64.fin (5 / 2))
          = loggamShift (binary64 coarseLibM) n (loggamStirling (binary64 coarseLibM) (F64.fin y))
            (F64.fin y) :=
  ⟨by norm_num, by norm_num, by norm_num, by norm_num,
    loggam_shifted_point coarseLibM (5 / 2) (by norm_num) (by norm_num) (by norm_num)
      (by norm_num)⟩

/-- Horner's rule in `1 / (y * y)` followed by the division by `y` is the sum
of the terms `a[k] / y^(2k+1)`: the series of `loggam` over the reals is the
series value of the specification. -/
theorem loggamStirling_eq_stirlingSum (y : ℝ) :
    loggamStirling (exactArith Real.sqrt Real.log Real.exp) y = stirlingSum Real.log y := by
  simp only [loggamStirling, stirlingSum, exactArith, loggamSeries, loggamCoeffs,
    List.reverse_cons, List.reverse_nil, List.nil_append, List.cons_append,
    List.drop_succ_cons, List.drop_zero, List.foldl_cons, List.foldl_nil,
    List.getD_cons_succ, List.getD_cons_zero, Finset.sum_range_succ, Finset.sum_range_zero]
  push_cast
  ring

theorem truncInt64_real_floor (t : ℝ) (h0 : 0 ≤ t) (h6 : t ≤ 6) :
    truncInt64 t = (⌊t⌋₊ : Int) := by
  have hfl0 : 0 ≤ ⌊t⌋ := Int.floor_nonneg.mpr h0
  have hfl6 : ⌊t⌋ ≤ 6 := by
    have : (⌊t⌋ : ℝ) ≤ 6 := le_trans (Int.floor_le t) h6
    exact_mod_cast this
  unfold truncInt64
  simp only [if_pos h0]
  rw [if_pos ⟨by omega, by omega⟩]
  exact (Int.natCast_floor_eq_floor h0).symm

theorem sum_log_reflect (x : ℝ) (n : ℕ) :
    ∑ i in Finset.range n, Real.log (x + n - (i + 1))
      = ∑ j in Finset.range n, Real.log (x + j) := by
  rw [← Finset.sum_range_reflect]
  refine Finset.sum_congr rfl (fun i hi => ?_)
  have hi' : i < n := Finset.mem_range.mp hi
  congr 1
  have : ((n - 1 - i : ℕ) : ℝ) = (n : ℝ) - 1 - i := by
    rw [Nat.cast_sub (by omega), Nat.cast_sub (by omega)]
    simp
  rw [this]
  ring

theorem subLogs_shift (M : LibM) (gl : F64) (y : ℚ) (n : Nat) :
    subLogs M (F64.sub gl (M.log (F64.fin (y - 1)))) (y - 1) n = subLogs M gl y (n + 1) := by
  induction n with
  | zero => simp [subLogs]
  | succ n ih =>
    rw [subLogs, ih]
    conv_rhs => rw [subLogs]
    congr 3
    push_cast
    ring

/-- The shift steps of `loggam` in binary64 when every decrement is exact. -/
theorem loggamShift_binary64 (M : LibM) :
    ∀ (n : Nat) (gl : F64) (y : ℚ),
      (∀ i : Nat, 1 ≤ i → i ≤ n → F64.round (y - (i : ℚ)) = F64.fin (y - (i : ℚ))) →
      loggamShift (binary64 M) n gl (F64.fin y) = subLogs M gl y n := by
  intro n
  induction n with
  | zero => intro gl y _; rfl
  | succ n ih =>
    intro gl y h
    have h1 : F64.sub (F64.fin y) (F64.round 1) = F64.fin (y - 1) := by
      have := h 1 le_rfl (by omega)
      rw [F64.round_one]
      simp only [F64.sub, F64.neg, F64.add]
      rw [← sub_eq_add_neg]
      simpa using this
    have hstep : loggamShift (binary64 M) (n + 1) gl (F64.fin y)
        = loggamShift (binary64 M) n
            (F64.sub gl (M.log (F64.sub (F64.fin y) (F64.round 1))))
            (F64.sub (F64.fin y) (F64.round 1)) := rfl
    rw [hstep, h1, ih _ (y - 1), subLogs_shift]
    intro i hi1 hin
    have := h (i + 1) (by omega) (by omega)
    have e : y - ((i + 1 : Nat) : ℚ) = y - 1 - (i : ℚ) := by push_cast; ring
    rwa [e] at this

theorem rnd_of_round_fin {a y : ℚ} (h : F64.round a = F64.fin y) : rnd y = y := by
  unfold F64.round at h
  split_ifs at h with h1
  have : rnd a = y := by injection h
  rw [← this, rnd_rnd]

/-- A `float64` value in `[6, 7]` less a whole number up to 6 is a `float64`
value. -/
theorem round_sub_nat (y : ℚ) (hy : rnd y = y) (h6 : 6 ≤ y) (h7 : y ≤ 7) (i : Nat)
    (hi : i ≤ 6) : F64.round (y - (i : ℚ)) = F64.fin (y - (i : ℚ)) := by
  have hb : binade y = 2 := by
    apply binade_eq_of_bounds (by norm_num)
    · rw [abs_of_nonneg (by linarith)]; norm_num; linarith
    · rw [abs_of_nonneg (by linarith)]; norm_num; linarith
  obtain ⟨k, hk⟩ := exists_int_of_rnd_eq hy
  rw [quantum_eq, hb, show ((2 : Int) - 52) = -50 by norm_num] at hk
  have hp : (2 : ℚ) ^ (-50 : Int) = 1 / 2 ^ 50 := by rw [zpow_neg]; norm_num
  have hkq : (k : ℚ) = y * 2 ^ 50 := by rw [hk, hp]; field_simp
  have hk0 : (6 * 2 ^ 50 : Int) ≤ k := by
    have : ((6 * 2 ^ 50 : Int) : ℚ) ≤ (k : ℚ) := by rw [hkq]; push_cast; nlinarith
    exact_mod_cast this
  have hk1 : k ≤ (7 * 2 ^ 50 : Int) := by
    have : (k : ℚ) ≤ ((7 * 2 ^ 50 : Int) : ℚ) := by rw [hkq]; push_cast; nlinarith
    exact_mod_cast this
  have e : y - (i : ℚ) = ((k - (i : Int) * 2 ^ 50 : Int) : ℚ) * 2 ^ (-50 : Int) := by
    rw [hp]; push_cast; rw [hkq]; field_simp; ring
  rw [e]
  apply F64.round_dyadic _ _ _ (by norm_num) (by norm_num)
  rw [abs_lt]
  constructor <;> norm_num at hk0 hk1 ⊢ <;> omega

/-- The value of `loggam` in binary64 on `[1, 7]`. -/
theorem loggam_binary64_shift (M : LibM) (q : ℚ) (h1 : 1 ≤ q) (h7 : q ≤ 7) (hne1 : q ≠ 1)
    (hne2 : q ≠ 2) :
    ∃ (n : Nat) (y : ℚ), n ≤ 6 ∧ loggamSteps (binary64 M) (F64.fin q) = n ∧
      loggamPoint (binary64 M) (F64.fin q) = F64.fin y ∧
      F64.round (q + n) = F64.fin y ∧
      loggam (binary64 M) (F64.fin q)
        = subLogs M (loggamStirling (binary64 M) (F64.fin y)) y n := by
  obtain ⟨n, y, hn6, hsteps, hpoint, hround, hy6, hy7⟩ := loggamPoint_range M q h1 h7
  refine ⟨n, y, hn6, hsteps, hpoint, hround, ?_⟩
  rw [loggam_eq_point, hpoint, hsteps]
  have e1 : (binary64 M).eq (F64.fin q) ((binary64 M).lit 1) = false := by
    simp [binary64, F64.eq, hne1]
  have e2 : (binary64 M).eq (F64.fin q) ((binary64 M).lit 2) = false := by
    simp [binary64, F64.eq, hne2]
  have e3 : (binary64 M).le (F64.fin q) ((binary64 M).lit 7) = true := by
    simp [binary64, F64.le, h7]
  rw [e1, e2, e3]
  simp only [Bool.or_self, Bool.false_eq_true, if_false, if_true, Int.toNat_ofNat]
  exact loggamShift_binary64 M n _ y
    (fun i _ hi => round_sub_nat y (rnd_of_round_fin hround) hy6 hy7 i (by omega))

/-- Above 7, `loggam` in binary64 is its series. -/
theorem loggam_binary64_direct (M : LibM) (z : F64) (h : F64.lt (F64.fin 7) z = true) :
    loggam (binary64 M) z = loggamStirling (binary64 M) z := by
  rw [loggam_eq]
  cases z with
  | fin q =>
    have h7 : 7 < q := by simpa [F64.lt] using h
    have e1 : (binary64 M).eq (F64.fin q) ((binary64 M).lit 1) = false := by
      simp [binary64, F64.eq]; linarith
    have e2 : (binary64 M).eq (F64.fin q) ((binary64 M).lit 2) = false := by
      simp [binary64, F64.eq]; linarith
    have e3 : (binary64 M).le (F64.fin q) ((binary64 M).lit 7) = false := by
      simp [binary64, F64.le, h7]
    rw [e1, e2, e3]
    simp
  | pinf =>
    have e1 : (binary64 M).eq F64.pinf ((binary64 M).lit 1) = false := by
      simp [binary64, F64.eq]
    have e2 : (binary64 M).eq F64.pinf ((binary64 M).lit 2) = false := by
      simp [binary64, F64.eq]
    have e3 : (binary64 M).le F64.pinf ((binary64 M).lit 7) = false := by
      simp [binary64, F64.le]
    rw [e1, e2, e3]
    simp
  | ninf => simp [F64.lt] at h
  | nan => simp [F64.lt] at h


theorem round_six_sub : F64.round (7 + -(1 + 1 / 2 ^ 52)) = F64.fin 6 := by
  have hb : binade (7 + -(1 + 1 / 2 ^ 52) : ℚ) = 2 := by
    apply binade_eq_of_bounds (by norm_num)
    · rw [abs_of_nonneg (by norm_num)]; norm_num
    · rw [abs_of_nonneg (by norm_num)]; norm_num
  have hr : rnd (7 + -(1 + 1 / 2 ^ 52) : ℚ) = 6 := by
    rw [rnd_eq_of_binade hb]
    have e : ((7 : ℚ) + -(1 + 1 / 2 ^ 52)) / 2 ^ ((2 : Int) - 52)
        = ((6755399441055744 : Int) : ℚ) - 1 / 4 := by
      rw [show ((2 : Int) - 52) = -50 by norm_num, zpow_neg]
      norm_num
    rw [e, @roundHalfEven_eq_of_lt _ 6755399441055744 (by norm_num) (by norm_num)]
    rw [show ((2 : Int) - 52) = -50 by norm_num, zpow_neg]
    norm_num
  rw [F64.round_of_lt (by rw [hr, abs_of_nonneg (by norm_num)]; norm_num), hr]

theorem round_seven_add : F64.round (1 + 1 / 2 ^ 52 + 6) = F64.fin 7 := by
  have hb : binade (1 + 1 / 2 ^ 52 + 6 : ℚ) = 2 := by
    apply binade_eq_of_bounds (by norm_num)
    · rw [abs_of_nonneg (by norm_num)]; norm_num
    · rw [abs_of_nonneg (by norm_num)]; norm_num
  have hr : rnd (1 + 1 / 2 ^ 52 + 6 : ℚ) = 7 := by
    rw [rnd_eq_of_binade hb]
    have e : ((1 : ℚ) + 1 / 2 ^ 52 + 6) / 2 ^ ((2 : Int) - 52)
        = ((7881299347898368 : Int) : ℚ) + 1 / 4 := by
      rw [show ((2 : Int) - 52) = -50 by norm_num, zpow_neg]
      norm_num
    rw [e, @roundHalfEven_eq_of_lt _ 7881299347898368 (by norm_num) (by norm_num)]
    rw [show ((2 : Int) - 52) = -50 by norm_num, zpow_neg]
    norm_num
  rw [F64.round_of_lt (by rw [hr, abs_of_nonneg (by norm_num)]; norm_num), hr]

theorem round_succ_one : F64.round (1 + 1 / 2 ^ 52) = F64.fin (1 + 1 / 2 ^ 52) := by
  have h := F64.round_dyadic (2 ^ 52 + 1) (-52) (by norm_num) (by norm_num) (by norm_num)
  have e : (((2 ^ 52 + 1 : Int) : ℚ)) * 2 ^ (-52 : Int) = 1 + 1 / 2 ^ 52 := by norm_num
  rwa [e] at h

/-- Beyond the arguments `k + 1` that `poissonPtrs` passes: at
`x = 1 + 2^-52`, the `float64` value next above 1, the number of shift steps
is `n = 6` and the sum `x + 6` is not a `float64` value; it rounds to the
shifted point `x0 = 7`.  `loggam(x)` is then the series value at 7 less
`Log(6), Log(5), ..., Log(1)`, and no subtracted argument `7 - i` is one of the
numbers `x + j`. -/
theorem loggam_point_inexact :
    F64.round (1 + 1 / 2 ^ 52) = F64.fin (1 + 1 / 2 ^ 52) ∧
      (1 : ℚ) ≤ 1 + 1 / 2 ^ 52 ∧ (1 + 1 / 2 ^ 52 : ℚ) ≤ 7 ∧
      (1 + 1 / 2 ^ 52 : ℚ) ≠ 1 ∧ (1 + 1 / 2 ^ 52 : ℚ) ≠ 2 ∧
      ∀ M : LibM,
        loggamSteps (binary64 M) (F64.fin (1 + 1 / 2 ^ 52)) = 6 ∧
        loggamPoint (binary64 M) (F64.fin (1 + 1 / 2 ^ 52)) = F64.fin 7 ∧
        (7 : ℚ) ≠ 1 + 1 / 2 ^ 52 + 6 ∧
        loggam (binary64 M) (F64.fin (1 + 1 / 2 ^ 52))
          = subLogs M (loggamStirling (binary64 M) (F64.fin 7)) 7 6 ∧
        ∀ i j : Nat, (7 : ℚ) - (i : ℚ) ≠ 1 + 1 / 2 ^ 52 + (j : ℚ) := by
  refine ⟨round_succ_one, by norm_num, by norm_num, by norm_num, by norm_num, fun M => ?_⟩
  have hle : F64.le (F64.fin (1 + 1 / 2 ^ 52)) (F64.fin 7) = true := by norm_num [F64.le]
  have h6 : F64.round 6 = F64.fin 6 := by
    simpa using F64.round_intCast 6 (by norm_num)
  have ht : truncInt64 (6 : ℚ) = 6 := by
    unfold truncInt64
    norm_num
  have hsteps : loggamSteps (binary64 M) (F64.fin (1 + 1 / 2 ^ 52)) = 6 := by
    simp only [loggamSteps, binary64, F64.round_seven, hle, if_true, F64.sub, F64.neg, F64.add]
    rw [round_six_sub]
    exact ht
  have hpoint : loggamPoint (binary64 M) (F64.fin (1 + 1 / 2 ^ 52)) = F64.fin 7 := by
    simp only [loggamPoint, hsteps]
    simp only [binary64, F64.round_seven, hle, if_true, Int.cast_ofNat, h6, F64.add]
    exact round_seven_add
  refine ⟨hsteps, hpoint, by norm_num, ?_, ?_⟩
  · obtain ⟨n, y, _, a1, a2, _, a3⟩ :=
      loggam_binary64_shift M (1 + 1 / 2 ^ 52) (by norm_num) (by norm_num) (by norm_num)
        (by norm_num)
    rw [hsteps] at a1
    rw [hpoint] at a2
    have hn : n = 6 := by exact_mod_cast a1.symm
    have hy : y = 7 := by injection a2 with h; exact h.symm
    rw [a3, hn, hy]
  · intro i j h
    have h2 : (((6 : Int) - (i : Int) - (j : Int) : Int) : ℚ) * 2 ^ 52 = 1 := by
      push_cast
      have : (6 : ℚ) - i - j = 1 / 2 ^ 52 := by linarith
      rw [this]
      norm_num
    have h3 : ((6 : Int) - (i : Int) - (j : Int)) * 2 ^ 52 = 1 := by exact_mod_cast h2
    omega

/-- Whole numbers up to 13 are `float64` values. -/
theorem round_add_nat (q : ℚ) (h7 : q ≤ 7) (n : Nat) (hn : n ≤ 6) (m : Nat) (hm : q = (m : ℚ)) :
    F64.round (q + (n : ℚ)) = F64.fin (q + (n : ℚ)) := by
  have hm7 : m ≤ 7 := by
    have : (m : ℚ) ≤ 7 := by rw [← hm]; exact h7
    exact_mod_cast this
  have h := F64.round_intCast ((m + n : Nat) : Int)
    (by rw [abs_of_nonneg (by positivity)]
        have : m + n ≤ 13 := by omega
        have h2 : ((m + n : Nat) : Int) ≤ 13 := by exact_mod_cast this
        omega)
  rw [hm]
  push_cast at h ⊢
  exact h

/-- C14: in binary64, for every `x` with `1 <= x <= 7` other than 1 and 2, with
`n = int64(7 - x)` the number of shift steps and `x0 = x + n` the shifted
point (the `float64` sum), `loggam(x)` is the series value at `x0` less
`Log(x0 - 1), ..., Log(x0 - n)`, subtracted one after the other, every argument
`x0 - i` being exact.  When `x + n` is a `float64` value, as it is for every
whole `x` and so for every argument `k + 1` that `poissonPtrs` passes, `x0` is
`x + n` exactly and the subtracted terms are `Log(x + n - 1), ..., Log(x)`.  For
every `x > 7`, `+Inf` included, `loggam(x)` is the series value at `x`.  The
series value is computed by Horner's rule in `1/(x0*x0)`; over the reals it is
`S`, that is `stirlingSum`, and the identity of the specification holds with
exact sums: these are the last two parts. -/
theorem loggam_recurrence (M : LibM) (q : ℚ) (z : F64) (x : ℝ) :
    (1 ≤ q → q ≤ 7 → q ≠ 1 → q ≠ 2 →
      ∃ (n : Nat) (y : ℚ), n ≤ 6 ∧ loggamSteps (binary64 M) (F64.fin q) = n ∧
        loggamPoint (binary64 M) (F64.fin q) = F64.fin y ∧
        F64.round (q + n) = F64.fin y ∧
        loggam (binary64 M) (F64.fin q)
          = subLogs M (loggamStirling (binary64 M) (F64.fin y)) y n ∧
        (F64.round (q + n) = F64.fin (q + n) →
          y = q + n ∧
          ∀ i : Nat, i < n → y - ((i + 1 : Nat) : ℚ) = q + ((n - 1 - i : Nat) : ℚ)) ∧
        ((∃ m : Nat, q = (m : ℚ)) → F64.round (q + n) = F64.fin (q + n))) ∧
    (F64.lt (F64.fin 7) z = true → loggam (binary64 M) z = loggamStirling (binary64 M) z) ∧
    (1 ≤ x → x ≤ 7 → x ≠ 1 → x ≠ 2 →
      ∃ n : ℕ,
        loggamSteps (exactArith Real.sqrt Real.log Real.exp) x = n ∧
        loggamPoint (exactArith Real.sqrt Real.log Real.exp) x = x + n ∧
        loggam (exactArith Real.sqrt Real.log Real.exp) x
          = stirlingSum Real.log (x + n)
            - ∑ i in Finset.range n, Real.log (x + n - (i + 1)) ∧
        ∑ i in Finset.range n, Real.log (x + n - (i + 1))
          = ∑ j in Finset.range n, Real.log (x + j)) ∧
    (7 < x → loggam (exactArith Real.sqrt Real.log Real.exp) x = stirlingSum Real.log x) := by
  refine ⟨?_, loggam_binary64_direct M z, ?_, ?_⟩
  · intro h1 h7 hne1 hne2
    obtain ⟨n, y, hn6, hsteps, hpoint, hround, hval⟩ :=
      loggam_binary64_shift M q h1 h7 hne1 hne2
    refine ⟨n, y, hn6, hsteps, hpoint, hround, hval, fun hex => ?_,
      fun ⟨m, hm⟩ => round_add_nat q h7 n hn6 m hm⟩
    have hy : y = q + n := by
      rw [hround] at hex
      injection hex
    refine ⟨hy, fun i hi => ?_⟩
    rw [hy, Nat.cast_sub (by omega), Nat.cast_sub (by omega)]
    push_cast
    ring
  · intro h1 h7 hne1 hne2
    have hn : truncInt64 (7 - x) = (⌊7 - x⌋₊ : Int) :=
      truncInt64_real_floor (7 - x) (by linarith) (by linarith)
    have hsteps : loggamSteps (exactArith Real.sqrt Real.log Real.exp) x = (⌊7 - x⌋₊ : Int) := by
      simp only [loggamSteps, exactArith]
      push_cast
      rw [if_pos (by simpa using h7)]
      exact hn
    refine ⟨⌊7 - x⌋₊, hsteps, ?_, ?_, sum_log_reflect x _⟩
    · simp only [loggamPoint, hsteps]
      simp only [exactArith]
      push_cast
      rw [if_pos (by simpa using h7)]
    · rw [loggam_real_shift x _ hne1 hne2 h7 hn, loggamStirling_eq_stirlingSum]
  · intro h7
    rw [loggam_real_direct x h7, loggamStirling_eq_stirlingSum]

/-- The recurrence at `x = 3` and the series at `x = 8`, in binary64 with the
coarse library and over the reals. -/
theorem loggam_recurrence_witness :
    ((1 : ℚ) ≤ 3 ∧ (3 : ℚ) ≤ 7 ∧ (3 : ℚ) ≠ 1 ∧ (3 : ℚ) ≠ 2 ∧
      ∃ (n : Nat) (y : ℚ), n ≤ 6 ∧ loggamSteps (binary64 coarseLibM) (F64.fin 3) = n ∧
        loggamPoint (binary64 coarseLibM) (F64.fin 3) = F64.fin y ∧
        F64.round (3 + n) = F64.fin y ∧
        loggam (binary64 coarseLibM) (F64.fin 3)
          = subLogs coarseLibM (loggamStirling (binary64 coarseLibM) (F64.fin y)) y n ∧
        (F64.round ((3 : ℚ) + n) = F64.fin (3 + n) →
          y = 3 + n ∧
          ∀ i : Nat, i < n → y - ((i + 1 : Nat) : ℚ) = 3 + ((n - 1 - i : Nat) : ℚ)) ∧
        ((∃ m : Nat, (3 : ℚ) = (m : ℚ)) → F64.round ((3 : ℚ) + n) = F64.fin (3 + n))) ∧
    (F64.lt (F64.fin 7) (F64.fin 8) = true ∧
      loggam (binary64 coarseLibM) (F64.fin 8)
        = loggamStirling (binary64 coarseLibM) (F64.fin 8)) ∧
    ((1 : ℝ) ≤ 3 ∧ (3 : ℝ) ≤ 7 ∧ (3 : ℝ) ≠ 1 ∧ (3 : ℝ) ≠ 2 ∧
      ∃ n : ℕ,
        loggamSteps (exactArith Real.sqrt Real.log Real.exp) 3 = n ∧
        loggamPoint (exactArith Real.sqrt Real.log Real.exp) 3 = 3 + n ∧
        loggam (exactArith Real.sqrt Real.log Real.exp) 3
          = stirlingSum Real.log (3 + n)
            - ∑ i in Finset.range n, Real.log (3 + n - (i + 1)) ∧
        ∑ i in Finset.range n, Real.log ((3 : ℝ) + n - (i + 1))
          = ∑ j in Finset.range n, Real.log (3 + j)) ∧
    ((7 : ℝ) < 8 ∧
      loggam (exactArith Real.sqrt Real.log Real.exp) 8 = stirlingSum Real.log 8) :=
  have h78 : F64.lt (F64.fin 7) (F64.fin 8) = true := by norm_num [F64.lt]
  ⟨⟨by norm_num, by norm_num, by norm_num, by norm_num,
      (loggam_recurrence coarseLibM 3 (F64.fin 8) 3).1 (by norm_num) (by norm_num)
        (by norm_num) (by norm_num)⟩,
    ⟨h78, (loggam_recurrence coarseLibM 3 (F64.fin 8) 3).2.1 h78⟩,
    ⟨by norm_num, by norm_num, by norm_num, by norm_num,
      (loggam_recurrence coarseLibM 3 (F64.fin 8) 3).2.2.1 (by norm_num) (by norm_num)
        (by norm_num) (by norm_num)⟩,
    ⟨by norm_num, (loggam_recurrence coarseLibM 3 (F64.fin 8) 8).2.2.2 (by norm_num)⟩⟩

/-! ## The iterations of `poissonPtrs` -/

/-- `poissonPtrs` is its loop at the shape constants. -/
theorem poissonPtrs_eq (A : Arith F) (R : Source F σ) (fuel : Nat) (lam : F) (r : σ) :
    poissonPtrs A R fuel lam r
      = poissonPtrsLoop A R lam (A.log lam) (shapeA A lam) (shapeB A lam)
          (shapeInvalpha A lam) (shapeVr A lam) fuel r := rfl

/-- One iteration of the loop of `poissonPtrs`. -/
theorem poissonPtrsLoop_step (A : Arith F) (R : Source F σ) (lam loglam a b invalpha vr : F)
    (fuel : Nat) (s : σ) :
    poissonPtrsLoop A R lam loglam a b invalpha vr (fuel + 1) s
      = if ptrsReturns A lam loglam a b invalpha vr (R.float64 s).1
            (R.float64 (R.float64 s).2).1 then
          some (ptrsCandidateOf A lam a b (R.float64 s).1, (R.float64 (R.float64 s).2).2)
        else
          poissonPtrsLoop A R lam loglam a b invalpha vr fuel (R.float64 (R.float64 s).2).2 := by
  simp only [poissonPtrsLoop, ptrsReturns, ptrsSqueeze, ptrsReject, ptrsExact, ptrsCandidateOf,
    ptrsU, ptrsUs]
  cases h1 : (A.le (A.lit 0.07) (A.sub (A.lit 0.5) (A.abs (A.sub (R.float64 s).1 (A.lit 0.5))))
    && A.le (R.float64 (R.float64 s).2).1 vr)
  · cases h2 : (decide (ptrsCandidate A lam a b
          (A.sub (A.lit 0.5) (A.abs (A.sub (R.float64 s).1 (A.lit 0.5))))
          (A.sub (R.float64 s).1 (A.lit 0.5)) < 0)
        || (A.lt (A.sub (A.lit 0.5) (A.abs (A.sub (R.float64 s).1 (A.lit 0.5)))) (A.lit 0.013)
          && A.lt (A.sub (A.lit 0.5) (A.abs (A.sub (R.float64 s).1 (A.lit 0.5))))
            (R.float64 (R.float64 s).2).1))
    · simp only [Bool.false_eq_true, if_false, Bool.false_or, Bool.not_false, Bool.true_and]
    · simp only [Bool.false_eq_true, if_false, if_true, Bool.false_or, Bool.not_true,
        Bool.false_and]
  · simp only [if_true, Bool.true_or]

theorem Source.after_two (R : Source F σ) (r : σ) (m : Nat) :
    (R.float64 (R.float64 (R.after r (2 * m))).2).2 = R.after r (2 * (m + 1)) := rfl

/-- The loop of `poissonPtrs`, entered after `m` iterations, returns at the
first iteration from `m` on that returns. -/
theorem poissonPtrsLoop_first (A : Arith F) (R : Source F σ) (lam loglam a b invalpha vr : F)
    (r : σ) (k : Int) (r' : σ) :
    ∀ (fuel m : Nat),
      poissonPtrsLoop A R lam loglam a b invalpha vr fuel (R.after r (2 * m)) = some (k, r') ↔
        ∃ i, i < fuel ∧
          (∀ j, j < i → ptrsReturns A lam loglam a b invalpha vr (R.draw r (2 * (m + j)))
            (R.draw r (2 * (m + j) + 1)) = false) ∧
          ptrsReturns A lam loglam a b invalpha vr (R.draw r (2 * (m + i)))
            (R.draw r (2 * (m + i) + 1)) = true ∧
          k = ptrsCandidateOf A lam a b (R.draw r (2 * (m + i))) ∧
          r' = R.after r (2 * (m + i + 1)) := by
  intro fuel
  induction fuel with
  | zero =>
    intro m
    simp [poissonPtrsLoop]
  | succ fuel ih =>
    intro m
    rw [poissonPtrsLoop_step, Source.after_two]
    have hd1 : (R.float64 (R.after r (2 * m))).1 = R.draw r (2 * m) := rfl
    have hd2 : (R.float64 (R.float64 (R.after r (2 * m))).2).1 = R.draw r (2 * m + 1) := rfl
    rw [hd1, hd2]
    by_cases hret : ptrsReturns A lam loglam a b invalpha vr (R.draw r (2 * m))
        (R.draw r (2 * m + 1)) = true
    · rw [if_pos hret]
      constructor
      · intro h
        simp only [Option.some.injEq, Prod.mk.injEq] at h
        exact ⟨0, Nat.succ_pos _, fun j hj => absurd hj (Nat.not_lt_zero j), hret, h.1.symm,
          h.2.symm⟩
      · rintro ⟨i, _, hfalse, _, hk, hr'⟩
        have hi : i = 0 := by
          by_contra hne
          have := hfalse 0 (Nat.pos_of_ne_zero hne)
          rw [Nat.add_zero, hret] at this
          exact Bool.noConfusion this
        subst hi
        rw [hk, hr']
        rfl
    · rw [if_neg hret, ih (m + 1)]
      have hret' : ptrsReturns A lam loglam a b invalpha vr (R.draw r (2 * m))
          (R.draw r (2 * m + 1)) = false := by simpa using hret
      constructor
      · rintro ⟨i, hi, hfalse, htrue, hk, hr'⟩
        refine ⟨i + 1, Nat.succ_lt_succ hi, ?_, ?_, ?_, ?_⟩
        · intro j hj
          cases j with
          | zero => exact hret'
          | succ j =>
            have := hfalse j (Nat.lt_of_succ_lt_succ hj)
            rwa [show m + 1 + j = m + (j + 1) by omega] at this
        · rwa [show m + 1 + i = m + (i + 1) by omega] at htrue
        · rwa [show m + 1 + i = m + (i + 1) by omega] at hk
        · rwa [show m + 1 + i + 1 = m + (i + 1) + 1 by omega] at hr'
      · rintro ⟨i, hi, hfalse, htrue, hk, hr'⟩
        cases i with
        | zero =>
          rw [Nat.add_zero, hret'] at htrue
          exact Bool.noConfusion htrue
        | succ i =>
          refine ⟨i, Nat.lt_of_succ_lt_succ hi, ?_, ?_, ?_, ?_⟩
          · intro j hj
            have := hfalse (j + 1) (Nat.succ_lt_succ hj)
            rwa [show m + (j + 1) = m + 1 + j by omega] at this
          · rwa [show m + (i + 1) = m + 1 + i by omega] at htrue
          · rwa [show m + (i + 1) = m + 1 + i by omega] at hk
          · rwa [show m + (i + 1) + 1 = m + 1 + i + 1 by omega] at hr'

/-- When the squeeze holds the loop makes no call of `loggam`. -/
theorem poissonPtrsLoggamArgs_squeeze (A : Arith F) (R : Source F σ)
    (lam loglam a b invalpha vr : F) (fuel : Nat) (s : σ)
    (h : ptrsSqueeze A vr (ptrsUs A (R.float64 s).1) (R.float64 (R.float64 s).2).1 = true) :
    poissonPtrsLoggamArgs A R lam loglam a b invalpha vr (fuel + 1) s = [] := by
  simp only [ptrsSqueeze, ptrsUs, ptrsU] at h
  simp only [poissonPtrsLoggamArgs, h, if_true]

/-- C15: for every `lam` and every source, `poissonPtrs(lam)` returns `k` and
leaves the source in the state `r'` exactly when there is an iteration `i`
(0-based, within the fuel) such that no iteration before `i` returns, iteration
`i` returns (the squeeze holds, or the fast-reject condition does not hold and
the exact test holds), `k` is the candidate of iteration `i`, and `r'` is the
source after `2*(i+1)` draws, iteration `j` using the draws `2j` (for `U`) and
`2j+1` (for `V`).  In particular, when the first pair of draws satisfies the
squeeze, the candidate is returned after exactly two draws and `loggam` is not
called. -/
theorem poissonPtrs_first_return (A : Arith F) (R : Source F σ) (lam : F) (r : σ) (fuel : Nat) :
    (∀ (k : Int) (r' : σ),
      poissonPtrs A R fuel lam r = some (k, r') ↔
        ∃ i, i < fuel ∧
          (∀ j, j < i → ptrsReturns A lam (A.log lam) (shapeA A lam) (shapeB A lam)
            (shapeInvalpha A lam) (shapeVr A lam) (R.draw r (2 * j)) (R.draw r (2 * j + 1))
              = false) ∧
          ptrsReturns A lam (A.log lam) (shapeA A lam) (shapeB A lam)
            (shapeInvalpha A lam) (shapeVr A lam) (R.draw r (2 * i)) (R.draw r (2 * i + 1))
              = true ∧
          k = ptrsCandidateOf A lam (shapeA A lam) (shapeB A lam) (R.draw r (2 * i)) ∧
          r' = R.after r (2 * (i + 1))) ∧
    (ptrsSqueeze A (shapeVr A lam) (ptrsUs A (R.draw r 0)) (R.draw r 1) = true →
      poissonPtrs A R (fuel + 1) lam r
        = some (ptrsCandidateOf A lam (shapeA A lam) (shapeB A lam) (R.draw r 0), R.after r 2) ∧
      poissonPtrsArgs A R (fuel + 1) lam r = []) := by
  constructor
  · intro k r'
    have := poissonPtrsLoop_first A R lam (A.log lam) (shapeA A lam) (shapeB A lam)
      (shapeInvalpha A lam) (shapeVr A lam) r k r' fuel 0
    simpa [poissonPtrs_eq] using this
  · intro h
    constructor
    · rw [poissonPtrs_eq, poissonPtrsLoop_step]
      have hret : ptrsReturns A lam (A.log lam) (shapeA A lam) (shapeB A lam)
          (shapeInvalpha A lam) (shapeVr A lam) (R.float64 r).1
          (R.float64 (R.float64 r).2).1 = true := by
        unfold ptrsReturns
        rw [Bool.or_eq_true]
        exact Or.inl h
      rw [if_pos hret]
      rfl
    · exact poissonPtrsLoggamArgs_squeeze A R _ _ _ _ _ _ fuel r h

/-- The values of the format below `2^63` are at most `2^63 - 1024`. -/
theorem rnd_lt_two_pow_63 {c : ℚ} (hc : rnd c = c) (h : c < 2 ^ 63) : c ≤ 2 ^ 63 - 1024 := by
  by_contra hn
  have hlt : (2 : ℚ) ^ 63 - 1024 < c := not_le.mp hn
  have ha : rnd ((2 : ℚ) ^ 63 - 1024) = 2 ^ 63 - 1024 := by
    have := rnd_dyadic (2 ^ 53 - 1) 10 (by norm_num) (by norm_num)
    norm_num at this ⊢
    exact this
  have := repr_gap ha hc (by norm_num) hlt
  norm_num at this h
  linarith

/-- The conversion `int64(x)` of a value of the format is at most
`2^63 - 1024`. -/
theorem truncInt64_rnd_le {c : ℚ} (hc : rnd c = c) : truncInt64 c ≤ 2 ^ 63 - 1024 := by
  have key : ∀ t : Int, (t < 2 ^ 63 → t ≤ 2 ^ 63 - 1024) →
      (if -2 ^ 63 ≤ t ∧ t < 2 ^ 63 then t else -2 ^ 63) ≤ 2 ^ 63 - 1024 := by
    intro t ht
    split_ifs with hr
    · exact ht hr.2
    · norm_num
  by_cases h0 : 0 ≤ c
  · have := key ⌊c⌋ (fun hlt => by
      have h1 : c < 2 ^ 63 := by
        by_contra hn
        have hge : ((2 ^ 63 : Int) : ℚ) ≤ c := by push_cast; exact not_lt.mp hn
        have := Int.le_floor.mpr hge
        omega
      have h3 := rnd_lt_two_pow_63 hc h1
      have h4 : ((⌊c⌋ : Int) : ℚ) ≤ ((2 ^ 63 - 1024 : Int) : ℚ) := by
        have h5 := le_trans (Int.floor_le c) h3
        norm_num at h5 ⊢
        exact h5
      exact_mod_cast h4)
    simpa [truncInt64, h0] using this
  · have := key ⌈c⌉ (fun _ => by
      have h1 : c < 0 := not_le.mp h0
      have h2 : ⌈c⌉ ≤ 0 := Int.ceil_le.mpr (by push_cast; exact h1.le)
      omega)
    simpa [truncInt64, h0] using this

/-- The conversion `int64(x + y)` of a `float64` sum is at most
`2^63 - 1024`. -/
theorem toInt64_add_le (x y : F64) : F64.toInt64 (F64.add x y) ≤ 2 ^ 63 - 1024 := by
  have hr : ∀ q : ℚ, F64.toInt64 (F64.round q) ≤ 2 ^ 63 - 1024 := by
    intro q
    unfold F64.round
    split_ifs
    · simp [F64.toInt64]
    · simp [F64.toInt64]
    · exact truncInt64_rnd_le (rnd_rnd q)
  cases x <;> cases y <;> first | exact hr _ | simp [F64.add, F64.toInt64]

/-- The argument `float64(k+1)` of `loggam` for a candidate `k >= 0`. -/
theorem ofInt64_succ_ge_one (M : LibM) (k : Int) (h0 : 0 ≤ k) (h1 : k ≤ 2 ^ 63 - 1024) :
    ∃ y : ℚ, (binary64 M).ofInt64 (wrapInt64 (k + 1)) = F64.fin y ∧
      F64.round ((k : ℚ) + 1) = F64.fin y ∧ 1 ≤ y := by
  have hw : wrapInt64 (k + 1) = k + 1 := wrapInt64_of_range (by omega) (by omega)
  have hk0 : (0 : ℚ) ≤ k := by exact_mod_cast h0
  have hk1 : (k : ℚ) ≤ 2 ^ 63 - 1024 := by
    have : ((k : Int) : ℚ) ≤ ((2 ^ 63 - 1024 : Int) : ℚ) := Int.cast_le.mpr h1
    norm_num at this ⊢
    exact this
  obtain ⟨e, l, _⟩ := F64.round_of_bounds ((k : ℚ) + 1) 1 (2 ^ 63) (by linarith)
    (by linarith) F64.round_one (F64.round_pow2 63 (by norm_num))
  refine ⟨rnd ((k : ℚ) + 1), ?_, e, l⟩
  show F64.round ((wrapInt64 (k + 1) : Int) : ℚ) = _
  rw [hw]
  push_cast
  exact e

/-- Every argument recorded by the loop of `poissonPtrs` is `float64(k+1)` for
an integer `k >= 0`, and is at least 1. -/
theorem poissonPtrsLoggamArgs_ge_one (M : LibM) (R : Source F64 σ)
    (lam loglam a b invalpha vr : F64) :
    ∀ (fuel : Nat) (r : σ) (x : F64),
      x ∈ poissonPtrsLoggamArgs (binary64 M) R lam loglam a b invalpha vr fuel r →
      ∃ (k : Int) (y : ℚ), 0 ≤ k ∧ x = (binary64 M).ofInt64 (wrapInt64 (k + 1)) ∧
        x = F64.fin y ∧ F64.round ((k : ℚ) + 1) = F64.fin y ∧ 1 ≤ y := by
  intro fuel
  induction fuel with
  | zero => intro r x hx; simp [poissonPtrsLoggamArgs] at hx
  | succ fuel ih =>
    intro r x hx
    simp only [poissonPtrsLoggamArgs] at hx
    split_ifs at hx with h1 h2 h3
    · simp at hx
    · exact ih _ x hx
    · -- the exact test accepts: one call
      simp only [List.mem_singleton] at hx
      simp only [Bool.or_eq_true, decide_eq_true_eq, not_or, not_lt] at h2
      have hk1 := toInt64_add_le
        (F64.add (F64.mul (F64.add (F64.div (F64.mul (F64.round 2) a)
          ((binary64 M).sub ((binary64 M).lit 0.5)
            ((binary64 M).abs ((binary64 M).sub (R.float64 r).1 ((binary64 M).lit 0.5))))) b)
          ((binary64 M).sub (R.float64 r).1 ((binary64 M).lit 0.5))) lam) (F64.round 0.43)
      obtain ⟨y, hy, hy', hy1⟩ := ofInt64_succ_ge_one M _ h2.1 hk1
      exact ⟨_, y, h2.1, hx, hx.trans hy, hy', hy1⟩
    · -- the exact test rejects: one call, then the loop goes on
      simp only [List.mem_cons] at hx
      rcases hx with hx | hx
      · simp only [Bool.or_eq_true, decide_eq_true_eq, not_or, not_lt] at h2
        have hk1 := toInt64_add_le
          (F64.add (F64.mul (F64.add (F64.div (F64.mul (F64.round 2) a)
            ((binary64 M).sub ((binary64 M).lit 0.5)
              ((binary64 M).abs ((binary64 M).sub (R.float64 r).1 ((binary64 M).lit 0.5))))) b)
            ((binary64 M).sub (R.float64 r).1 ((binary64 M).lit 0.5))) lam) (F64.round 0.43)
        obtain ⟨y, hy, hy', hy1⟩ := ofInt64_succ_ge_one M _ h2.1 hk1
        exact ⟨_, y, h2.1, hx, hx.trans hy, hy', hy1⟩
      · exact ih _ x hx

/-! ## The shape constants of `poissonPtrs` -/

/-- The rounding of a number between two dyadic bounds is finite and lies
between the bounds. -/
theorem round_dy (q lo hi : ℚ) (m1 e1 m2 e2 : Int)
    (hlo : lo = (m1 : ℚ) * 2 ^ e1) (hhi : hi = (m2 : ℚ) * 2 ^ e2)
    (hm1 : |m1| < 2 ^ 53) (he1 : -1074 ≤ e1) (he1' : e1 ≤ 970)
    (hm2 : |m2| < 2 ^ 53) (he2 : -1074 ≤ e2) (he2' : e2 ≤ 970)
    (h1 : lo ≤ q) (h2 : q ≤ hi) :
    F64.round q = F64.fin (rnd q) ∧ lo ≤ rnd q ∧ rnd q ≤ hi :=
  F64.round_of_bounds q lo hi h1 h2
    (by rw [hlo]; exact F64.round_dyadic m1 e1 hm1 he1 he1')
    (by rw [hhi]; exact F64.round_dyadic m2 e2 hm2 he2 he2')

/-- The rounding of a positive number loses at most the relative error
`2^-53` and `2^-100`. -/
theorem rnd_ge_rel {x : ℚ} (h : 0 ≤ x) : x * (1 - 1 / 2 ^ 53) - 1 / 2 ^ 100 ≤ rnd x := by
  have h1 := (abs_le.mp (abs_rnd_sub_le_rel x)).1
  rw [abs_of_nonneg h] at h1
  have := tiny_le
  linarith

/-- The square root `slam` of `poissonPtrs` for a finite `lam ≥ 10`. -/
theorem shape_slam (lam : ℚ) (h10 : 10 ≤ lam) (hfin : lam < 2 ^ 1024) :
    ∃ s : ℚ, F64.sqrt (F64.fin lam) = F64.fin s ∧ 3 ≤ s ∧ s ≤ 2 ^ 513 ∧
      s ^ 2 ≤ lam * (1 + 1 / 2 ^ 50) ∧ lam ≤ s ^ 2 * (1 + 1 / 2 ^ 50) := by
  obtain ⟨s, hs, hs0, hs1, hs2⟩ := F64.sqrt_fin_pos (lt_of_lt_of_le (by norm_num) h10)
  refine ⟨s, hs, ?_, ?_, hs1, hs2⟩
  · by_contra h
    have : s < 3 := not_le.mp h
    have : s ^ 2 < 9 := by nlinarith
    norm_num at hs2
    linarith
  · by_contra h
    have h' : (2 : ℚ) ^ 513 < s := not_le.mp h
    have hp : (0 : ℚ) < 2 ^ 513 := by positivity
    have : ((2 : ℚ) ^ 513) ^ 2 < s ^ 2 := by nlinarith
    have e : ((2 : ℚ) ^ 513) ^ 2 = 2 ^ 1024 * 4 := by
      rw [← pow_mul, show 513 * 2 = 1024 + 2 by norm_num, pow_add]; norm_num
    rw [e] at this
    have h3 : lam * (1 + 1 / 2 ^ 50) < 2 ^ 1024 * 4 := by
      have : lam * (1 + 1 / 2 ^ 50) ≤ lam * 2 := by
        apply mul_le_mul_of_nonneg_left (by norm_num) (by linarith)
      have hp' : (0 : ℚ) < 2 ^ 1024 := by positivity
      linarith
    linarith

/-- The constant `b` of `poissonPtrs`, from `slam`: at least 8 and at least
`2 * slam`. -/
theorem shape_b (s : ℚ) (hs3 : 3 ≤ s) (hs : s ≤ 2 ^ 513) :
    ∃ b : ℚ,
      F64.add (F64.round 0.931) (F64.mul (F64.round 2.53) (F64.fin s)) = F64.fin b ∧
      8 ≤ b ∧ b ≤ 2 ^ 516 ∧ 2 * s ≤ b := by
  obtain ⟨c253, ec253, l253, u253⟩ := round_253
  obtain ⟨c931, ec931, l931, u931⟩ := round_0931
  have hs0 : 0 ≤ s := by linarith
  have hp1 : c253 * s ≤ 81 / 32 * s := mul_le_mul_of_nonneg_right u253 hs0
  have hp1' : 5 / 2 * s ≤ c253 * s := mul_le_mul_of_nonneg_right l253 hs0
  have h515 : (2 : ℚ) ^ 515 = 4 * 2 ^ 513 := by
    rw [show 515 = 2 + 513 by norm_num, pow_add]; norm_num
  have h516 : (2 : ℚ) ^ 516 = 8 * 2 ^ 513 := by
    rw [show 516 = 3 + 513 by norm_num, pow_add]; norm_num
  obtain ⟨et1, lt1, ut1⟩ := round_dy (c253 * s) (15 / 2) (2 ^ 515) 15 (-1) 1 515
    (by norm_num) (by norm_num) (by norm_num) (by norm_num) (by norm_num) (by norm_num)
    (by norm_num) (by norm_num) (by linarith) (by rw [h515]; linarith)
  have rt1 := rnd_ge_rel (show 0 ≤ c253 * s by linarith)
  obtain ⟨eb, lb, ub⟩ := round_dy (c931 + rnd (c253 * s)) 8 (2 ^ 516) 1 3 1 516
    (by norm_num) (by norm_num) (by norm_num) (by norm_num) (by norm_num) (by norm_num)
    (by norm_num) (by norm_num) (by linarith) (by rw [h516]; rw [h515] at ut1; linarith)
  have rb := rnd_ge_rel (show 0 ≤ c931 + rnd (c253 * s) by linarith)
  refine ⟨rnd (c931 + rnd (c253 * s)), ?_, lb, ub, ?_⟩
  · rw [ec931, ec253]
    show F64.add (F64.fin c931) (F64.round (c253 * s)) = _
    rw [et1]
    exact eb
  · norm_num at rt1 rb ⊢
    linarith

/-- The constant `a` of `poissonPtrs`, from `b`: at least `1/16`. -/
theorem shape_a (b : ℚ) (lb : 8 ≤ b) (ub : b ≤ 2 ^ 516) :
    ∃ a : ℚ,
      F64.add (F64.round (-0.059)) (F64.mul (F64.round 0.02483) (F64.fin b)) = F64.fin a ∧
      1 / 16 ≤ a ∧ a ≤ 2 ^ 511 := by
  obtain ⟨c02483, ec02483, l02483, u02483⟩ := round_002483
  obtain ⟨c059, ec059, l059, u059⟩ := round_neg0059
  have hp2 : c02483 * b ≤ 13 / 512 * b := mul_le_mul_of_nonneg_right u02483 (by linarith)
  have hp2' : 1 / 64 * b ≤ c02483 * b := mul_le_mul_of_nonneg_right l02483 (by linarith)
  have h516 : (2 : ℚ) ^ 516 = 32 * 2 ^ 511 := by
    rw [show 516 = 5 + 511 by norm_num, pow_add]; norm_num
  have hp : (0 : ℚ) < 2 ^ 511 := by positivity
  obtain ⟨et2, lt2, ut2⟩ := round_dy (c02483 * b) (1 / 8) (2 ^ 511) 1 (-3) 1 511
    (by norm_num) (by norm_num) (by norm_num) (by norm_num) (by norm_num) (by norm_num)
    (by norm_num) (by norm_num) (by linarith) (by rw [h516] at ub; linarith)
  obtain ⟨ea, la, ua⟩ := round_dy (c059 + rnd (c02483 * b)) (1 / 16) (2 ^ 511) 1 (-4) 1 511
    (by norm_num) (by norm_num) (by norm_num) (by norm_num) (by norm_num) (by norm_num)
    (by norm_num) (by norm_num) (by linarith) (by linarith)
  refine ⟨rnd (c059 + rnd (c02483 * b)), ?_, la, ua⟩
  rw [ec059, ec02483]
  show F64.add (F64.fin c059) (F64.round (c02483 * b)) = _
  rw [et2]
  exact ea

/-- The literals of `invalpha` and `vr`. -/
theorem round_11239 : ∃ c : ℚ, F64.round 1.1239 = F64.fin c ∧ rnd c = c ∧ 1 ≤ c ∧ c ≤ 9 / 8 := by
  obtain ⟨c, e, i, l, u, _, _⟩ := round_lit 1.1239 1 (9 / 8) 1 0 9 (-3)
    (by norm_num) (by norm_num) (by norm_num) (by norm_num) (by norm_num) (by norm_num)
    (by norm_num) (by norm_num) (by norm_num) (by norm_num)
  exact ⟨c, e, i, l, u⟩

theorem round_09277 :
    ∃ c : ℚ, F64.round 0.9277 = F64.fin c ∧ rnd c = c ∧ 7 / 8 ≤ c ∧ c ≤ 15 / 16 := by
  obtain ⟨c, e, i, l, u, _, _⟩ := round_lit 0.9277 (7 / 8) (15 / 16) 7 (-3) 15 (-4)
    (by norm_num) (by norm_num) (by norm_num) (by norm_num) (by norm_num) (by norm_num)
    (by norm_num) (by norm_num) (by norm_num) (by norm_num)
  exact ⟨c, e, i, l, u⟩

/-- The denominator `b - 3.4` and the constant `invalpha` of `poissonPtrs`,
from `b`: the denominator is at least `b - 4` and `invalpha` is at least the
literal `1.1239`. -/
theorem shape_invalpha (b : ℚ) (lb : 8 ≤ b) (ub : b ≤ 2 ^ 516) :
    ∃ c d x v : ℚ, F64.round 1.1239 = F64.fin c ∧ 1 ≤ c ∧
      F64.sub (F64.fin b) (F64.round 3.4) = F64.fin d ∧ 4 ≤ d ∧ (b - 4) / 2 ≤ d ∧
      F64.div (F64.round 1.1328) (F64.fin d) = F64.fin x ∧ 0 ≤ x ∧ x ≤ rnd (2 / d) ∧
      F64.add (F64.round 1.1239) (F64.fin x) = F64.fin v ∧ v = rnd (c + x) ∧ c ≤ v := by
  obtain ⟨c, ec, ic, lc, uc⟩ := round_11239
  obtain ⟨c34, e34, _, l34, u34, _, _⟩ := round_lit 3.4 3 4 3 0 4 0
    (by norm_num) (by norm_num) (by norm_num) (by norm_num) (by norm_num) (by norm_num)
    (by norm_num) (by norm_num) (by norm_num) (by norm_num)
  obtain ⟨c28, e28, _, l28, u28, _, _⟩ := round_lit 1.1328 1 2 1 0 2 0
    (by norm_num) (by norm_num) (by norm_num) (by norm_num) (by norm_num) (by norm_num)
    (by norm_num) (by norm_num) (by norm_num) (by norm_num)
  obtain ⟨ed, ld, ud⟩ := round_dy (b + -c34) 4 (2 ^ 516) 4 0 1 516
    (by norm_num) (by norm_num) (by norm_num) (by norm_num) (by norm_num) (by norm_num)
    (by norm_num) (by norm_num) (by linarith) (by linarith)
  have rd := rnd_ge_rel (show 0 ≤ b + -c34 by linarith)
  have hd0 : 0 < rnd (b + -c34) := by linarith
  have hq1 : c28 / rnd (b + -c34) ≤ 1 / 2 := by
    rw [div_le_iff₀ hd0]; linarith
  obtain ⟨ex, lx, ux⟩ := round_dy (c28 / rnd (b + -c34)) 0 (1 / 2) 0 0 1 (-1)
    (by norm_num) (by norm_num) (by norm_num) (by norm_num) (by norm_num) (by norm_num)
    (by norm_num) (by norm_num) (div_nonneg (by linarith) hd0.le) hq1
  obtain ⟨ev, lv, uv⟩ := round_dy (c + rnd (c28 / rnd (b + -c34))) 1 2 1 0 2 0
    (by norm_num) (by norm_num) (by norm_num) (by norm_num) (by norm_num) (by norm_num)
    (by norm_num) (by norm_num) (by linarith) (by linarith)
  refine ⟨c, rnd (b + -c34), rnd (c28 / rnd (b + -c34)),
    rnd (c + rnd (c28 / rnd (b + -c34))), ec, lc, ?_, ld, ?_, ?_, lx, ?_, ?_, rfl, ?_⟩
  · rw [e34]; exact ed
  · norm_num at rd ⊢
    linarith
  · rw [e28]
    simp only [F64.div, if_neg hd0.ne']
    exact ex
  · apply rnd_mono
    exact div_le_div_of_nonneg_right u28 hd0.le
  · rw [ec]; exact ev
  · have := rnd_mono (show c ≤ c + rnd (c28 / rnd (b + -c34)) by linarith)
    rwa [ic] at this

/-- The denominator `b - 2` and the constant `vr` of `poissonPtrs`, from `b`:
`vr` lies between `1/4` and the literal `0.9277`. -/
theorem shape_vr (b : ℚ) (lb : 8 ≤ b) (ub : b ≤ 2 ^ 516) :
    ∃ c d v : ℚ, F64.round 0.9277 = F64.fin c ∧ c ≤ 15 / 16 ∧
      F64.sub (F64.fin b) (F64.round 2) = F64.fin d ∧ 6 ≤ d ∧
      F64.sub (F64.round 0.9277)
        (F64.div (F64.round 3.6224) (F64.sub (F64.fin b) (F64.round 2))) = F64.fin v ∧
      1 / 4 ≤ v ∧ v ≤ c := by
  obtain ⟨c, ec, ic, lc, uc⟩ := round_09277
  obtain ⟨c2, e2, _, l2, u2, _, _⟩ := round_lit 3.6224 (7 / 2) (15 / 4) 7 (-1) 15 (-2)
    (by norm_num) (by norm_num) (by norm_num) (by norm_num) (by norm_num) (by norm_num)
    (by norm_num) (by norm_num) (by norm_num) (by norm_num)
  obtain ⟨ed, ld, ud⟩ := round_dy (b + -2) 6 (2 ^ 516) 6 0 1 516
    (by norm_num) (by norm_num) (by norm_num) (by norm_num) (by norm_num) (by norm_num)
    (by norm_num) (by norm_num) (by linarith) (by linarith)
  have hd0 : 0 < rnd (b + -2) := by linarith
  obtain ⟨ey, ly, uy⟩ := round_dy (c2 / rnd (b + -2)) 0 (5 / 8) 0 0 5 (-3)
    (by norm_num) (by norm_num) (by norm_num) (by norm_num) (by norm_num) (by norm_num)
    (by norm_num) (by norm_num) (div_nonneg (by linarith) hd0.le)
    (by rw [div_le_iff₀ hd0]; linarith)
  obtain ⟨ev, lv, uv⟩ := round_dy (c + -rnd (c2 / rnd (b + -2))) (1 / 4) 1 1 (-2) 1 0
    (by norm_num) (by norm_num) (by norm_num) (by norm_num) (by norm_num) (by norm_num)
    (by norm_num) (by norm_num) (by linarith) (by linarith)
  have hd : F64.sub (F64.fin b) (F64.round 2) = F64.fin (rnd (b + -2)) := by
    rw [F64.round_two]; exact ed
  refine ⟨c, rnd (b + -2), rnd (c + -rnd (c2 / rnd (b + -2))), ec, uc, hd, ld, ?_, lv, ?_⟩
  · rw [hd, ec, e2]
    simp only [F64.div, if_neg hd0.ne', ey]
    exact ev
  · have := rnd_mono (show c + -rnd (c2 / rnd (b + -2)) ≤ c by linarith)
    rwa [ic] at this

/-- The argument `a/(us*us) + b` of the logarithm in the exact test is
strictly positive for every `us > 0`, when `a > 0` and `b ≥ 8` are finite. -/
theorem shape_log_arg (a b : ℚ) (ha : 0 < a) (lb : 8 ≤ b) (us : F64)
    (hus : F64.lt (F64.fin 0) us = true) :
    F64.lt (F64.fin 0) (F64.add (F64.div (F64.fin a) (F64.mul us us)) (F64.fin b)) = true := by
  -- a non-negative or infinite summand keeps the sum positive
  have key : ∀ z : F64, F64.le (F64.fin 0) z = true →
      F64.lt (F64.fin 0) (F64.add z (F64.fin b)) = true := by
    intro z hz
    cases z with
    | fin w =>
      have hw : 0 ≤ w := by simpa [F64.le] using hz
      show F64.lt (F64.fin 0) (F64.round (w + b)) = true
      unfold F64.round
      split_ifs with h1 h2
      · rfl
      · exact absurd (show 0 < w + b by linarith) h2
      · have := rnd_mono (show (8 : ℚ) ≤ w + b by linarith)
        have h8 : rnd (8 : ℚ) = 8 := by
          have := rnd_intCast_small 8 (by norm_num)
          simpa using this
        rw [h8] at this
        simp only [F64.lt, decide_eq_true_eq]
        linarith
    | pinf => rfl
    | ninf => simp [F64.le] at hz
    | nan => simp [F64.le] at hz
  apply key
  -- the quotient is non-negative or `+Inf`
  have hquot : ∀ w : ℚ, 0 ≤ w → F64.le (F64.fin 0) (F64.div (F64.fin a) (F64.fin w)) = true := by
    intro w hw
    rcases hw.eq_or_lt with h0 | h0
    · simp [F64.div, ← h0, ha.ne', ha, F64.le]
    · simp only [F64.div, if_neg h0.ne']
      exact F64.zero_le_round (div_nonneg ha.le h0.le)
  cases us with
  | fin u =>
    show F64.le (F64.fin 0) (F64.div (F64.fin a) (F64.round (u * u))) = true
    unfold F64.round
    split_ifs with h1 h2
    · simp [F64.div, F64.le]
    · exact absurd h2 (by
        have hu : 0 < u := by simpa [F64.lt] using hus
        exact not_not.mpr (mul_pos hu hu))
    · exact hquot _ (rnd_nonneg (mul_self_nonneg u))
  | pinf => simp [F64.mul, F64.div, F64.le]
  | ninf => simp [F64.lt] at hus
  | nan => simp [F64.lt] at hus

/-- The shape constants of `poissonPtrs` in binary64, written out. -/
theorem shapeB_of (M : LibM) (lam : F64) (s b : ℚ) (es : F64.sqrt lam = F64.fin s)
    (eb : F64.add (F64.round 0.931) (F64.mul (F64.round 2.53) (F64.fin s)) = F64.fin b) :
    shapeB (binary64 M) lam = F64.fin b := by
  have h : shapeB (binary64 M) lam
      = F64.add (F64.round 0.931) (F64.mul (F64.round 2.53) (F64.sqrt lam)) := rfl
  rw [h, es]; exact eb

theorem shapeA_of (M : LibM) (lam : F64) (b a : ℚ) (hB : shapeB (binary64 M) lam = F64.fin b)
    (ea : F64.add (F64.round (-0.059)) (F64.mul (F64.round 0.02483) (F64.fin b)) = F64.fin a) :
    shapeA (binary64 M) lam = F64.fin a := by
  have h : shapeA (binary64 M) lam
      = F64.add (F64.round (-0.059)) (F64.mul (F64.round 0.02483) (shapeB (binary64 M) lam)) :=
    rfl
  rw [h, hB]; exact ea

theorem shapeVr_of (M : LibM) (lam : F64) (b v : ℚ) (hB : shapeB (binary64 M) lam = F64.fin b)
    (ev : F64.sub (F64.round 0.9277)
      (F64.div (F64.round 3.6224) (F64.sub (F64.fin b) (F64.round 2))) = F64.fin v) :
    shapeVr (binary64 M) lam = F64.fin v := by
  have h : shapeVr (binary64 M) lam
      = F64.sub (F64.round 0.9277)
        (F64.div (F64.round 3.6224) (F64.sub (shapeB (binary64 M) lam) (F64.round 2))) := rfl
  rw [h, hB]; exact ev

/-- A value of the format in `[1, 9/8]` absorbs an addend of at most
`2^-54`. -/
theorem rnd_add_small {c x : ℚ} (hc : rnd c = c) (h1 : 1 ≤ c) (h2 : c ≤ 9 / 8) (hx0 : 0 ≤ x)
    (hx : x ≤ 1 / 2 ^ 54) : rnd (c + x) = c := by
  have hb : binade c = 0 := by
    apply binade_eq_of_bounds (by norm_num)
    · rw [abs_of_nonneg (by linarith)]; simpa using h1
    · rw [abs_of_nonneg (by linarith)]; norm_num; linarith
  have hb' : binade (c + x) = 0 := by
    apply binade_eq_of_bounds (by norm_num)
    · rw [abs_of_nonneg (by linarith)]; norm_num; linarith
    · rw [abs_of_nonneg (by linarith)]; norm_num at hx ⊢; linarith
  obtain ⟨n, hn⟩ := exists_int_of_rnd_eq hc
  rw [quantum_eq, hb] at hn
  rw [rnd_eq_of_binade hb']
  have hq : (2 : ℚ) ^ ((0 : Int) - 52) = 1 / 2 ^ 52 := by
    rw [show ((0 : Int) - 52) = -52 by norm_num, zpow_neg]; norm_num
  rw [hq] at hn ⊢
  have e : (c + x) / (1 / 2 ^ 52) = (n : ℚ) + x * 2 ^ 52 := by
    rw [hn]; field_simp
  rw [e, @roundHalfEven_eq_of_lt _ n (by norm_num at hx ⊢; linarith)
    (by norm_num at hx ⊢; linarith)]
  exact hn.symm

/-- The literal `1.1239` rounds down: the `float64` value is below the
decimal. -/
theorem round_11239_lt : ∃ c : ℚ, F64.round 1.1239 = F64.fin c ∧ c < 1.1239 := by
  obtain ⟨c, e, _, _, _⟩ := round_11239
  refine ⟨c, e, ?_⟩
  have hb : binade (1.1239 : ℚ) = 0 := by
    apply binade_eq_of_bounds (by norm_num)
    · rw [abs_of_nonneg (by norm_num)]; norm_num
    · rw [abs_of_nonneg (by norm_num)]; norm_num
  have hr : rnd (1.1239 : ℚ) = 5061595621201700 / 2 ^ 52 := by
    rw [rnd_eq_of_binade hb]
    have hq : (2 : ℚ) ^ ((0 : Int) - 52) = 1 / 2 ^ 52 := by
      rw [show ((0 : Int) - 52) = -52 by norm_num, zpow_neg]; norm_num
    rw [hq, @roundHalfEven_eq_of_lt _ 5061595621201700 (by norm_num) (by norm_num)]
    norm_num
  have hc : c = rnd (1.1239 : ℚ) := by
    have h1 := @F64.round_of_lt (1.1239 : ℚ) (by
      rw [hr, abs_of_nonneg (by norm_num)]; norm_num)
    rw [e] at h1
    exact F64.fin.inj h1
  rw [hc, hr]
  norm_num

/-- For a finite `lam ≥ 2^200` the constant `invalpha` is the literal
`1.1239`: the quotient `1.1328/(b-3.4)` is below half a unit in the last
place. -/
theorem shapeInvalpha_large (M : LibM) (lam : ℚ) (hbig : 2 ^ 200 ≤ lam)
    (hfin : lam < 2 ^ 1024) :
    shapeInvalpha (binary64 M) (F64.fin lam) = F64.round 1.1239 := by
  obtain ⟨s, es, hs3, hs513, _, hs2⟩ := shape_slam lam
    (le_trans (by norm_num) hbig) hfin
  obtain ⟨b, eb, lb, ub, hbs⟩ := shape_b s hs3 hs513
  obtain ⟨c, d, x, v, ec, lc, ed, ld, hd, ex, lx, ux, ev, hv, _⟩ := shape_invalpha b lb ub
  obtain ⟨c', ec', ic', _, uc'⟩ := round_11239
  have hcc : c' = c := by rw [ec'] at ec; exact F64.fin.inj ec
  subst hcc
  have hs99 : (2 : ℚ) ^ 99 ≤ s := by
    by_contra h
    have h' : s < 2 ^ 99 := not_le.mp h
    have hp : (0 : ℚ) < 2 ^ 99 := by positivity
    have : s ^ 2 < (2 ^ 99) ^ 2 := by nlinarith
    have e : ((2 : ℚ) ^ 99) ^ 2 = 2 ^ 198 := by rw [← pow_mul]
    rw [e] at this
    have h200 : (2 : ℚ) ^ 200 = 4 * 2 ^ 198 := by
      rw [show 200 = 2 + 198 by norm_num, pow_add]; norm_num
    rw [h200] at hbig
    have hp' : (0 : ℚ) < 2 ^ 198 := by positivity
    have : s ^ 2 * (1 + 1 / 2 ^ 50) ≤ s ^ 2 * 2 :=
      mul_le_mul_of_nonneg_left (by norm_num) (sq_nonneg s)
    linarith
  have hd98 : (2 : ℚ) ^ 98 ≤ d := by
    have h99 : (2 : ℚ) ^ 99 = 2 * 2 ^ 98 := by
      rw [show 99 = 1 + 98 by norm_num, pow_add]; norm_num
    have hp : (8 : ℚ) ≤ 2 ^ 98 := by norm_num
    rw [h99] at hs99
    linarith
  have hx54 : x ≤ 1 / 2 ^ 54 := by
    have hd0 : (0 : ℚ) < d := by linarith
    have h1 : 2 / d ≤ 1 / 2 ^ 54 := by
      rw [div_le_div_iff₀ hd0 (by positivity)]
      have : (2 : ℚ) * 2 ^ 54 ≤ 2 ^ 98 := by norm_num
      linarith
    have h2 := rnd_mono h1
    have h3 : rnd ((1 : ℚ) / 2 ^ 54) = 1 / 2 ^ 54 := by
      have := rnd_dyadic 1 (-54) (by norm_num) (by norm_num)
      rw [zpow_neg] at this
      norm_num at this ⊢
      exact this
    rw [h3] at h2
    exact ux.trans h2
  have hvc : v = c' := by rw [hv]; exact rnd_add_small ic' lc uc' lx hx54
  show F64.add (F64.round 1.1239) (F64.div (F64.round 1.1328)
    (F64.sub (F64.add (F64.round 0.931) (F64.mul (F64.round 2.53)
      (F64.sqrt (F64.fin lam)))) (F64.round 3.4))) = _
  rw [es, eb, ed, ex, ev, hvc, ec']

/-- C19, the claim fails for large `lam`: at `lam = 2^200` the constant
`invalpha` equals the `float64` literal `1.1239`, which lies below the decimal
`1.1239`, so `invalpha > 1.1239` does not hold. -/
theorem shapeInvalpha_not_gt :
    (10 : ℚ) ≤ 2 ^ 200 ∧ F64.round ((2 : ℚ) ^ 200) = F64.fin (2 ^ 200) ∧
      ∃ c : ℚ, F64.round 1.1239 = F64.fin c ∧ c < 1.1239 ∧
        ∀ M : LibM, shapeInvalpha (binary64 M) (F64.fin (2 ^ 200)) = F64.fin c ∧
          F64.lt (F64.round 1.1239) (shapeInvalpha (binary64 M) (F64.fin (2 ^ 200))) = false := by
  obtain ⟨c, ec, hc⟩ := round_11239_lt
  refine ⟨by norm_num, F64.round_pow2 200 (by norm_num), c, ec, hc, fun M => ?_⟩
  rw [shapeInvalpha_large M (2 ^ 200) le_rfl (by norm_num), ec]
  exact ⟨rfl, by simp [F64.lt]⟩

/-- C19 as amended: for every finite `float64` value `lam >= 10` the shape
constants computed by `poissonPtrs` in binary64 are finite and positive:
`b >= 8 > 3.4`, the denominators `b - 3.4` and `b - 2` are strictly positive,
`a > 0`, `invalpha` is at least the literal `1.1239` (and at least 1, so its
logarithm is defined), `0 < vr` and `vr` is at most the literal `0.9277`, and
for every `us > 0` the argument `a/(us*us) + b` of the logarithm in the exact
test is strictly positive. -/
theorem shape_constants_positive (M : LibM) (lam : ℚ) (h10 : 10 ≤ lam)
    (hlam : F64.round lam = F64.fin lam) :
    ∃ b a ia vr : ℚ,
      shapeB (binary64 M) (F64.fin lam) = F64.fin b ∧
      shapeA (binary64 M) (F64.fin lam) = F64.fin a ∧
      shapeInvalpha (binary64 M) (F64.fin lam) = F64.fin ia ∧
      shapeVr (binary64 M) (F64.fin lam) = F64.fin vr ∧
      8 ≤ b ∧
      F64.lt (F64.fin 0) (F64.sub (F64.fin b) (F64.round 3.4)) = true ∧
      F64.lt (F64.fin 0) (F64.sub (F64.fin b) (F64.round 2)) = true ∧
      0 < a ∧
      F64.le (F64.round 1.1239) (F64.fin ia) = true ∧ 1 ≤ ia ∧
      0 < vr ∧ F64.le (F64.fin vr) (F64.round 0.9277) = true ∧
      ∀ us : F64, F64.lt (F64.fin 0) us = true →
        F64.lt (F64.fin 0) (F64.add (F64.div (F64.fin a) (F64.mul us us)) (F64.fin b))
          = true := by
  have hfin : lam < 2 ^ 1024 := by
    have := (abs_lt.mp (F64.rnd_of_round_eq hlam).2).2
    exact this
  obtain ⟨s, es, hs3, hs513, _, _⟩ := shape_slam lam h10 hfin
  obtain ⟨b, eb, lb, ub, _⟩ := shape_b s hs3 hs513
  obtain ⟨a, ea, la, _⟩ := shape_a b lb ub
  obtain ⟨c, d, x, v, ec, lc, ed, ld, _, ex, _, _, ev, _, hcv⟩ := shape_invalpha b lb ub
  obtain ⟨c2, d2, vr, ec2, _, ed2, ld2, evr, lvr, uvr⟩ := shape_vr b lb ub
  have hB : shapeB (binary64 M) (F64.fin lam) = F64.fin b := by
    show F64.add (F64.round 0.931) (F64.mul (F64.round 2.53) (F64.sqrt (F64.fin lam))) = _
    rw [es]; exact eb
  have hA : shapeA (binary64 M) (F64.fin lam) = F64.fin a := by
    show F64.add (F64.round (-0.059))
      (F64.mul (F64.round 0.02483) (shapeB (binary64 M) (F64.fin lam))) = _
    rw [hB]; exact ea
  have hI : shapeInvalpha (binary64 M) (F64.fin lam) = F64.fin v := by
    show F64.add (F64.round 1.1239) (F64.div (F64.round 1.1328)
      (F64.sub (shapeB (binary64 M) (F64.fin lam)) (F64.round 3.4))) = _
    rw [hB, ed, ex]; exact ev
  have hV : shapeVr (binary64 M) (F64.fin lam) = F64.fin vr := by
    show F64.sub (F64.round 0.9277) (F64.div (F64.round 3.6224)
      (F64.sub (shapeB (binary64 M) (F64.fin lam)) (F64.round 2))) = _
    rw [hB]; exact evr
  refine ⟨b, a, v, vr, hB, hA, hI, hV, lb, ?_, ?_, by linarith, ?_, by linarith, by linarith,
    ?_, fun us hus => shape_log_arg a b (by linarith) lb us hus⟩
  · rw [ed]
    simp only [F64.lt, decide_eq_true_eq]
    linarith
  · rw [ed2]
    simp only [F64.lt, decide_eq_true_eq]
    linarith
  · rw [ec]
    simp only [F64.le, decide_eq_true_eq]
    exact hcv
  · rw [ec2]
    simp only [F64.le, decide_eq_true_eq]
    exact uvr

/-- The shape constants at `lam = 16`, with the coarse library. -/
theorem shape_constants_positive_witness :
    (10 : ℚ) ≤ 16 ∧ F64.round 16 = F64.fin 16 ∧
    ∃ b a ia vr : ℚ,
      shapeB (binary64 coarseLibM) (F64.fin 16) = F64.fin b ∧
      shapeA (binary64 coarseLibM) (F64.fin 16) = F64.fin a ∧
      shapeInvalpha (binary64 coarseLibM) (F64.fin 16) = F64.fin ia ∧
      shapeVr (binary64 coarseLibM) (F64.fin 16) = F64.fin vr ∧
      8 ≤ b ∧
      F64.lt (F64.fin 0) (F64.sub (F64.fin b) (F64.round 3.4)) = true ∧
      F64.lt (F64.fin 0) (F64.sub (F64.fin b) (F64.round 2)) = true ∧
      0 < a ∧
      F64.le (F64.round 1.1239) (F64.fin ia) = true ∧ 1 ≤ ia ∧
      0 < vr ∧ F64.le (F64.fin vr) (F64.round 0.9277) = true ∧
      ∀ us : F64, F64.lt (F64.fin 0) us = true →
        F64.lt (F64.fin 0) (F64.add (F64.div (F64.fin a) (F64.mul us us)) (F64.fin b))
          = true :=
  have h16 : F64.round 16 = F64.fin 16 := by
    simpa using F64.round_intCast 16 (by norm_num)
  ⟨by norm_num, h16, shape_constants_positive coarseLibM 16 (by norm_num) h16⟩

/-! ## The calls of `loggam` and the candidate of `poissonPtrs` -/

/-- An iteration in which neither the squeeze nor the fast-reject test holds
calls `loggam` at `float64(k+1)`. -/
theorem poissonPtrsLoggamArgs_head (A : Arith F) (R : Source F σ)
    (lam loglam a b invalpha vr : F) (fuel : Nat) (r : σ)
    (h1 : ptrsSqueeze A vr (ptrsUs A (R.float64 r).1) (R.float64 (R.float64 r).2).1 = false)
    (h2 : ptrsReject A (ptrsCandidateOf A lam a b (R.float64 r).1) (ptrsUs A (R.float64 r).1)
      (R.float64 (R.float64 r).2).1 = false) :
    A.ofInt64 (wrapInt64 (ptrsCandidateOf A lam a b (R.float64 r).1 + 1))
      ∈ poissonPtrsLoggamArgs A R lam loglam a b invalpha vr (fuel + 1) r := by
  simp only [ptrsSqueeze, ptrsReject, ptrsCandidateOf, ptrsUs, ptrsU] at h1 h2
  simp only [poissonPtrsLoggamArgs, ptrsCandidateOf, ptrsUs, ptrsU, h1, h2, Bool.false_eq_true,
    if_false]
  exact List.mem_cons_self _ _

/-- C16: every call that `poissonPtrs` makes to `loggam`, for every `lam`,
every source and every fuel, has an argument `x = float64(k+1)` for an integer
`k >= 0`, and `x >= 1`: the exact test is reached only after the fast-reject
test has excluded `k < 0`, and `k + 1` does not overflow. -/
theorem poissonPtrs_loggam_args (M : LibM) (R : Source F64 σ) (fuel : Nat) (lam : F64) (r : σ)
    (x : F64) (hx : x ∈ poissonPtrsArgs (binary64 M) R fuel lam r) :
    ∃ (k : Int) (y : ℚ), 0 ≤ k ∧ x = (binary64 M).ofInt64 (wrapInt64 (k + 1)) ∧
      x = F64.fin y ∧ F64.round ((k : ℚ) + 1) = F64.fin y ∧ 1 ≤ y :=
  poissonPtrsLoggamArgs_ge_one M R lam _ _ _ _ _ fuel r x hx

theorem round_0013 : ∃ c : ℚ, F64.round 0.013 = F64.fin c ∧ 0 ≤ c ∧ c ≤ 1 / 4 := by
  obtain ⟨c, e, _, l, u, _, _⟩ := round_lit 0.013 0 (1 / 4) 0 0 1 (-2)
    (by norm_num) (by norm_num) (by norm_num) (by norm_num) (by norm_num) (by norm_num)
    (by norm_num) (by norm_num) (by norm_num) (by norm_num)
  exact ⟨c, e, l, u⟩

/-- The centred draw and the distance for the draw `1/2`: `U = 0` and
`us = 1/2`. -/
theorem ptrsU_half (M : LibM) :
    ptrsU (binary64 M) (F64.fin (1 / 2)) = F64.fin 0 ∧
      ptrsUs (binary64 M) (F64.fin (1 / 2)) = F64.fin (1 / 2) := by
  have hU : ptrsU (binary64 M) (F64.fin (1 / 2)) = F64.fin 0 := by
    show F64.sub (F64.fin (1 / 2)) (F64.round 0.5) = _
    rw [round_half']
    show F64.round (1 / 2 + -(1 / 2)) = _
    norm_num
  refine ⟨hU, ?_⟩
  show F64.sub (F64.round 0.5) (F64.abs (ptrsU (binary64 M) (F64.fin (1 / 2)))) = _
  rw [hU, round_half']
  show F64.round (1 / 2 + -|0|) = _
  have := F64.round_dyadic 1 (-1) (by norm_num) (by norm_num) (by norm_num)
  norm_num at this ⊢
  exact this

/-- At `lam = 16` with the draws `1/2` and `255/256` the first iteration of
`poissonPtrs` reaches the exact test. -/
theorem poissonPtrsArgs_example (M : LibM) :
    ∃ x : F64, x ∈ poissonPtrsArgs (binary64 M) (replay (F64.fin 0)) 1 (F64.fin 16)
      [F64.fin (1 / 2), F64.fin (255 / 256)] := by
  obtain ⟨s, es, hs3, hs32, hs1⟩ := ptrs_slam 16 (by norm_num) (by norm_num)
  obtain ⟨b, eb, lb, ub, hbs⟩ := ptrs_b s hs3 hs32
  obtain ⟨a, ea, la, ua⟩ := ptrs_a b lb ub
  have hkey := ptrs_key 16 s b hs3 hs1 hbs
  obtain ⟨c, d, vr, ec, uc, _, _, evr, _, uvr⟩ := shape_vr b lb
    (le_trans ub (by norm_num))
  obtain ⟨c007, e007, l007, u007⟩ := round_007
  obtain ⟨c0013, e0013, l0013, u0013⟩ := round_0013
  obtain ⟨hU, hus⟩ := ptrsU_half M
  have hB : shapeB (binary64 M) (F64.fin 16) = F64.fin b := shapeB_of M _ s b es eb
  have hA : shapeA (binary64 M) (F64.fin 16) = F64.fin a := shapeA_of M _ b a hB ea
  have hV : shapeVr (binary64 M) (F64.fin 16) = F64.fin vr := shapeVr_of M _ b vr hB evr
  have hk : 0 ≤ ptrsCandidateOf (binary64 M) (F64.fin 16) (F64.fin a) (F64.fin b)
      (F64.fin (1 / 2)) := by
    unfold ptrsCandidateOf
    rw [hU, hus]
    exact ptrsCandidate_nonneg M 16 a b (1 / 2) 0 lb ub la ua (by norm_num) (by norm_num) hkey
      (by norm_num)
  refine ⟨_, poissonPtrsLoggamArgs_head (binary64 M) (replay (F64.fin 0)) (F64.fin 16)
    ((binary64 M).log (F64.fin 16)) (shapeA (binary64 M) (F64.fin 16))
    (shapeB (binary64 M) (F64.fin 16)) (shapeInvalpha (binary64 M) (F64.fin 16))
    (shapeVr (binary64 M) (F64.fin 16)) 0 [F64.fin (1 / 2), F64.fin (255 / 256)] ?_ ?_⟩
  · show ptrsSqueeze (binary64 M) (shapeVr (binary64 M) (F64.fin 16))
      (ptrsUs (binary64 M) (F64.fin (1 / 2))) (F64.fin (255 / 256)) = false
    rw [hV, hus]
    have : ¬ (255 / 256 : ℚ) ≤ vr := by
      have : vr ≤ 15 / 16 := le_trans uvr uc
      intro h
      linarith
    unfold ptrsSqueeze
    rw [Bool.and_eq_false_iff]
    right
    show F64.le (F64.fin (255 / 256)) (F64.fin vr) = false
    simp [F64.le, this]
  · show ptrsReject (binary64 M) (ptrsCandidateOf (binary64 M) (F64.fin 16)
      (shapeA (binary64 M) (F64.fin 16)) (shapeB (binary64 M) (F64.fin 16)) (F64.fin (1 / 2)))
      (ptrsUs (binary64 M) (F64.fin (1 / 2))) (F64.fin (255 / 256)) = false
    rw [hA, hB, hus]
    have h1 : ¬ ptrsCandidateOf (binary64 M) (F64.fin 16) (F64.fin a) (F64.fin b)
        (F64.fin (1 / 2)) < 0 := not_lt.mpr hk
    have h2 : ¬ (1 / 2 : ℚ) < c0013 := by
      intro h
      linarith
    unfold ptrsReject
    rw [Bool.or_eq_false_iff]
    refine ⟨by simpa using hk, ?_⟩
    show (F64.lt (F64.fin (1 / 2)) (F64.round 0.013)
      && F64.lt (F64.fin (1 / 2)) (F64.fin (255 / 256))) = false
    rw [e0013, Bool.and_eq_false_iff]
    left
    simp only [F64.lt, decide_eq_false_iff_not]
    exact h2

/-- A call of `loggam` at `lam = 16`, with the coarse library and the draws
`1/2` and `255/256`. -/
theorem poissonPtrs_loggam_args_witness :
    ∃ x : F64, x ∈ poissonPtrsArgs (binary64 coarseLibM) (replay (F64.fin 0)) 1 (F64.fin 16)
        [F64.fin (1 / 2), F64.fin (255 / 256)] ∧
      ∃ (k : Int) (y : ℚ), 0 ≤ k ∧ x = (binary64 coarseLibM).ofInt64 (wrapInt64 (k + 1)) ∧
        x = F64.fin y ∧ F64.round ((k : ℚ) + 1) = F64.fin y ∧ 1 ≤ y :=
  (poissonPtrsArgs_example coarseLibM).elim fun x hx =>
    ⟨x, hx, poissonPtrs_loggam_args coarseLibM (replay (F64.fin 0)) 1 (F64.fin 16)
      [F64.fin (1 / 2), F64.fin (255 / 256)] x hx⟩

/-- The value converted by `int64(...)` in `poissonPtrs`, in binary64. -/
theorem ptrsValue_binary64 (M : LibM) (lam a b us U : F64) :
    ptrsValue (binary64 M) lam a b us U
      = F64.add (F64.add (F64.mul (F64.add (F64.div (F64.mul (F64.round 2) a) us) b) U) lam)
          (F64.round 0.43) := rfl

/-- The candidate is the conversion `int64(...)` of the value. -/
theorem ptrsCandidate_eq_value (A : Arith F) (lam a b us U : F) :
    ptrsCandidate A lam a b us U = A.toInt64 (ptrsValue A lam a b us U) := rfl

/-- The centred draw and the distance for the draw `1/64`: `U = -31/64` and
`us = 1/64`. -/
theorem ptrsU_64 (M : LibM) :
    ptrsU (binary64 M) (F64.fin (1 / 64)) = F64.fin (-31 / 64) ∧
      ptrsUs (binary64 M) (F64.fin (1 / 64)) = F64.fin (1 / 64) := by
  have hU : ptrsU (binary64 M) (F64.fin (1 / 64)) = F64.fin (-31 / 64) := by
    have h : ptrsU (binary64 M) (F64.fin (1 / 64))
        = F64.sub (F64.fin (1 / 64)) (F64.round 0.5) := rfl
    rw [h, round_half']
    simp only [F64.sub, F64.neg, F64.add]
    have := F64.round_dyadic (-31) (-6) (by norm_num) (by norm_num) (by norm_num)
    norm_num at this ⊢
    exact this
  refine ⟨hU, ?_⟩
  have h : ptrsUs (binary64 M) (F64.fin (1 / 64))
      = F64.sub (F64.round 0.5) (F64.abs (ptrsU (binary64 M) (F64.fin (1 / 64)))) := rfl
  rw [h, hU, round_half']
  simp only [F64.sub, F64.neg, F64.add, F64.abs]
  have := F64.round_dyadic 1 (-6) (by norm_num) (by norm_num) (by norm_num)
  have e : (1 / 2 : ℚ) + -|(-31 / 64 : ℚ)| = 1 / 64 := by
    rw [abs_of_neg (by norm_num)]; norm_num
  rw [e]
  norm_num at this ⊢
  exact this

/-- The shape constants `a` and `b` of `poissonPtrs` at `lam = 16`. -/
theorem shape_16 (M : LibM) :
    ∃ a b : ℚ, shapeB (binary64 M) (F64.fin 16) = F64.fin b ∧
      shapeA (binary64 M) (F64.fin 16) = F64.fin a ∧
      (225857 / 1048576) ≤ a ∧ a ≤ (225871 / 1048576) ∧ (11587809 / 1048576) ≤ b ∧ b ≤ (2896955 / 262144) := by
  obtain ⟨s, es, hs0, hs1, hs2⟩ := F64.sqrt_fin_pos (show (0 : ℚ) < 16 by norm_num)
  have l_s : (4194303 / 1048576) ≤ s := by
    by_contra h
    have h' : s < (4194303 / 1048576) := not_le.mp h
    norm_num at hs2
    nlinarith
  have u_s : s ≤ (4194305 / 1048576) := by
    by_contra h
    have h' : (4194305 / 1048576) < s := not_le.mp h
    norm_num at hs1
    nlinarith
  obtain ⟨e_c253, l_c253, u_c253⟩ := round_dy (2.53) (2652897 / 1048576) (1326449 / 524288) 2652897 (-20) 1326449 (-19)
    (by norm_num) (by norm_num) (by norm_num) (by norm_num) (by norm_num) (by norm_num) (by norm_num) (by norm_num)
    (by norm_num)
    (by norm_num)
  generalize rnd (2.53 : ℚ) = c253 at e_c253 l_c253 u_c253
  obtain ⟨e_c931, l_c931, u_c931⟩ := round_dy (0.931) (30507 / 32768) (976225 / 1048576) 30507 (-15) 976225 (-20)
    (by norm_num) (by norm_num) (by norm_num) (by norm_num) (by norm_num) (by norm_num) (by norm_num) (by norm_num)
    (by norm_num)
    (by norm_num)
  generalize rnd (0.931 : ℚ) = c931 at e_c931 l_c931 u_c931
  obtain ⟨e_c02483, l_c02483, u_c02483⟩ := round_dy (0.02483) (6509 / 262144) (26037 / 1048576) 6509 (-18) 26037 (-20)
    (by norm_num) (by norm_num) (by norm_num) (by norm_num) (by norm_num) (by norm_num) (by norm_num) (by norm_num)
    (by norm_num)
    (by norm_num)
  generalize rnd (0.02483 : ℚ) = c02483 at e_c02483 l_c02483 u_c02483
  obtain ⟨e_c059, l_c059, u_c059⟩ := round_dy (-0.059) (-30933 / 524288) (-61865 / 1048576) (-30933) (-19) (-61865) (-20)
    (by norm_num) (by norm_num) (by norm_num) (by norm_num) (by norm_num) (by norm_num) (by norm_num) (by norm_num)
    (by norm_num)
    (by norm_num)
  generalize rnd (-0.059 : ℚ) = c059 at e_c059 l_c059 u_c059
  obtain ⟨e_t1, l_t1, u_t1⟩ := round_dy (c253 * s) (10611585 / 1048576) (10611595 / 1048576) 10611585 (-20) 10611595 (-20)
    (by norm_num) (by norm_num) (by norm_num) (by norm_num) (by norm_num) (by norm_num) (by norm_num) (by norm_num)
    (le_trans (by norm_num) (mul_le_mul l_c253 l_s (by norm_num) (by linarith)))
    (le_trans (mul_le_mul u_c253 u_s (by linarith) (by norm_num)) (by norm_num))
  generalize rnd (c253 * s) = t1 at e_t1 l_t1 u_t1
  obtain ⟨e_b, l_b, u_b⟩ := round_dy (c931 + t1) (11587809 / 1048576) (2896955 / 262144) 11587809 (-20) 2896955 (-18)
    (by norm_num) (by norm_num) (by norm_num) (by norm_num) (by norm_num) (by norm_num) (by norm_num) (by norm_num)
    (by linarith)
    (by linarith)
  generalize rnd (c931 + t1) = b at e_b l_b u_b
  obtain ⟨e_t2, l_t2, u_t2⟩ := round_dy (c02483 * b) (287723 / 1048576) (35967 / 131072) 287723 (-20) 35967 (-17)
    (by norm_num) (by norm_num) (by norm_num) (by norm_num) (by norm_num) (by norm_num) (by norm_num) (by norm_num)
    (le_trans (by norm_num) (mul_le_mul l_c02483 l_b (by norm_num) (by linarith)))
    (le_trans (mul_le_mul u_c02483 u_b (by linarith) (by norm_num)) (by norm_num))
  generalize rnd (c02483 * b) = t2 at e_t2 l_t2 u_t2
  obtain ⟨e_a, l_a, u_a⟩ := round_dy (c059 + t2) (225857 / 1048576) (225871 / 1048576) 225857 (-20) 225871 (-20)
    (by norm_num) (by norm_num) (by norm_num) (by norm_num) (by norm_num) (by norm_num) (by norm_num) (by norm_num)
    (by linarith)
    (by linarith)
  generalize rnd (c059 + t2) = a at e_a l_a u_a
  have eb : F64.add (F64.round 0.931) (F64.mul (F64.round 2.53) (F64.fin s)) = F64.fin b := by
    rw [e_c931, e_c253]
    simp only [F64.mul, e_t1, F64.add]
    exact e_b
  have ea : F64.add (F64.round (-0.059)) (F64.mul (F64.round 0.02483) (F64.fin b))
      = F64.fin a := by
    rw [e_c059, e_c02483]
    simp only [F64.mul, e_t2, F64.add]
    exact e_a
  have hB := shapeB_of M (F64.fin 16) s b es eb
  exact ⟨a, b, hB, shapeA_of M (F64.fin 16) b a hB ea, l_a, u_a, l_b, u_b⟩

/-- The value `(2*a/us+b)*U + lam + 0.43` at `lam = 16`, `us = 1/64` and
`U = -31/64` lies strictly between `-3` and `-2`. -/
theorem ptrsValue_16 (M : LibM) (a b : ℚ) (l_a : (225857 / 1048576) ≤ a) (u_a : a ≤ (225871 / 1048576))
    (l_b : (11587809 / 1048576) ≤ b) (u_b : b ≤ (2896955 / 262144)) :
    ∃ v : ℚ, ptrsValue (binary64 M) (F64.fin 16) (F64.fin a) (F64.fin b) (F64.fin (1 / 64))
        (F64.fin (-31 / 64)) = F64.fin v ∧ -3 < v ∧ v < -2 := by
  obtain ⟨e_c043, l_c043, u_c043⟩ := round_dy (0.43) (450887 / 1048576) (56361 / 131072) 450887 (-20) 56361 (-17)
    (by norm_num) (by norm_num) (by norm_num) (by norm_num) (by norm_num) (by norm_num) (by norm_num) (by norm_num)
    (by norm_num)
    (by norm_num)
  generalize rnd (0.43 : ℚ) = c043 at e_c043 l_c043 u_c043
  obtain ⟨e_m1, l_m1, u_m1⟩ := round_dy (2 * a) (225857 / 524288) (225871 / 524288) 225857 (-19) 225871 (-19)
    (by norm_num) (by norm_num) (by norm_num) (by norm_num) (by norm_num) (by norm_num) (by norm_num) (by norm_num)
    (by linarith)
    (by linarith)
  generalize rnd (2 * a) = m1 at e_m1 l_m1 u_m1
  have hm1 : m1 / (1 / 64) = 64 * m1 := by ring
  obtain ⟨e_d1, l_d1, u_d1⟩ := round_dy (m1 / (1 / 64)) (225857 / 8192) (225871 / 8192) 225857 (-13) 225871 (-13)
    (by norm_num) (by norm_num) (by norm_num) (by norm_num) (by norm_num) (by norm_num) (by norm_num) (by norm_num)
    (by rw [hm1]; linarith)
    (by rw [hm1]; linarith)
  generalize rnd (m1 / (1 / 64)) = d1 at e_d1 l_d1 u_d1
  obtain ⟨e_s1, l_s1, u_s1⟩ := round_dy (d1 + b) (40497505 / 1048576) (10124827 / 262144) 40497505 (-20) 10124827 (-18)
    (by norm_num) (by norm_num) (by norm_num) (by norm_num) (by norm_num) (by norm_num) (by norm_num) (by norm_num)
    (by linarith)
    (by linarith)
  generalize rnd (d1 + b) = s1 at e_s1 l_s1 u_s1
  obtain ⟨e_p1, l_p1, u_p1⟩ := round_dy (s1 * (-31 / 64)) (-19616853 / 1048576) (-9807989 / 524288) (-19616853) (-20) (-9807989) (-19)
    (by norm_num) (by norm_num) (by norm_num) (by norm_num) (by norm_num) (by norm_num) (by norm_num) (by norm_num)
    (by linarith)
    (by linarith)
  generalize rnd (s1 * (-31 / 64)) = p1 at e_p1 l_p1 u_p1
  obtain ⟨e_v1, l_v1, u_v1⟩ := round_dy (p1 + 16) (-2839637 / 1048576) (-1419381 / 524288) (-2839637) (-20) (-1419381) (-19)
    (by norm_num) (by norm_num) (by norm_num) (by norm_num) (by norm_num) (by norm_num) (by norm_num) (by norm_num)
    (by linarith)
    (by linarith)
  generalize rnd (p1 + 16) = v1 at e_v1 l_v1 u_v1
  obtain ⟨e_v, l_v, u_v⟩ := round_dy (v1 + c043) (-1194375 / 524288) (-1193937 / 524288) (-1194375) (-19) (-1193937) (-19)
    (by norm_num) (by norm_num) (by norm_num) (by norm_num) (by norm_num) (by norm_num) (by norm_num) (by norm_num)
    (by linarith)
    (by linarith)
  generalize rnd (v1 + c043) = v at e_v l_v u_v
  refine ⟨v, ?_, by linarith, by linarith⟩
  rw [ptrsValue_binary64, F64.round_two, e_c043]
  simp only [F64.mul, e_m1, F64.div, if_neg (show ¬ (1 / 64 : ℚ) = 0 by norm_num), e_d1, F64.add,
    e_s1, e_p1, e_v1]
  exact e_v

/-- The conversion `int64(x)` for `-3 < x < -2` is `-2`, and the floor is
`-3`. -/
theorem truncInt64_neg_example {v : ℚ} (h1 : -3 < v) (h2 : v < -2) :
    truncInt64 v = -2 ∧ ⌊v⌋ = -3 := by
  have hc : ⌈v⌉ = -2 := by
    rw [Int.ceil_eq_iff]
    constructor
    · push_cast; linarith
    · push_cast; linarith
  have hf : ⌊v⌋ = -3 := by
    rw [Int.floor_eq_iff]
    constructor
    · push_cast; linarith
    · push_cast; linarith
  refine ⟨?_, hf⟩
  unfold truncInt64
  simp only [if_neg (show ¬ 0 ≤ v by linarith), hc]
  norm_num

/-- The first iteration of `poissonPtrs` at `lam = 16` with the first draw
`1/64`: the value converted by `int64(...)` lies in `(-3, -2)` and the
candidate is `-2`. -/
theorem ptrsCandidate_16 (M : LibM) :
    ∃ v : ℚ,
      ptrsValue (binary64 M) (F64.fin 16) (shapeA (binary64 M) (F64.fin 16))
        (shapeB (binary64 M) (F64.fin 16)) (ptrsUs (binary64 M) (F64.fin (1 / 64)))
        (ptrsU (binary64 M) (F64.fin (1 / 64))) = F64.fin v ∧
      -3 < v ∧ v < -2 ∧ ⌊v⌋ = -3 ∧
      ptrsCandidateOf (binary64 M) (F64.fin 16) (shapeA (binary64 M) (F64.fin 16))
        (shapeB (binary64 M) (F64.fin 16)) (F64.fin (1 / 64)) = -2 := by
  obtain ⟨a, b, hB, hA, la, ua, lb, ub⟩ := shape_16 M
  obtain ⟨v, hv, h1, h2⟩ := ptrsValue_16 M a b la ua lb ub
  obtain ⟨hU, hus⟩ := ptrsU_64 M
  obtain ⟨ht, hf⟩ := truncInt64_neg_example h1 h2
  refine ⟨v, ?_, h1, h2, hf, ?_⟩
  · rw [hA, hB, hU, hus]; exact hv
  · unfold ptrsCandidateOf
    rw [ptrsCandidate_eq_value, hA, hB, hU, hus, hv]
    exact ht

/-- C12 as amended: in every iteration of `poissonPtrs`, in binary64, when the
value `(2a/us + b)*U + lam + 0.43` is a finite number `q` in the range of
`int64`, the candidate `k` is `q` truncated toward zero: the floor of `q` when
`q >= 0` and the ceiling of `q` when `q < 0`.  So `k` is the floor of the value
exactly when the value is non-negative or an integer. -/
theorem ptrsCandidate_trunc (M : LibM) (lam a b us U : F64) (q : ℚ)
    (hv : ptrsValue (binary64 M) lam a b us U = F64.fin q) (hlo : -2 ^ 63 ≤ q)
    (hhi : q < 2 ^ 63) :
    ptrsCandidate (binary64 M) lam a b us U = (if 0 ≤ q then ⌊q⌋ else ⌈q⌉) ∧
      (ptrsCandidate (binary64 M) lam a b us U = ⌊q⌋ ↔ (0 ≤ q ∨ (⌊q⌋ : ℚ) = q)) := by
  have hk : ptrsCandidate (binary64 M) lam a b us U = (if 0 ≤ q then ⌊q⌋ else ⌈q⌉) := by
    rw [ptrsCandidate_eq_value, hv]
    show truncInt64 q = _
    unfold truncInt64
    have hr : -2 ^ 63 ≤ (if 0 ≤ q then ⌊q⌋ else ⌈q⌉) ∧ (if 0 ≤ q then ⌊q⌋ else ⌈q⌉) < 2 ^ 63 := by
      split_ifs with h0
      · constructor
        · have := Int.floor_nonneg.mpr h0
          omega
        · rw [Int.floor_lt]; push_cast; exact hhi
      · constructor
        · rw [Int.le_ceil_iff]; push_cast; linarith
        · have h1 : q < 0 := not_le.mp h0
          have : ⌈q⌉ ≤ 0 := Int.ceil_le.mpr (by push_cast; exact h1.le)
          omega
    simp only [if_pos hr]
  refine ⟨hk, ?_⟩
  rw [hk]
  split_ifs with h0
  · exact ⟨fun _ => Or.inl h0, fun _ => rfl⟩
  · constructor
    · intro h
      right
      have h1 : (⌈q⌉ : ℚ) = ⌊q⌋ := by rw [h]
      have h2 := Int.le_ceil q
      have h3 := Int.floor_le q
      linarith
    · rintro (h | h)
      · exact absurd h h0
      · rw [← h, Int.ceil_intCast, Int.floor_intCast]

/-- C12, the claim fails: at `lam = 16` with the first draw `1/64` the value
lies strictly between `-3` and `-2`, its floor is `-3`, and the candidate is
`-2`. -/
theorem ptrsCandidate_not_floor :
    (10 : ℚ) ≤ 16 ∧
      ∀ M : LibM, ∃ v : ℚ,
        ptrsValue (binary64 M) (F64.fin 16) (shapeA (binary64 M) (F64.fin 16))
          (shapeB (binary64 M) (F64.fin 16)) (ptrsUs (binary64 M) (F64.fin (1 / 64)))
          (ptrsU (binary64 M) (F64.fin (1 / 64))) = F64.fin v ∧
        ⌊v⌋ = -3 ∧
        ptrsCandidateOf (binary64 M) (F64.fin 16) (shapeA (binary64 M) (F64.fin 16))
          (shapeB (binary64 M) (F64.fin 16)) (F64.fin (1 / 64)) = -2 ∧
        ptrsCandidateOf (binary64 M) (F64.fin 16) (shapeA (binary64 M) (F64.fin 16))
          (shapeB (binary64 M) (F64.fin 16)) (F64.fin (1 / 64)) ≠ ⌊v⌋ := by
  refine ⟨by norm_num, fun M => ?_⟩
  obtain ⟨v, hv, _, _, hf, hk⟩ := ptrsCandidate_16 M
  exact ⟨v, hv, hf, hk, by rw [hk, hf]; norm_num⟩

/-- The candidate at `lam = 16` with the first draw `1/64` and the coarse
library: the ceiling of the value. -/
theorem ptrsCandidate_trunc_witness :
    ∃ q : ℚ,
      ptrsValue (binary64 coarseLibM) (F64.fin 16) (shapeA (binary64 coarseLibM) (F64.fin 16))
        (shapeB (binary64 coarseLibM) (F64.fin 16))
        (ptrsUs (binary64 coarseLibM) (F64.fin (1 / 64)))
        (ptrsU (binary64 coarseLibM) (F64.fin (1 / 64))) = F64.fin q ∧
      -2 ^ 63 ≤ q ∧ q < 2 ^ 63 ∧
      (ptrsCandidate (binary64 coarseLibM) (F64.fin 16)
          (shapeA (binary64 coarseLibM) (F64.fin 16))
          (shapeB (binary64 coarseLibM) (F64.fin 16))
          (ptrsUs (binary64 coarseLibM) (F64.fin (1 / 64)))
          (ptrsU (binary64 coarseLibM) (F64.fin (1 / 64)))
        = (if 0 ≤ q then ⌊q⌋ else ⌈q⌉) ∧
      (ptrsCandidate (binary64 coarseLibM) (F64.fin 16)
          (shapeA (binary64 coarseLibM) (F64.fin 16))
          (shapeB (binary64 coarseLibM) (F64.fin 16))
          (ptrsUs (binary64 coarseLibM) (F64.fin (1 / 64)))
          (ptrsU (binary64 coarseLibM) (F64.fin (1 / 64))) = ⌊q⌋ ↔
        (0 ≤ q ∨ (⌊q⌋ : ℚ) = q))) :=
  (ptrsCandidate_16 coarseLibM).elim fun q h =>
    have hlo : -2 ^ 63 ≤ q := le_trans (by norm_num) h.2.1.le
    have hhi : q < 2 ^ 63 := lt_trans h.2.2.1 (by norm_num)
    ⟨q, h.1, hlo, hhi, ptrsCandidate_trunc coarseLibM _ _ _ _ _ q h.1 hlo hhi⟩

/-! ## Monotonicity of `poissonMult` -/

/-- The order of `float64`: `x <= y` and `y < z` give `x < z`. -/
theorem F64.le_lt_trans {x y z : F64} (h1 : F64.le x y = true) (h2 : F64.lt y z = true) :
    F64.lt x z = true := by
  cases x <;> cases y <;> cases z <;> simp [F64.le, F64.lt] at h1 h2 ⊢
  linarith

/-- The state after `n` draws made from the state after one draw. -/
theorem Source.after_float64 (R : Source F σ) (r : σ) (n : Nat) :
    R.after (R.float64 r).2 n = R.after r (n + 1) := by
  induction n with
  | zero => rfl
  | succ n ih =>
    show (R.float64 (R.after (R.float64 r).2 n)).2 = (R.float64 (R.after r (n + 1))).2
    rw [ih]

/-- Within `2^63` iterations the count of `poissonMult` does not wrap: a result
of the loop entered with the count `X` is at least `X`, and the loop has then
made at least one draw. -/
theorem poissonMultLoop_ge (A : Arith F) (R : Source F σ) (enlam : F) :
    ∀ (fuel : Nat) (prod : F) (X : Int) (s : σ) (k : Int) (r' : σ),
      0 ≤ X → X + fuel ≤ 2 ^ 63 →
      poissonMultLoop A R enlam fuel prod X s = some (k, r') →
      X ≤ k ∧ ∃ n, r' = R.after s (n + 1) := by
  intro fuel
  induction fuel with
  | zero => intro prod X s k r' _ _ h; simp [poissonMultLoop] at h
  | succ fuel ih =>
    intro prod X s k r' h0 hX h
    simp only [poissonMultLoop] at h
    split_ifs at h with hc
    · cases fuel with
      | zero => simp [poissonMultLoop] at h
      | succ fuel =>
        have hw : wrapInt64 (X + 1) = X + 1 := wrapInt64_of_range (by omega) (by push_cast at hX; omega)
        rw [hw] at h
        obtain ⟨h1, n, hn⟩ := ih _ _ _ _ _ (by omega) (by push_cast at hX ⊢; omega) h
        refine ⟨by omega, n + 1, ?_⟩
        rw [hn]
        exact Source.after_float64 R s (n + 1)
    · simp only [Option.some.injEq, Prod.mk.injEq] at h
      exact ⟨by omega, 0, h.2.symm⟩

/-- The loops of `poissonMult` for two thresholds, the first at least the
second, on the same draws: when the loop of the smaller threshold returns
within `2^63` iterations, the loop of the larger one returns no later and its
result is no larger. -/
theorem poissonMultLoop_mono (A : Arith F) (R : Source F σ) (e1 e2 : F)
    (hmono : ∀ p : F, A.lt e1 p = true → A.lt e2 p = true) :
    ∀ (fuel : Nat) (prod : F) (X : Int) (s : σ) (k2 : Int) (r2 : σ),
      0 ≤ X → X + fuel ≤ 2 ^ 63 →
      poissonMultLoop A R e2 fuel prod X s = some (k2, r2) →
      ∃ (k1 : Int) (n1 n2 : Nat),
        poissonMultLoop A R e1 fuel prod X s = some (k1, R.after s n1) ∧
        r2 = R.after s n2 ∧ n1 ≤ n2 ∧ k1 ≤ k2 := by
  intro fuel
  induction fuel with
  | zero => intro prod X s k2 r2 _ _ h; simp [poissonMultLoop] at h
  | succ fuel ih =>
    intro prod X s k2 r2 h0 hX h
    simp only [poissonMultLoop] at h ⊢
    by_cases hc1 : A.lt e1 (A.mul prod (R.float64 s).1) = true
    · have hc2 := hmono _ hc1
      rw [if_pos hc2] at h
      rw [if_pos hc1]
      cases fuel with
      | zero => simp [poissonMultLoop] at h
      | succ fuel =>
        have hw : wrapInt64 (X + 1) = X + 1 :=
          wrapInt64_of_range (by omega) (by push_cast at hX; omega)
        rw [hw] at h ⊢
        obtain ⟨k1, n1, n2, h1, h2, h3, h4⟩ :=
          ih _ _ _ _ _ (by omega) (by push_cast at hX ⊢; omega) h
        refine ⟨k1, n1 + 1, n2 + 1, ?_, ?_, by omega, h4⟩
        · rw [h1, Source.after_float64 R s n1]
        · rw [h2, Source.after_float64 R s n2]
    · rw [if_neg hc1]
      by_cases hc2 : A.lt e2 (A.mul prod (R.float64 s).1) = true
      · rw [if_pos hc2] at h
        cases fuel with
        | zero => simp [poissonMultLoop] at h
        | succ fuel =>
          have hw : wrapInt64 (X + 1) = X + 1 :=
            wrapInt64_of_range (by omega) (by push_cast at hX; omega)
          rw [hw] at h
          obtain ⟨h1, n, hn⟩ := poissonMultLoop_ge A R e2 _ _ _ _ _ _ (by omega)
            (by push_cast at hX ⊢; omega) h
          refine ⟨X, 1, n + 2, rfl, ?_, by omega, by omega⟩
          rw [hn]
          exact Source.after_float64 R s (n + 1)
      · rw [if_neg hc2] at h
        simp only [Option.some.injEq, Prod.mk.injEq] at h
        exact ⟨X, 1, 1, rfl, h.2.symm, le_rfl, by omega⟩

/-- More fuel does not change a result of the loop of `poissonMult`. -/
theorem poissonMultLoop_fuel (A : Arith F) (R : Source F σ) (enlam : F) :
    ∀ (fuel : Nat) (prod : F) (X : Int) (s : σ) (res : Int × σ),
      poissonMultLoop A R enlam fuel prod X s = some res →
      ∀ fuel2 : Nat, fuel ≤ fuel2 → poissonMultLoop A R enlam fuel2 prod X s = some res := by
  intro fuel
  induction fuel with
  | zero => intro prod X s res h; simp [poissonMultLoop] at h
  | succ fuel ih =>
    intro prod X s res h fuel2 hf
    obtain ⟨f2, rfl⟩ : ∃ f2, fuel2 = f2 + 1 := ⟨fuel2 - 1, by omega⟩
    simp only [poissonMultLoop] at h ⊢
    split_ifs at h ⊢ with hc
    · exact ih _ _ _ _ h f2 (by omega)
    · exact h

/-- Under the contract of the source and with `math.Exp` normal, the loop of
`poissonMult` returns within `2^63` iterations. -/
theorem poissonMult_returns_within (M : LibM) (R : Source F64 σ) (r : σ) (lam : ℚ)
    (h0 : 0 < lam) (h10 : lam < 10)
    (hexp : ∀ x : ℚ, -10 < x → x < 0 →
      ∃ e : ℚ, M.exp (F64.fin x) = F64.fin e ∧ 2 ^ (-1022 : Int) ≤ e)
    (hd : UnitDraws R r) :
    ∃ n : Nat, poissonMult (binary64 M) R (2 ^ 63) (F64.fin lam) r
      = some ((n : Int), R.after r (n + 1)) := by
  obtain ⟨e, hee, he⟩ := hexp (-lam) (by linarith) (by linarith)
  have hex : ∃ n, ¬ (F64.lt (F64.fin e) (runningProd (binary64 M) R r (n + 1)) = true) := by
    by_contra hall
    push_neg at hall
    have := runningProd_count_lt M R r hd e he (1022 * 2 ^ 53) (fun i _ => hall i)
    exact lt_irrefl _ this
  classical
  let n := Nat.find hex
  have hn : ¬ (F64.lt (F64.fin e) (runningProd (binary64 M) R r (n + 1)) = true) :=
    Nat.find_spec hex
  have hgt : ∀ j, j < n →
      F64.lt (F64.fin e) (runningProd (binary64 M) R r (j + 1)) = true := by
    intro j hj
    by_contra hc
    exact Nat.find_min hex hj hc
  have hcount := runningProd_count_lt M R r hd e he n hgt
  obtain ⟨p, hp, _, _, _⟩ := runningProd_unit M R r hd (n + 1)
  have hle : F64.le (runningProd (binary64 M) R r (n + 1)) (F64.fin e) = true := by
    rw [hp] at hn ⊢
    have : ¬ e < p := by simpa [F64.lt] using hn
    simpa [F64.le] using this
  refine ⟨n, poissonMult_returns_least M R r lam h0 h10 hexp hd n ?_ ?_ (2 ^ 63) ?_⟩
  · rw [hee]; exact hgt
  · rw [hee]; exact hle
  · have : 1022 * 2 ^ 53 < 2 ^ 63 := by norm_num
    omega

/-- C18: `poissonMult` is monotone in `lam` on a fixed draw sequence.  For every
`0 < lam1 <= lam2 < 10`, the arguments that `PoissonInt64` passes to
`poissonMult`, every source whose draws are `float64` values in `[0,1)`, with
`math.Exp` a normal number on `(-10, 0)` and `math.Exp(-lam2) <= math.Exp(-lam1)`,
and every fuel: when `poissonMult(lam2)` returns, `poissonMult(lam1)` also
returns, it consumes no more draws (`n1 <= n2`) and its result is no larger.
The count stays below `2^63` and never wraps. -/
theorem poissonMult_mono (M : LibM) (R : Source F64 σ) (r : σ) (lam1 lam2 : ℚ)
    (h0 : 0 < lam1) (h12 : lam1 ≤ lam2) (h10 : lam2 < 10)
    (hexp : ∀ x : ℚ, -10 < x → x < 0 →
      ∃ e : ℚ, M.exp (F64.fin x) = F64.fin e ∧ 2 ^ (-1022 : Int) ≤ e)
    (hmono : F64.le (M.exp (F64.fin (-lam2))) (M.exp (F64.fin (-lam1))) = true)
    (hd : UnitDraws R r)
    (fuel : Nat) (k2 : Int) (r2 : σ)
    (h : poissonMult (binary64 M) R fuel (F64.fin lam2) r = some (k2, r2)) :
    ∃ (k1 : Int) (n1 n2 : Nat),
      poissonMult (binary64 M) R fuel (F64.fin lam1) r = some (k1, R.after r n1) ∧
      r2 = R.after r n2 ∧ n1 ≤ n2 ∧ k1 ≤ k2 := by
  have hlt : ∀ p : F64, (binary64 M).lt (M.exp (F64.fin (-lam1))) p = true →
      (binary64 M).lt (M.exp (F64.fin (-lam2))) p = true :=
    fun _ hp => F64.le_lt_trans hmono hp
  rcases le_or_lt fuel (2 ^ 63) with hf | hf
  · exact poissonMultLoop_mono (binary64 M) R (M.exp (F64.fin (-lam1))) (M.exp (F64.fin (-lam2)))
      hlt fuel _ 0 r k2 r2 le_rfl
      (by have : ((fuel : Nat) : Int) ≤ 2 ^ 63 := by exact_mod_cast hf
          omega) h
  · obtain ⟨n, hn⟩ := poissonMult_returns_within M R r lam2 (by linarith) h10 hexp hd
    have hn2 : poissonMult (binary64 M) R fuel (F64.fin lam2) r
        = some ((n : Int), R.after r (n + 1)) :=
      poissonMultLoop_fuel (binary64 M) R _ _ _ _ _ _ hn fuel (le_of_lt hf)
    rw [hn2] at h
    simp only [Option.some.injEq, Prod.mk.injEq] at h
    obtain ⟨k1, n1, n2, a1, a2, a3, a4⟩ :=
      poissonMultLoop_mono (binary64 M) R (M.exp (F64.fin (-lam1))) (M.exp (F64.fin (-lam2)))
        hlt (2 ^ 63) _ 0 r (n : Int) (R.after r (n + 1)) le_rfl (by norm_num) hn
    refine ⟨k1, n1, n2, ?_, ?_, a3, ?_⟩
    · exact poissonMultLoop_fuel (binary64 M) R _ _ _ _ _ _ a1 fuel (le_of_lt hf)
    · rw [← h.2]; exact a2
    · rw [← h.1]; exact a4


theorem coarse_exp_neg_three : coarseLibM.exp (F64.fin (-3)) = F64.fin (1 / 4) := by
  simp only [coarseLibM]
  norm_num
  exact round_quarter

theorem round_eighth : F64.round (1 / 8) = F64.fin (1 / 8) := by
  have := F64.round_dyadic 1 (-3) (by norm_num) (by norm_num) (by norm_num)
  norm_num at this ⊢; exact this

/-- The run of `poissonMult(3)` with the coarse library (`exp(-3)` is `1/4`)
on the draw `1/8`: the result is 0 after one draw. -/
theorem poissonMult_example :
    poissonMult (binary64 coarseLibM) (replay (F64.fin 0)) 1 (F64.fin 3) [F64.fin (1 / 8)]
      = some (0, []) := by
  have h : poissonMult (binary64 coarseLibM) (replay (F64.fin 0)) 1 (F64.fin 3)
      [F64.fin (1 / 8)]
      = poissonMultLoop (binary64 coarseLibM) (replay (F64.fin 0))
          (coarseLibM.exp (F64.fin (-3))) 1 (F64.round 1) 0 [F64.fin (1 / 8)] := rfl
  rw [h, coarse_exp_neg_three, F64.round_one]
  simp only [poissonMultLoop, replay, binary64, List.headD_cons, List.tail_cons, F64.mul, one_mul,
    round_eighth, F64.lt]
  norm_num

theorem eighth_draw_unit : UnitDraws (replay (F64.fin 0)) [F64.fin (1 / 8)] :=
  unitDraws_replay _ (by
    intro x hx
    simp only [List.mem_singleton] at hx
    subst hx
    exact ⟨1 / 8, rfl, round_eighth, by norm_num, by norm_num⟩)

/-- Monotonicity at `lam1 = 1`, `lam2 = 3` with the coarse library and the draw
`1/8`. -/
theorem poissonMult_mono_witness :
    (0 : ℚ) < 1 ∧ (1 : ℚ) ≤ 3 ∧ (3 : ℚ) < 10 ∧
      (∀ x : ℚ, -10 < x → x < 0 →
        ∃ e : ℚ, coarseLibM.exp (F64.fin x) = F64.fin e ∧ 2 ^ (-1022 : Int) ≤ e) ∧
      F64.le (coarseLibM.exp (F64.fin (-3))) (coarseLibM.exp (F64.fin (-1))) = true ∧
      UnitDraws (replay (F64.fin 0)) [F64.fin (1 / 8)] ∧
      poissonMult (binary64 coarseLibM) (replay (F64.fin 0)) 1 (F64.fin 3) [F64.fin (1 / 8)]
        = some (0, []) ∧
      ∃ (k1 : Int) (n1 n2 : Nat),
        poissonMult (binary64 coarseLibM) (replay (F64.fin 0)) 1 (F64.fin 1) [F64.fin (1 / 8)]
          = some (k1, (replay (F64.fin 0)).after [F64.fin (1 / 8)] n1) ∧
        [] = (replay (F64.fin 0)).after [F64.fin (1 / 8)] n2 ∧ n1 ≤ n2 ∧ k1 ≤ 0 :=
  have hmono : F64.le (coarseLibM.exp (F64.fin (-3))) (coarseLibM.exp (F64.fin (-1))) = true := by
    rw [coarse_exp_neg_three, coarse_exp_neg_one]
    norm_num [F64.le]
  ⟨by norm_num, by norm_num, by norm_num, coarseLibM_exp_normal, hmono, eighth_draw_unit,
    poissonMult_example,
    poissonMult_mono coarseLibM (replay (F64.fin 0)) [F64.fin (1 / 8)] 1 3
      (by norm_num) (by norm_num) (by norm_num) coarseLibM_exp_normal hmono eighth_draw_unit
      1 0 [] poissonMult_example⟩

end Numgo
